import Mathlib

/-!
# Verification of the website-crawler core

Shallow embedding of `src/crawler/core.py` (the crawl engine of the
website-crawler repository) together with the parts of CPython's
`urllib.parse` standard library (3.11-line semantics) that the engine
calls: `urlparse`, `urlsplit`, `urljoin`, `urldefrag`, `urlunparse`,
`urlunsplit` and the `hostname` / `port` properties of parse results.

Python strings are modelled as `List Char` (sequences of code points).
Case folding (`str.lower`) and digit recognition are modelled on the
ASCII range, which is the range exercised by URLs and by every claim.
Python exceptions are modelled with `Except PyErr`; every `ValueError`
raise site of the embedded code gets its own `PyErr` constructor so that
error provenance is visible in theorem statements.

The HTTP transport (`requests.Session.get`) and the HTML extractor
(BeautifulSoup: `extract_links`, `parse_metadata`) are out-of-scope
external collaborators in the spec; they are modelled as oracle
functions supplied to the crawl engine (the fetch oracle is indexed by a
call counter so that arbitrary, time-varying fetcher behaviour is
covered).  `utc_now_iso` is likewise an oracle indexed by a call
counter.
-/

namespace Crawler

/-- Python strings as lists of code points. -/
abbrev PyStr := List Char

/-- `str.lower()` restricted to ASCII case folding (`Char.toLower` maps
only `A`-`Z`).  URLs' schemes and the hosts in every claim are ASCII. -/
def pyLower (s : PyStr) : PyStr := s.map Char.toLower

/-- Split at the first occurrence of `sep`, like Python `s.split(sep, 1)`
when `sep in s`; `none` when `sep` does not occur. -/
def splitFirst (sep : Char) : PyStr → Option (PyStr × PyStr)
  | [] => none
  | c :: cs =>
    if c = sep then some ([], cs)
    else (splitFirst sep cs).map (fun p => (c :: p.1, p.2))

/-- The part of `s` before the first `sep` (all of `s` if absent):
`s.partition(sep)[0]`. -/
def partBefore (sep : Char) (s : PyStr) : PyStr :=
  match splitFirst sep s with
  | some p => p.1
  | none => s

/-- The part of `s` after the first `sep` (empty if absent):
`s.partition(sep)[2]`. -/
def partAfter (sep : Char) (s : PyStr) : PyStr :=
  match splitFirst sep s with
  | some p => p.2
  | none => []

/-- Split at the last occurrence of `sep`; `none` when absent. -/
def rsplitLast (sep : Char) (s : PyStr) : Option (PyStr × PyStr) :=
  (splitFirst sep s.reverse).map (fun p => (p.2.reverse, p.1.reverse))

/-- The part of `s` after the last `sep` (all of `s` if absent):
`s.rpartition(sep)[2]`. -/
def afterLast (sep : Char) (s : PyStr) : PyStr :=
  match rsplitLast sep s with
  | some p => p.2
  | none => s

/-- Python `s.split(sep)` (no maxsplit): always a non-empty list. -/
def splitAll (sep : Char) : PyStr → List PyStr
  | [] => [[]]
  | c :: cs =>
    if c = sep then [] :: splitAll sep cs
    else
      match splitAll sep cs with
      | r :: rs => (c :: r) :: rs
      | [] => [[c]]

/-- `'c'.join(parts)` for one-character separators. -/
def joinSep (sep : Char) : List PyStr → PyStr
  | [] => []
  | [p] => p
  | p :: ps => p ++ sep :: joinSep sep ps

/-- Python `str.isspace` characters (the set Python's default
`str.strip()` removes). -/
def pyIsSpace (c : Char) : Bool :=
  c.val = 32 ∨ (9 ≤ c.val ∧ c.val ≤ 13) ∨ (28 ≤ c.val ∧ c.val ≤ 31) ∨
  c.val = 133 ∨ c.val = 160 ∨ c.val = 0x1680 ∨
  (0x2000 ≤ c.val ∧ c.val ≤ 0x200a) ∨
  c.val = 0x2028 ∨ c.val = 0x2029 ∨ c.val = 0x202f ∨ c.val = 0x205f ∨
  c.val = 0x3000

/-- Python `s.strip()` with default (whitespace) characters. -/
def pyStrip (s : PyStr) : PyStr :=
  ((s.dropWhile pyIsSpace).reverse.dropWhile pyIsSpace).reverse

/-- Worker for `natDigits` (the fuel argument dominates the digit count
so the recursion is structural and computes by kernel reduction). -/
def natDigitsAux : Nat → Nat → PyStr
  | 0, _ => []
  | fuel + 1, n =>
    if n < 10 then [Char.ofNat (48 + n)]
    else natDigitsAux fuel (n / 10) ++ [Char.ofNat (48 + n % 10)]

/-- ASCII decimal digits of a natural number: Python `str(n)` / f-string
formatting of a non-negative int. -/
def natDigits (n : Nat) : PyStr := natDigitsAux (n + 1) n

/-- Value of an all-ASCII-digit string (`int(s)` on a string that
already passed `s.isdigit() and s.isascii()`). -/
def decimalValue (s : PyStr) : Nat :=
  s.foldl (fun acc c => acc * 10 + (c.toNat - 48)) 0

/-- Worker for `hexRepr` (structural on fuel). -/
def hexReprAux : Nat → Nat → PyStr
  | 0, _ => []
  | fuel + 1, n =>
    if n < 16 then [Char.ofNat (if n < 10 then 48 + n else 87 + n)]
    else hexReprAux fuel (n / 16) ++
      [Char.ofNat (let d := n % 16; if d < 10 then 48 + d else 87 + d)]

/-- Lower-case hexadecimal digits of a natural number (`'%x' % n`). -/
def hexRepr (n : Nat) : PyStr := hexReprAux (n + 1) n

/-- ASCII hexadecimal digit (`_HEX_DIGITS` of `ipaddress`). -/
def isHexDigit (c : Char) : Bool :=
  c.isDigit ∨ ('a' ≤ c ∧ c ≤ 'f') ∨ ('A' ≤ c ∧ c ≤ 'F')

/-- `ipaddress.IPv4Address._parse_octet`: non-empty, ASCII digits only,
at most 3 characters, no leading zeros, value at most 255. -/
def isValidOctet (s : PyStr) : Bool :=
  s ≠ [] ∧ s.all Char.isDigit ∧ s.length ≤ 3 ∧
  (s = ['0'] ∨ s.head? ≠ some '0') ∧ decimalValue s ≤ 255

/-- `ipaddress.IPv4Address` string validity: four dot-separated valid
octets (and no `/`, rejected by the constructor). -/
def isValidIPv4 (s : PyStr) : Bool :=
  !(s.contains '/') &&
  (match splitAll '.' s with
   | [a, b, c, d] => isValidOctet a && isValidOctet b && isValidOctet c && isValidOctet d
   | _ => false)

/-- The 32-bit value of a valid IPv4 string. -/
def ipv4Value (s : PyStr) : Nat :=
  (splitAll '.' s).foldl (fun acc oct => acc * 256 + decimalValue oct) 0

/-- `ipaddress._BaseV6._parse_hextet`: 1 to 4 hex digits. -/
def isValidHextet (s : PyStr) : Bool :=
  s.all isHexDigit ∧ s.length ≤ 4 ∧ s ≠ []

/-- The structural part of `ipaddress._BaseV6._ip_int_from_string`
applied to the colon-separated parts (after IPv4-suffix conversion):
at most 9 parts, at most one empty inner part (the `::` skip), empty
endpoints only adjacent to the skip, at least one zero group skipped
when `::` is present, exactly 8 parts otherwise, and every non-skipped
part a valid hextet. -/
def ipv6StructOk (parts : List PyStr) : Bool :=
  decide (parts.length ≤ 9) &&
  (let mids := (parts.drop 1).dropLast
   let skips := mids.filter (fun p => p = [])
   if skips.length > 1 then false
   else if skips.length = 1 then
     let skipIdx := 1 + (mids.indexOf [])
     let hi := if parts.head? = some [] then
         (if skipIdx = 1 then 0 else 1000) else skipIdx
     let lo := if parts.getLast? = some [] then
         (if skipIdx = parts.length - 2 then 0 else 1000)
       else parts.length - skipIdx - 1
     decide (hi + lo ≤ 7) &&
     ((parts.take hi).all isValidHextet) &&
     ((parts.reverse.take lo).all isValidHextet)
   else
     decide (parts.length = 8) && parts.all isValidHextet)

/-- `ipaddress._BaseV6._ip_int_from_string` validity (no scope id):
at least 3 colon-separated parts; an IPv4-style last part is converted
to two hextets; then the structural check. -/
def isValidIPv6NoScope (s : PyStr) : Bool :=
  !(s.isEmpty) &&
  (let parts := splitAll ':' s
   decide (parts.length ≥ 3) &&
   (match parts.getLast? with
    | some last =>
      if last.contains '.' then
        isValidIPv4 last &&
        ipv6StructOk (parts.dropLast ++
          [hexRepr ((ipv4Value last) / 65536), hexRepr ((ipv4Value last) % 65536)])
      else ipv6StructOk parts
    | none => false))

/-- `ipaddress.IPv6Address` string validity: optional non-empty
`%scope` (no second `%`), no `/`, and a valid address part. -/
def isValidIPv6 (s : PyStr) : Bool :=
  !(s.contains '/') &&
  (match splitFirst '%' s with
   | some (addr, scope) =>
     !(scope.isEmpty) && !(scope.contains '%') && isValidIPv6NoScope addr
   | none => isValidIPv6NoScope s)

/-- `urllib.parse._check_bracketed_host`: `true` when no `ValueError`
is raised.  A host starting with `v` must match the IPvFuture pattern
`v[hexdigits]+\.(anything nonempty without a newline)`; otherwise the
host must be a valid IPv6 address (a valid IPv4 address raises). -/
def checkBracketedHost (hostname : PyStr) : Bool :=
  match hostname with
  | 'v' :: rest =>
    let hexRun := rest.takeWhile isHexDigit
    let remainder := rest.drop hexRun.length
    !(hexRun.isEmpty) &&
    (match remainder with
     | '.' :: tail => !(tail.isEmpty) && !(tail.contains '\n')
     | _ => false)
  | _ => !(isValidIPv4 hostname) && isValidIPv6 hostname

/-- Python exceptions raised by the embedded code.  All of these are
`ValueError` in CPython; the constructors record the raise site:
`invalidIPv6` from `urlsplit` ("Invalid IPv6 URL"), `portNotInt` /
`portOutOfRange` from the `port` property, `invalidStartUrl` and
`startPrefixMismatch` from the validation at the top of `crawl`. -/
inductive PyErr where
  | invalidIPv6 : PyErr
  | invalidBracketedHost (hostname : PyStr) : PyErr
  | portNotInt (portStr : PyStr) : PyErr
  | portOutOfRange (n : Int) : PyErr
  | invalidStartUrl (url : PyStr) : PyErr
  | startPrefixMismatch : PyErr
deriving DecidableEq, Repr

/-- Result of `urllib.parse.urlsplit`. -/
structure SplitResult where
  scheme : PyStr
  netloc : PyStr
  path : PyStr
  query : PyStr
  fragment : PyStr
deriving DecidableEq, Repr

/-- Result of `urllib.parse.urlparse` (= urlsplit + params). -/
structure ParseResult where
  scheme : PyStr
  netloc : PyStr
  path : PyStr
  params : PyStr
  query : PyStr
  fragment : PyStr
deriving DecidableEq, Repr

/-- `_WHATWG_C0_CONTROL_OR_SPACE` membership: code points `≤ 0x20`. -/
def isC0OrSpace (c : Char) : Bool := c.val ≤ 32

/-- The `_UNSAFE_URL_BYTES_TO_REMOVE` of `urllib.parse`: tab, CR, LF. -/
def isUnsafeUrlByte (c : Char) : Bool := c = '\t' ∨ c = '\r' ∨ c = '\n'

/-- The cleaning `urlsplit` applies to its `url` argument:
`url.lstrip(_WHATWG_C0_CONTROL_OR_SPACE)` followed by removal of every
tab/CR/LF. -/
def cleanUrl (s : PyStr) : PyStr :=
  (s.dropWhile isC0OrSpace).filter (fun c => ¬ isUnsafeUrlByte c)

/-- The cleaning `urlsplit` applies to its `scheme` argument:
`scheme.strip(_WHATWG_C0_CONTROL_OR_SPACE)` followed by tab/CR/LF
removal. -/
def cleanScheme (s : PyStr) : PyStr :=
  (((s.dropWhile isC0OrSpace).reverse.dropWhile isC0OrSpace).reverse).filter
    (fun c => ¬ isUnsafeUrlByte c)

/-- `scheme_chars` of `urllib.parse`: ASCII letters, digits, `+-.`. -/
def isSchemeChar (c : Char) : Bool :=
  (c.isUpper ∨ c.isLower ∨ c.isDigit) ∨ c = '+' ∨ c = '-' ∨ c = '.'

/-- Characters that terminate the netloc in `_splitnetloc`. -/
def isNetlocEnd (c : Char) : Bool := c = '/' ∨ c = '?' ∨ c = '#'

/-- `url[0].isascii() and url[0].isalpha()` on the candidate scheme. -/
def schemeHeadOk : PyStr → Bool
  | [] => false
  | c :: _ => c.val ≤ 127 ∧ (c.isUpper ∨ c.isLower)

/-- `uses_relative` of `urllib.parse` (3.11). -/
def usesRelative : List PyStr :=
  [[], "ftp".data, "http".data, "gopher".data, "nntp".data, "imap".data,
   "wais".data, "file".data, "https".data, "shttp".data, "mms".data,
   "prospero".data, "rtsp".data, "rtsps".data, "rtspu".data, "sftp".data,
   "svn".data, "svn+ssh".data, "ws".data, "wss".data]

/-- `uses_netloc` of `urllib.parse` (3.11). -/
def usesNetloc : List PyStr :=
  [[], "ftp".data, "http".data, "gopher".data, "nntp".data, "telnet".data,
   "imap".data, "wais".data, "file".data, "mms".data, "https".data,
   "shttp".data, "snews".data, "prospero".data, "rtsp".data, "rtsps".data,
   "rtspu".data, "rsync".data, "svn".data, "svn+ssh".data, "sftp".data,
   "nfs".data, "git".data, "git+ssh".data, "ws".data, "wss".data]

/-- `uses_params` of `urllib.parse` (3.11). -/
def usesParams : List PyStr :=
  [[], "ftp".data, "hdl".data, "prospero".data, "http".data, "imap".data,
   "https".data, "shttp".data, "rtsp".data, "rtsps".data, "rtspu".data,
   "sip".data, "sips".data, "mms".data, "sftp".data, "tel".data]

/-- `urllib.parse.urlsplit(url, scheme=dflt)` (with `allow_fragments`
left at its default `True`, as in every call site of the crawler).
Raises `ValueError("Invalid IPv6 URL")` on a netloc containing exactly
one of `[`, `]`. -/
def schemeSplit (url dflt : PyStr) : PyStr × PyStr :=
  match splitFirst ':' url with
  | some (pre, post) =>
    if pre ≠ [] ∧ schemeHeadOk pre ∧ pre.all isSchemeChar
    then (pyLower pre, post)
    else (dflt, url)
  | none => (dflt, url)

/-- The part of `urlsplit` after scheme detection: netloc extraction
(with the bracket validity checks) and the fragment/query splits. -/
def splitNetlocTail (scheme rest : PyStr) : Except PyErr SplitResult :=
  let (netloc, rest2) :=
    if rest.take 2 = ['/', '/'] then
      ((rest.drop 2).takeWhile (fun c => ¬ isNetlocEnd c),
       (rest.drop 2).dropWhile (fun c => ¬ isNetlocEnd c))
    else ([], rest)
  if ('[' ∈ netloc ∧ ']' ∉ netloc) ∨ (']' ∈ netloc ∧ '[' ∉ netloc) then
    .error .invalidIPv6
  else if '[' ∈ netloc ∧ ']' ∈ netloc ∧
      ¬ checkBracketedHost (partBefore ']' (partAfter '[' netloc)) then
    .error (.invalidBracketedHost (partBefore ']' (partAfter '[' netloc)))
  else
    let (rest3, fragment) :=
      match splitFirst '#' rest2 with
      | some p => p
      | none => (rest2, [])
    let (path, query) :=
      match splitFirst '?' rest3 with
      | some p => p
      | none => (rest3, [])
    .ok ⟨scheme, netloc, path, query, fragment⟩

def pyUrlsplitD (url dflt : PyStr) : Except PyErr SplitResult :=
  let url := cleanUrl url
  let dflt := cleanScheme dflt
  let (scheme, rest) := schemeSplit url dflt
  splitNetlocTail scheme rest

/-- `_splitparams(url)` of `urllib.parse` (only called when `';'` occurs
in the path): split params off after the last `/`. -/
def splitParams (p : PyStr) : PyStr × PyStr :=
  match rsplitLast '/' p with
  | some (pre, suf) =>
    (match splitFirst ';' suf with
     | some (a, b) => (pre ++ '/' :: a, b)
     | none => (p, []))
  | none =>
    (match splitFirst ';' p with
     | some (a, b) => (a, b)
     | none => (p, []))

/-- `urllib.parse.urlparse(url, scheme=dflt)`. -/
def pyUrlparseD (url dflt : PyStr) : Except PyErr ParseResult := do
  let s ← pyUrlsplitD url dflt
  let (path, params) :=
    if s.scheme ∈ usesParams ∧ ';' ∈ s.path then splitParams s.path
    else (s.path, [])
  .ok ⟨s.scheme, s.netloc, path, params, s.query, s.fragment⟩

/-- `urllib.parse.urlparse(url)` with the default empty scheme. -/
def pyUrlparse (url : PyStr) : Except PyErr ParseResult := pyUrlparseD url []

/-- The `_hostinfo` property of parse results: `(hostname-ish, port
string or None)` extracted from the netloc. -/
def pyHostinfo (netloc : PyStr) : PyStr × Option PyStr :=
  let hostinfo := afterLast '@' netloc
  if '[' ∈ hostinfo then
    let bracketed := partAfter '[' hostinfo
    let hostname := partBefore ']' bracketed
    let afterBr := partAfter ']' bracketed
    let port := partAfter ':' afterBr
    (hostname, if port = [] then none else some port)
  else
    match splitFirst ':' hostinfo with
    | some (h, p) => (h, if p = [] then none else some p)
    | none => (hostinfo, none)

/-- The `hostname` property: `None` for an empty host, otherwise the
host lower-cased up to a `%` zone separator. -/
def pyHostname (netloc : PyStr) : Option PyStr :=
  let h := (pyHostinfo netloc).1
  if h = [] then none
  else
    match splitFirst '%' h with
    | some (pre, post) => some (pyLower pre ++ '%' :: post)
    | none => some (pyLower h)

/-- The `port` property: the port string must satisfy
`port.isdigit() and port.isascii()` (else `ValueError`), and the value
must lie in `0..65535` (else `ValueError`). -/
def pyPort (netloc : PyStr) : Except PyErr (Option Nat) :=
  match (pyHostinfo netloc).2 with
  | none => .ok none
  | some ps =>
    if ps.all Char.isDigit ∧ ps ≠ [] then
      if decimalValue ps ≤ 65535 then .ok (some (decimalValue ps))
      else .error (.portOutOfRange (decimalValue ps))
    else .error (.portNotInt ps)

/-- `urllib.parse.urlunsplit`. -/
def pyUrlunsplit (scheme netloc path query fragment : PyStr) : PyStr :=
  let url := path
  let url :=
    if netloc ≠ [] ∨ (scheme ≠ [] ∧ scheme ∈ usesNetloc ∧ url.take 2 ≠ ['/', '/']) then
      '/' :: '/' :: netloc ++
        (if url ≠ [] ∧ url.head? ≠ some '/' then '/' :: url else url)
    else url
  let url := if scheme ≠ [] then scheme ++ ':' :: url else url
  let url := if query ≠ [] then url ++ '?' :: query else url
  if fragment ≠ [] then url ++ '#' :: fragment else url

/-- `urllib.parse.urlunparse`. -/
def pyUrlunparse (t : ParseResult) : PyStr :=
  pyUrlunsplit t.scheme t.netloc
    (if t.params ≠ [] then t.path ++ ';' :: t.params else t.path)
    t.query t.fragment

/-- `urllib.parse.urldefrag(url)[0]`: when `#` occurs, reparse and
reassemble without the fragment; otherwise return `url` unchanged.  May
raise (via `urlparse`). -/
def pyUrldefrag (url : PyStr) : Except PyErr PyStr :=
  if '#' ∈ url then do
    let p ← pyUrlparse url
    .ok (pyUrlunparse { p with fragment := [] })
  else .ok url

/-- Drop empty strings except from the last position (helper for
`filterMiddle`). -/
def filterMiddleTail : List PyStr → List PyStr
  | [] => []
  | [a] => [a]
  | a :: rest => if a = [] then filterMiddleTail rest else a :: filterMiddleTail rest

/-- Keep the first and last element, drop empty strings in between:
the `segments[1:-1] = filter(None, segments[1:-1])` step of `urljoin`. -/
def filterMiddle : List PyStr → List PyStr
  | [] => []
  | a :: rest => a :: filterMiddleTail rest

/-- The dot-segment resolution loop of `urljoin`: `..` pops (ignoring
underflow), `.` is dropped, anything else is appended. -/
def resolveSegs (segs : List PyStr) : List PyStr :=
  segs.foldl
    (fun acc seg =>
      if seg = ['.', '.'] then acc.dropLast
      else if seg = ['.'] then acc
      else acc ++ [seg])
    []

/-- `urllib.parse.urljoin(base, url)`. -/
def pyUrljoin (base url : PyStr) : Except PyErr PyStr :=
  if base = [] then .ok url
  else if url = [] then .ok base
  else do
    let b ← pyUrlparseD base []
    let u ← pyUrlparseD url b.scheme
    if u.scheme ≠ b.scheme ∨ u.scheme ∉ usesRelative then .ok url
    else
      if u.scheme ∈ usesNetloc ∧ u.netloc ≠ [] then
        .ok (pyUrlunparse u)
      else
        let netloc := if u.scheme ∈ usesNetloc then b.netloc else u.netloc
        if u.path = [] ∧ u.params = [] then
          let query := if u.query = [] then b.query else u.query
          .ok (pyUrlunparse
            ⟨u.scheme, netloc, b.path, b.params, query, u.fragment⟩)
        else
          let segments :=
            if u.path.head? = some '/' then splitAll '/' u.path
            else
              let bp := splitAll '/' b.path
              let bp := if bp.getLast? ≠ some [] then bp.dropLast else bp
              filterMiddle (bp ++ splitAll '/' u.path)
          let resolved := resolveSegs segments
          let resolved :=
            if segments.getLast? = some ['.'] ∨
               segments.getLast? = some ['.', '.']
            then resolved ++ [[]] else resolved
          let joinedPath := joinSep '/' resolved
          let joinedPath := if joinedPath = [] then ['/'] else joinedPath
          .ok (pyUrlunparse
            ⟨u.scheme, netloc, joinedPath, u.params, u.query, u.fragment⟩)

/-- `SKIP_EXTENSIONS` of `core.py`: non-page file extensions. -/
def SKIP_EXTENSIONS : List PyStr :=
  [".jpg".data, ".jpeg".data, ".png".data, ".gif".data, ".webp".data,
   ".svg".data, ".pdf".data, ".zip".data, ".rar".data, ".7z".data,
   ".mp4".data, ".mp3".data, ".wav".data, ".webm".data, ".css".data,
   ".js".data, ".map".data, ".ico".data, ".woff".data, ".woff2".data,
   ".ttf".data, ".eot".data]

/-- `normalize_url(url, base)` of `core.py`.  `.ok none` models the
Python `None` return ("invalid"), `.error` models a raised
`ValueError` (reachable through `parsed.port` and through bracket
validation in `urlsplit`). -/
def normalize_url (url base : PyStr) : Except PyErr (Option PyStr) :=
  if url = [] then .ok none
  else do
    let j ← pyUrljoin base url
    let joined ← pyUrldefrag j
    let parsed ← pyUrlparse joined
    if parsed.scheme ≠ "http".data ∧ parsed.scheme ≠ "https".data then
      .ok none
    else
      let pathLower := pyLower parsed.path
      if SKIP_EXTENSIONS.any (fun ext => ext.isSuffixOf pathLower) then
        .ok none
      else do
        let hostname := pyLower ((pyHostname parsed.netloc).getD [])
        let port ← pyPort parsed.netloc
        let netloc :=
          if (parsed.scheme = "http".data ∧ port = some 80) ∨
             (parsed.scheme = "https".data ∧ port = some 443) then hostname
          else
            match port with
            | some p => if p ≠ 0 then hostname ++ ':' :: natDigits p else hostname
            | none => hostname
        .ok (some (pyUrlunparse
          ⟨pyLower parsed.scheme, netloc,
           (if parsed.path = [] then ['/'] else parsed.path),
           parsed.params, parsed.query, []⟩))

/-- `is_local(url, start_origin)` of `core.py`: same scheme and netloc
as the start URL.  May raise via `urlparse`. -/
def is_local (url : PyStr) (startOrigin : PyStr × PyStr) : Except PyErr Bool := do
  let parsed ← pyUrlparse url
  .ok (parsed.scheme = startOrigin.1 ∧ parsed.netloc = startOrigin.2)

/-- `matches_path_prefix(url, path_prefix)` of `core.py`.  `none` models
the Python `None` prefix (always matches, no parse performed). -/
def matchesPathPrefix (url : PyStr) (pathPrefix : Option PyStr) :
    Except PyErr Bool :=
  match pathPrefix with
  | none => .ok true
  | some pp => do
    let parsed ← pyUrlparse url
    .ok (pp.isPrefixOf parsed.path)

/-! ## The crawl engine (`core.py`)

The HTTP fetcher is an oracle `fetch : Nat → PyStr → Option Response`
indexed by a call counter (`none` models a raised
`requests.RequestException`); the HTML extractor collaborators
`extract_links` and `parse_metadata` are oracle functions on the body;
`utc_now_iso` is an oracle `now : Nat → PyStr` indexed by a call
counter.  `timeout_s`, `user_agent` and `verbose` only feed the
transport and stderr printing and are absorbed by the oracles.  The
state carries a ghost `fetchLog` recording the URLs passed to
`session.get` inside the loop (instrumentation only: no other field
depends on it). -/

/-- An HTTP response as the engine sees it: final status code, the
`content-type` header (empty models an absent header, matching
`resp.headers.get("content-type") or ""`), and the body text. -/
structure Response where
  status : Nat
  contentType : PyStr
  body : PyStr
deriving DecidableEq, Repr

/-- `PageResult` of `core.py`. -/
structure PageResult where
  url : PyStr
  scanned_at : Option PyStr := none
  status_code : Option Nat := none
  title : Option PyStr := none
  h1_present : Option Bool := none
  h1_contents : Option (List PyStr) := none
  linked_from : List PyStr := []
deriving DecidableEq, Repr

/-- `CrawlStats` of `core.py`; `error_counts` is the
`defaultdict(int)` as an association list. -/
structure CrawlStats where
  pages_crawled : Nat := 0
  pages_without_title : Nat := 0
  pages_without_h1 : Nat := 0
  error_counts : List (PyStr × Nat) := []
deriving DecidableEq, Repr

/-- `defaultdict(int)` increment. -/
def bumpCount (m : List (PyStr × Nat)) (k : PyStr) : List (PyStr × Nat) :=
  match m with
  | [] => [(k, 1)]
  | (k', v) :: rest => if k' = k then (k', v + 1) :: rest else (k', v) :: bumpCount rest k

/-- `defaultdict(int)` read. -/
def lookupCount (m : List (PyStr × Nat)) (k : PyStr) : Nat :=
  match m with
  | [] => 0
  | (k', v) :: rest => if k' = k then v else lookupCount rest k

/-- `CrawlStats.record_error` of `core.py`. -/
def CrawlStats.record_error (stats : CrawlStats) (status_code : Option Nat) :
    CrawlStats :=
  match status_code with
  | none =>
    { stats with error_counts := bumpCount stats.error_counts "connection_error".data }
  | some c =>
    if c ≥ 400 then
      { stats with error_counts := bumpCount stats.error_counts (natDigits c) }
    else stats

/-- `CrawlStats.record_page` of `core.py` (`if not title`, `if not
h1_present`: Python falsiness of an optional string / optional bool). -/
def CrawlStats.record_page (stats : CrawlStats) (title : Option PyStr)
    (h1_present : Option Bool) : CrawlStats :=
  let s1 := if title = none ∨ title = some [] then
      { stats with pages_without_title := stats.pages_without_title + 1 }
    else stats
  if h1_present = none ∨ h1_present = some false then
    { s1 with pages_without_h1 := s1.pages_without_h1 + 1 }
  else s1

/-- Dictionary read on the results map. -/
def lookupResult (rs : List (PyStr × PageResult)) (u : PyStr) : Option PageResult :=
  match rs with
  | [] => none
  | (k, r) :: rest => if k = u then some r else lookupResult rest u

/-- `results.setdefault(url, PageResult(url=url))`: insert a fresh
placeholder when the key is absent. -/
def setdefaultResult (rs : List (PyStr × PageResult)) (u : PyStr) :
    List (PyStr × PageResult) :=
  match rs with
  | [] => [(u, { url := u })]
  | (k, r) :: rest => if k = u then (k, r) :: rest else (k, r) :: setdefaultResult rest u

/-- In-place mutation of the record stored under `u` (models Python
field assignment through the shared reference). -/
def updateResult (rs : List (PyStr × PageResult)) (u : PyStr)
    (f : PageResult → PageResult) : List (PyStr × PageResult) :=
  match rs with
  | [] => []
  | (k, r) :: rest =>
    if k = u then (k, f r) :: updateResult rest u f
    else (k, r) :: updateResult rest u f

/-- `inlinks[target].add(url)` on the `defaultdict(set)`, modelled as an
association list of deduplicated lists. -/
def addInlink (m : List (PyStr × List PyStr)) (target source : PyStr) :
    List (PyStr × List PyStr) :=
  match m with
  | [] => [(target, [source])]
  | (k, v) :: rest =>
    if k = target then (k, if source ∈ v then v else v ++ [source]) :: rest
    else (k, v) :: addInlink rest target source

/-- `inlinks.get(url, set())`. -/
def inlinksGet (m : List (PyStr × List PyStr)) (u : PyStr) : List PyStr :=
  match m with
  | [] => []
  | (k, v) :: rest => if k = u then v else inlinksGet rest u

/-- Python string `<` (lexicographic by code point). -/
def pyStrLt : PyStr → PyStr → Bool
  | [], [] => false
  | [], _ :: _ => true
  | _ :: _, [] => false
  | a :: as, b :: bs =>
    if a.val < b.val then true
    else if a.val = b.val then pyStrLt as bs else false

/-- The total order used by Python `sorted` on strings. -/
def pyStrLe (a b : PyStr) : Bool := ¬ pyStrLt b a

/-- Python string `<=` as a decidable relation (for `sorted`). -/
def pyLe (a b : PyStr) : Prop := pyStrLe a b = true

instance : DecidableRel pyLe := fun a b => by unfold pyLe; infer_instance

/-- Python line splitting (`str.splitlines`) over the line-break set. -/
def isLineBreak (c : Char) : Bool :=
  c.val = 10 ∨ c.val = 13 ∨ c.val = 11 ∨ c.val = 12 ∨
  c.val = 28 ∨ c.val = 29 ∨ c.val = 30 ∨ c.val = 133 ∨
  c.val = 0x2028 ∨ c.val = 0x2029

/-- `str.splitlines()` worker: `acc` holds the current line reversed;
a trailing empty segment is not emitted. -/
def splitlinesAux : PyStr → PyStr → List PyStr
  | [], acc => if acc = [] then [] else [acc.reverse]
  | '\r' :: '\n' :: rest, acc => acc.reverse :: splitlinesAux rest []
  | c :: rest, acc =>
    if isLineBreak c then acc.reverse :: splitlinesAux rest []
    else splitlinesAux rest (c :: acc)

/-- `str.splitlines()`. -/
def pySplitlines (s : PyStr) : List PyStr := splitlinesAux s []

/-- Python substring membership `needle in hay`. -/
def isSubstringOf (needle : PyStr) : PyStr → Bool
  | [] => needle.isPrefixOf []
  | c :: rest => needle.isPrefixOf (c :: rest) || isSubstringOf needle rest

/-- The line scan of `_load_robots_rules`: `uaStar` is the Python
`ua_star` flag, `rules` the accumulated disallow set (kept as an
insertion-ordered deduplicated list; only membership is ever used). -/
def robotsFold : List PyStr → Bool → List PyStr → List PyStr
  | [], _, rules => rules
  | line :: rest, uaStar, rules =>
    let line := pyStrip line
    if line = [] ∨ line.head? = some '#' then robotsFold rest uaStar rules
    else
      let lowerLine := pyLower line
      if ("user-agent:".data).isPrefixOf lowerLine then
        robotsFold rest (pyStrip (partAfter ':' line) = ['*']) rules
      else if uaStar ∧ ("disallow:".data).isPrefixOf lowerLine then
        let path := pyStrip (partAfter ':' line)
        if path ≠ [] ∧ path ∉ rules then robotsFold rest uaStar (rules ++ [path])
        else robotsFold rest uaStar rules
      else robotsFold rest uaStar rules

/-- `_load_robots_rules(session, origin, timeout)` of `core.py`, with
the HTTP GET supplied by the fetch oracle at call index `tick`
(`none` = `requests.RequestException`, swallowed: fail open). -/
def load_robots_rules (fetch : Nat → PyStr → Option Response) (tick : Nat)
    (origin : PyStr × PyStr) : List PyStr :=
  let robots_url := pyUrlunparse ⟨origin.1, origin.2, "/robots.txt".data, [], [], []⟩
  match fetch tick robots_url with
  | none => []
  | some resp =>
    if resp.status ≠ 200 then []
    else if ¬ isSubstringOf "text".data (pyLower resp.contentType) then []
    else robotsFold (pySplitlines resp.body) false []

/-- `_is_blocked_by_robots(url, disallow_rules)` of `core.py`.  With an
empty rule set it returns `False` without parsing; otherwise the URL is
parsed (which may raise). -/
def is_blocked_by_robots (url : PyStr) (rules : List PyStr) :
    Except PyErr Bool :=
  if rules = [] then .ok false
  else do
    let parsed ← pyUrlparse url
    .ok (rules.any (fun r => r.isPrefixOf parsed.path))

/-- `_mark_skipped(results, url)` of `core.py` with the timestamp
oracle's value `ts`. -/
def mark_skipped (results : List (PyStr × PageResult)) (url : PyStr) (ts : PyStr) :
    List (PyStr × PageResult) :=
  updateResult (setdefaultResult results url) url
    (fun r => { r with scanned_at := some ts, status_code := none,
                       title := none, h1_present := none, h1_contents := none })

/-- The oracles and run configuration handed to the engine.
`max_pages` and `pathPrefix` are the `max_pages` / `path_prefix`
arguments of `crawl`; `timeout_s`, `user_agent` and `verbose` are
absorbed by the oracles (they feed only the transport and stderr). -/
structure CrawlEnv where
  fetch : Nat → PyStr → Option Response
  extract_links : PyStr → List PyStr
  parse_metadata : PyStr → Option PyStr × Bool × List PyStr
  now : Nat → PyStr
  max_pages : Nat
  pathPrefix : Option PyStr

/-- The engine state private to one `crawl` invocation, plus the two
oracle call counters and the ghost log of page-fetch calls. -/
structure CrawlState where
  results : List (PyStr × PageResult)
  inlinks : List (PyStr × List PyStr)
  discovered : List PyStr
  scanned : List PyStr
  queue : List PyStr
  stats : CrawlStats
  nowTick : Nat
  fetchTick : Nat
  fetchLog : List PyStr
deriving DecidableEq, Repr

/-- The link-discovery state touched by the `for href in
extract_links(html)` loop. -/
structure LinkState where
  inlinks : List (PyStr × List PyStr)
  results : List (PyStr × PageResult)
  discovered : List PyStr
  queue : List PyStr
deriving DecidableEq, Repr

/-- The `for href in extract_links(html)` body of `crawl`: canonicalize
against the page URL, keep same-origin targets matching the path
prefix, record the backlink, ensure a placeholder record, and enqueue
unseen targets. -/
def processLinks (origin : PyStr × PyStr) (pathPrefix : Option PyStr)
    (pageUrl : PyStr) : List PyStr → LinkState → Except PyErr LinkState
  | [], ls => .ok ls
  | href :: rest, ls => do
    let t ← normalize_url href pageUrl
    match t with
    | none => processLinks origin pathPrefix pageUrl rest ls
    | some target =>
      if target = [] then processLinks origin pathPrefix pageUrl rest ls
      else do
        let loc ← is_local target origin
        if ¬ loc then processLinks origin pathPrefix pageUrl rest ls
        else do
          let m ← matchesPathPrefix target pathPrefix
          if ¬ m then processLinks origin pathPrefix pageUrl rest ls
          else
            let ls1 : LinkState :=
              { ls with inlinks := addInlink ls.inlinks target pageUrl,
                        results := setdefaultResult ls.results target }
            let ls2 : LinkState :=
              if target ∈ ls1.discovered then ls1
              else { ls1 with discovered := ls1.discovered ++ [target],
                              queue := ls1.queue ++ [target] }
            processLinks origin pathPrefix pageUrl rest ls2

/-- The state after the robots-blocked branch of the loop
(`scanned.add`, `_mark_skipped`, `pages_crawled += 1`). -/
def robotsSkipState (env : CrawlEnv) (url : PyStr) (rest : List PyStr)
    (s : CrawlState) : CrawlState :=
  { s with queue := rest,
           scanned := s.scanned ++ [url],
           results := mark_skipped s.results url (env.now s.nowTick),
           nowTick := s.nowTick + 1,
           stats := { s.stats with pages_crawled := s.stats.pages_crawled + 1 } }

/-- The state right before `session.get`: the URL is dequeued, its
record exists and has `scanned_at` set, the oracle counters advance and
the ghost fetch log records the GET. -/
def preFetchState (env : CrawlEnv) (url : PyStr) (rest : List PyStr)
    (s : CrawlState) : CrawlState :=
  { s with queue := rest,
           results := updateResult (setdefaultResult s.results url) url
             (fun r => { r with scanned_at := some (env.now s.nowTick) }),
           nowTick := s.nowTick + 1,
           fetchTick := s.fetchTick + 1,
           fetchLog := s.fetchLog ++ [url] }

/-- The state after the `requests.RequestException` handler: fetch
fields cleared, `connection_error` recorded, URL scanned, page counted.
(`record_error` does not touch `pages_crawled`, so the increment is
applied on top of it.) -/
def fetchErrorState (url : PyStr) (s1 : CrawlState) (s : CrawlState) : CrawlState :=
  { s1 with results := updateResult s1.results url
              (fun r => { r with status_code := none, title := none,
                                 h1_present := none, h1_contents := none }),
            scanned := s1.scanned ++ [url],
            stats := { s.stats.record_error none with
                       pages_crawled := s.stats.pages_crawled + 1 } }

/-- The stats update shared by both response branches: count the page,
record an error bucket for a `>= 400` status. -/
def responseStats (stats : CrawlStats) (status : Nat) : CrawlStats :=
  let st := if status ≥ 400 then stats.record_error (some status) else stats
  { st with pages_crawled := stats.pages_crawled + 1 }

/-- The state for a non-HTML response (`"text/html" not in
content-type`): status recorded, metadata cleared, no link discovery. -/
def nonHtmlState (url : PyStr) (resp : Response) (s1 : CrawlState)
    (s : CrawlState) : CrawlState :=
  { s1 with results := updateResult s1.results url
              (fun r => { r with status_code := some resp.status, title := none,
                                 h1_present := some false, h1_contents := some [] }),
            scanned := s1.scanned ++ [url],
            stats := (responseStats s.stats resp.status).record_page none (some false) }

/-- The state for an HTML response, given the extracted metadata and
the link-discovery outcome `ls`. -/
def htmlState (url : PyStr) (resp : Response)
    (meta : Option PyStr × Bool × List PyStr) (ls : LinkState)
    (s1 : CrawlState) (s : CrawlState) : CrawlState :=
  { s1 with results := ls.results,
            inlinks := ls.inlinks,
            discovered := ls.discovered,
            queue := ls.queue,
            scanned := s1.scanned ++ [url],
            stats := (responseStats s.stats resp.status).record_page meta.1 (some meta.2.1) }

/-- The `while queue and stats.pages_crawled < max_pages` loop of
`crawl` (lines 239-320 of `core.py`).  Terminates because every
iteration either consumes a queue entry without touching
`pages_crawled` (the already-scanned guard) or increments
`pages_crawled` under the `< max_pages` guard. -/
def crawlLoop (env : CrawlEnv) (rules : List PyStr) (origin : PyStr × PyStr)
    (s : CrawlState) : Except PyErr CrawlState :=
  match hq : s.queue with
  | [] => .ok s
  | url :: rest =>
    if hp : s.stats.pages_crawled < env.max_pages then
      if url ∈ s.scanned then
        crawlLoop env rules origin { s with queue := rest }
      else
        match is_blocked_by_robots url rules with
        | .error e => .error e
        | .ok true => crawlLoop env rules origin (robotsSkipState env url rest s)
        | .ok false =>
          let s1 := preFetchState env url rest s
          match env.fetch s.fetchTick url with
          | none => crawlLoop env rules origin (fetchErrorState url s1 s)
          | some resp =>
            if ¬ isSubstringOf "text/html".data (pyLower resp.contentType) then
              crawlLoop env rules origin (nonHtmlState url resp s1 s)
            else
              let results2 := updateResult s1.results url
                (fun r => { r with status_code := some resp.status })
              let meta := env.parse_metadata resp.body
              let results3 := updateResult results2 url
                (fun r => { r with title := meta.1, h1_present := some meta.2.1,
                                   h1_contents := some meta.2.2 })
              match processLinks origin env.pathPrefix url
                  (env.extract_links resp.body)
                  ⟨s1.inlinks, results3, s1.discovered, s1.queue⟩ with
              | .error e => .error e
              | .ok ls => crawlLoop env rules origin (htmlState url resp meta ls s1 s)
    else .ok s
termination_by (env.max_pages - s.stats.pages_crawled, s.queue.length)
decreasing_by
  · apply Prod.Lex.right
    simp [hq]
  · apply Prod.Lex.left
    simp only [robotsSkipState]
    omega
  · apply Prod.Lex.left
    simp only [fetchErrorState, preFetchState]
    omega
  · apply Prod.Lex.left
    simp only [nonHtmlState, preFetchState, responseStats, CrawlStats.record_page]
    split <;> split <;> simp <;> omega
  · apply Prod.Lex.left
    simp only [htmlState, preFetchState, responseStats, CrawlStats.record_page]
    split <;> split <;> simp <;> omega

/-- The engine state at loop entry (lines 219-227 of `core.py`) for the
canonical start URL, with oracle counters at the given positions. -/
def initState (start : PyStr) (nowTick fetchTick : Nat) : CrawlState :=
  { results := [(start, { url := start })],
    inlinks := [],
    discovered := [start],
    scanned := [],
    queue := [start],
    stats := {},
    nowTick := nowTick,
    fetchTick := fetchTick,
    fetchLog := [] }

/-- `crawl` up to the end of the while loop: validation of the start
URL (raising `ValueError` on a failed canonicalization or a path-prefix
mismatch), origin computation, robots loading (one fetch-oracle call at
index 0 when `respect_robots`), and the loop itself.  Returns the final
engine state. -/
def crawlFinal (env : CrawlEnv) (start_url : PyStr) (respect_robots : Bool) :
    Except PyErr CrawlState := do
  let n ← normalize_url start_url start_url
  match n with
  | none => .error (.invalidStartUrl start_url)
  | some start => do
    let m ← (if env.pathPrefix = none ∨ env.pathPrefix = some [] then .ok true
             else matchesPathPrefix start env.pathPrefix)
    if ¬ m then .error .startPrefixMismatch
    else do
      let parsed ← pyUrlparse start
      let origin := (parsed.scheme, parsed.netloc)
      let rules := if respect_robots then load_robots_rules env.fetch 0 origin else []
      crawlLoop env rules origin
        (initState start 0 (if respect_robots then 1 else 0))

/-- The post-loop assembly (lines 325-330 of `core.py`): fill
`linked_from` from the accumulated backlink map, return the records
sorted by canonical URL together with the stats. -/
def finalize (s : CrawlState) : List PageResult × CrawlStats :=
  let keys := (s.results.map Prod.fst).insertionSort pyLe
  (keys.filterMap (fun u => (lookupResult s.results u).map
     (fun r => { r with linked_from := (inlinksGet s.inlinks u).insertionSort pyLe })),
   s.stats)

/-- `crawl(start_url, max_pages, timeout_s, user_agent, respect_robots,
verbose, path_prefix)` of `core.py` (`max_pages` and `path_prefix` live
in `env`; `timeout_s`, `user_agent`, `verbose` are absorbed by the
oracles). -/
def crawl (env : CrawlEnv) (start_url : PyStr) (respect_robots : Bool) :
    Except PyErr (List PageResult × CrawlStats) := do
  let fin ← crawlFinal env start_url respect_robots
  .ok (finalize fin)

/-! Vocabulary for the robots-scanner characterization: the value of
the `ua_star` flag after a prefix of the line list has been processed,
and what it means for a line to be a disallow line with a given
value. -/

/-- The `ua_star` flag after the scanner of `_load_robots_rules` has
processed `lines`, starting from flag value `b`: blank and comment
lines are skipped, each `user-agent:` line sets the flag to whether its
value is exactly `*`, every other line leaves it unchanged. -/
def uaStarAfter : List PyStr → Bool → Bool
  | [], b => b
  | line :: rest, b =>
    let l := pyStrip line
    if l = [] ∨ l.head? = some '#' then uaStarAfter rest b
    else if ("user-agent:".data).isPrefixOf (pyLower l) then
      uaStarAfter rest (pyStrip (partAfter ':' l) = ['*'])
    else uaStarAfter rest b

/-- `line` is (after stripping) a non-blank, non-comment line starting
case-insensitively with `disallow:` whose value (after the first colon,
stripped) is `p`. -/
def isDisallowLine (line p : PyStr) : Prop :=
  ¬ (pyStrip line = [] ∨ (pyStrip line).head? = some '#') ∧
  ¬ ("user-agent:".data).isPrefixOf (pyLower (pyStrip line)) ∧
  ("disallow:".data).isPrefixOf (pyLower (pyStrip line)) ∧
  pyStrip (partAfter ':' (pyStrip line)) = p

/-- Equality of `Except` values is decidable when both components'
equalities are (needed to evaluate the embedded functions inside
`decide`). -/
instance {ε α : Type} [DecidableEq ε] [DecidableEq α] : DecidableEq (Except ε α) :=
  fun a b =>
  match a, b with
  | .ok x, .ok y => if h : x = y then .isTrue (by rw [h]) else .isFalse (by simp [h])
  | .error x, .error y => if h : x = y then .isTrue (by rw [h]) else .isFalse (by simp [h])
  | .ok _, .error _ => .isFalse (by simp)
  | .error _, .ok _ => .isFalse (by simp)

/-! Concrete environments and states used by the witnesses below. -/

/-- A witness environment: every GET raises a transport error, the
extractor finds nothing, the clock returns the empty string, one-page
limit, no path prefix. -/
def envA : CrawlEnv :=
  { fetch := fun _ _ => none,
    extract_links := fun _ => [],
    parse_metadata := fun _ => (none, false, []),
    now := fun _ => [],
    max_pages := 1,
    pathPrefix := none }

/-- The canonical start URL of the witness runs. -/
def startA : PyStr := ("http://e.com/").data

/-- The final engine state of the `envA` run from `startA`. -/
def finA : CrawlState :=
  { results := [(startA,
      { url := startA, scanned_at := some [] })],
    inlinks := [],
    discovered := [startA],
    scanned := [startA],
    queue := [],
    stats := { pages_crawled := 1, pages_without_title := 0,
               pages_without_h1 := 0,
               error_counts := [(("connection_error").data, 1)] },
    nowTick := 1, fetchTick := 1, fetchLog := [startA] }

/-- A canonical target passes both crawl filters of the link-discovery
loop: it is same-origin with the start URL and matches the configured
path prefix. -/
@[reducible]
def passesFilters (origin : PyStr × PyStr) (pp : Option PyStr) (u : PyStr) : Prop :=
  is_local u origin = .ok true ∧ matchesPathPrefix u pp = .ok true

/-- The final engine state of the run from `startA` under `envA` when
the robots rule set is `["/"]` (the single page is robots-blocked). -/
def finB : CrawlState :=
  { results := [(startA,
      { url := startA, scanned_at := some [] })],
    inlinks := [],
    discovered := [startA],
    scanned := [startA],
    queue := [],
    stats := { pages_crawled := 1, pages_without_title := 0,
               pages_without_h1 := 0, error_counts := [] },
    nowTick := 1, fetchTick := 0, fetchLog := [] }

/-- A witness environment whose single fetched page links to a URL with
an out-of-range port (so mid-crawl canonicalization raises). -/
def envC : CrawlEnv :=
  { fetch := fun _ _ =>
      some { status := 200, contentType := ("text/html").data, body := ("X").data },
    extract_links := fun _ => [("http://e.com:99999/p").data],
    parse_metadata := fun _ => (none, false, []),
    now := fun _ => [],
    max_pages := 1,
    pathPrefix := none }

/-- The bracket-validity conditions `urlsplit` enforces on a netloc
(no ValueError raised). -/
def bracketsOk (netloc : PyStr) : Prop :=
  ¬ (('[' ∈ netloc ∧ ']' ∉ netloc) ∨ (']' ∈ netloc ∧ '[' ∉ netloc)) ∧
  (('[' ∈ netloc ∧ ']' ∈ netloc) →
    checkBracketedHost (partBefore ']' (partAfter '[' netloc)) = true)

/-- Shape facts true of every result of a successful `urlsplit` (with a
well-formed default scheme): exactly what is needed to re-split its
own `urlunsplit`. -/
structure SplitInv (s : SplitResult) : Prop where
  scheme_lower : pyLower s.scheme = s.scheme
  scheme_chars : s.scheme.all isSchemeChar = true
  scheme_head : s.scheme = [] ∨ schemeHeadOk s.scheme = true
  netloc_clean : ∀ c ∈ s.netloc, isNetlocEnd c = false
  netloc_br : bracketsOk s.netloc
  path_hash : '#' ∉ s.path
  path_q : '?' ∉ s.path
  query_hash : '#' ∉ s.query
  netloc_unsafe : ∀ c ∈ s.netloc, isUnsafeUrlByte c = false
  path_unsafe : ∀ c ∈ s.path, isUnsafeUrlByte c = false
  query_unsafe : ∀ c ∈ s.query, isUnsafeUrlByte c = false
  path_slash : s.netloc ≠ [] → s.path = [] ∨ s.path.head? = some '/'

/-- The port value `normalize_url`'s netloc rebuild is driven by: the
scheme's default port and port 0 (Python falsiness) collapse to "no
port". -/
def portNorm (c : PyStr) (v : Option Nat) : Option Nat :=
  match v with
  | none => none
  | some p =>
    if (c = "http".data ∧ p = 80) ∨ (c = "https".data ∧ p = 443) ∨ p = 0 then none
    else some p

/-- The tail of `normalize_url` from the `parsed = urlparse(joined)`
stage onward, factored out of `normalize_url` for the proofs. -/
def normalizeCore (parsed : ParseResult) : Except PyErr (Option PyStr) :=
  if parsed.scheme ≠ "http".data ∧ parsed.scheme ≠ "https".data then
    .ok none
  else
    let pathLower := pyLower parsed.path
    if SKIP_EXTENSIONS.any (fun ext => ext.isSuffixOf pathLower) then
      .ok none
    else do
      let hostname := pyLower ((pyHostname parsed.netloc).getD [])
      let port ← pyPort parsed.netloc
      let netloc :=
        if (parsed.scheme = "http".data ∧ port = some 80) ∨
           (parsed.scheme = "https".data ∧ port = some 443) then hostname
        else
          match port with
          | some p => if p ≠ 0 then hostname ++ ':' :: natDigits p else hostname
          | none => hostname
      .ok (some (pyUrlunparse
        ⟨pyLower parsed.scheme, netloc,
         (if parsed.path = [] then ['/'] else parsed.path),
         parsed.params, parsed.query, []⟩))

/-! ## Theorems -/

/-- C10: `canonicalize` (`normalize_url`) is claimed total and
exception-free for every input pair, including hrefs with non-numeric
or out-of-range port components.  The code contradicts this: on
`normalize_url("http://e.com:abc/x", ...)` the unguarded `parsed.port`
access raises `ValueError("Port could not be cast to integer value as
'abc'")`.  This theorem evaluates the embedded code at that failing
input. -/
theorem c10_normalize_url_raises_on_nonnumeric_port :
    normalize_url ("http://e.com:abc/x").data ("http://e.com:abc/x").data =
      .error (.portNotInt ("abc").data) := by
  decide

/-- C3 counterexample: canonicalization is not idempotent as claimed.
For `u = "http://@//y"` the first canonicalization succeeds with
`"http://y"` (the empty host erases the authority and the leading `//`
of the path is then reread as an authority), but canonicalizing that
result against the same base yields the different string
`"http://y/"`. -/
theorem c3_counterexample :
    normalize_url ("http://@//y").data ("http://@//y").data =
      .ok (some (("http://y").data)) ∧
    normalize_url ("http://y").data ("http://@//y").data =
      .ok (some (("http://y/").data)) ∧
    ("http://y").data ≠ ("http://y/").data := by
  refine ⟨by decide, by decide, by decide⟩

/-- Decomposing a split of a cons list: either the chosen element is
the head, or the split lives in the tail. -/
theorem exists_split_cons {α : Type} (x : α) (xs : List α) (P : List α → α → Prop) :
    (∃ pre l post, x :: xs = pre ++ l :: post ∧ P pre l) ↔
      (P [] x ∨ ∃ pre l post, xs = pre ++ l :: post ∧ P (x :: pre) l) := by
  constructor
  · rintro ⟨pre, l, post, heq, hP⟩
    cases pre with
    | nil =>
      simp only [List.nil_append, List.cons.injEq] at heq
      exact Or.inl (heq.1 ▸ hP)
    | cons p ps =>
      simp only [List.cons_append, List.cons.injEq] at heq
      exact Or.inr ⟨ps, l, post, heq.2, heq.1 ▸ hP⟩
  · rintro (h | ⟨pre, l, post, heq, hP⟩)
    · exact ⟨[], x, xs, rfl, h⟩
    · exact ⟨x :: pre, l, post, by simp [heq], hP⟩

/-- Membership in the robots scanner's accumulated rule set: a prefix
`p` ends up in the set iff it was already accumulated or some line is a
non-empty disallow line for `p` scanned while the most recent
`user-agent:` line made the wildcard flag true. -/
theorem robotsFold_mem (p : PyStr) :
    ∀ (lines : List PyStr) (ua : Bool) (rules : List PyStr),
    p ∈ robotsFold lines ua rules ↔
      p ∈ rules ∨ (p ≠ [] ∧ ∃ pre l post, lines = pre ++ l :: post ∧
        isDisallowLine l p ∧ uaStarAfter pre ua = true)
  | [], ua, rules => by simp [robotsFold]
  | line :: rest, ua, rules => by
    rw [exists_split_cons line rest
      (fun pre l => isDisallowLine l p ∧ uaStarAfter pre ua = true)]
    simp only [robotsFold, uaStarAfter]
    split_ifs with h1 h2 h3 h4
    · rw [robotsFold_mem p rest ua rules]
      simp only [isDisallowLine, h1]
      simp
    · rw [robotsFold_mem p rest _ rules]
      simp only [isDisallowLine]
      simp [h1, h2]
    · rw [robotsFold_mem p rest ua (rules ++ [pyStrip (partAfter ':' (pyStrip line))])]
      simp only [isDisallowLine]
      simp only [List.mem_append, List.mem_singleton]
      simp [h1, h2, h3.1, h3.2]
      constructor
      · rintro ((hmem | hnew) | ⟨hne, hE⟩)
        · exact Or.inl hmem
        · exact Or.inr ⟨by rw [hnew]; exact h4.1, Or.inl hnew.symm⟩
        · exact Or.inr ⟨hne, Or.inr hE⟩
      · rintro (hmem | ⟨hne, (hnew | hE)⟩)
        · exact Or.inl (Or.inl hmem)
        · exact Or.inl (Or.inr hnew.symm)
        · exact Or.inr ⟨hne, hE⟩
    · rw [robotsFold_mem p rest ua rules]
      simp only [isDisallowLine]
      simp [h1, h2, h3.1, h3.2]
      constructor
      · rintro (hmem | ⟨hne, hE⟩)
        · exact Or.inl hmem
        · exact Or.inr ⟨hne, Or.inr hE⟩
      · rintro (hmem | ⟨hne, (hnew | hE)⟩)
        · exact Or.inl hmem
        · have hNEWne : Crawler.pyStrip (Crawler.partAfter ':' (Crawler.pyStrip line)) ≠ [] := by
            rw [hnew]; exact hne
          have hmem2 : Crawler.pyStrip (Crawler.partAfter ':' (Crawler.pyStrip line)) ∈ rules := by
            rcases not_and_or.mp h4 with h | h
            · exact absurd hNEWne h
            · simpa using h
          exact Or.inl (hnew ▸ hmem2)
        · exact Or.inr ⟨hne, hE⟩
    · rw [robotsFold_mem p rest ua rules]
      simp only [isDisallowLine]
      simp [h1, h2]
      constructor
      · rintro (hmem | ⟨hne, hE⟩)
        · exact Or.inl hmem
        · exact Or.inr ⟨hne, Or.inr hE⟩
      · rintro (hmem | ⟨hne, (⟨⟨hdis, _⟩, hua⟩ | hE)⟩)
        · exact Or.inl hmem
        · exact absurd ⟨hua, List.isPrefixOf_iff_prefix.mpr hdis⟩ h3
        · exact Or.inr ⟨hne, hE⟩

/-- C8: robots loading returns the empty prefix set whenever the
robots.txt fetch raises, the status is not 200, or the content-type is
not text-ish; otherwise it returns exactly the set of non-empty values
of `disallow:` lines scanned while the most recent `user-agent:` line
had value exactly `*`, verbatim (no expansion or normalization: the
stored prefix is literally the stripped text after the colon). -/
theorem c8_load_robots_rules_characterization
    (fetch : Nat → PyStr → Option Response) (tick : Nat) (origin : PyStr × PyStr) :
    (fetch tick (pyUrlunparse ⟨origin.1, origin.2, "/robots.txt".data, [], [], []⟩) =
        none → load_robots_rules fetch tick origin = []) ∧
    (∀ resp,
      fetch tick (pyUrlunparse ⟨origin.1, origin.2, "/robots.txt".data, [], [], []⟩) =
        some resp →
      (resp.status ≠ 200 → load_robots_rules fetch tick origin = []) ∧
      (¬ isSubstringOf "text".data (pyLower resp.contentType) = true →
        load_robots_rules fetch tick origin = []) ∧
      (resp.status = 200 → isSubstringOf "text".data (pyLower resp.contentType) = true →
        ∀ p, p ∈ load_robots_rules fetch tick origin ↔
          (p ≠ [] ∧ ∃ pre l post, pySplitlines resp.body = pre ++ l :: post ∧
            isDisallowLine l p ∧ uaStarAfter pre false = true))) := by
  constructor
  · intro hf
    simp only [load_robots_rules, hf]
  · intro resp hf
    refine ⟨?_, ?_, ?_⟩
    · intro hst
      simp only [load_robots_rules, hf]
      rw [if_pos hst]
    · intro hct
      simp only [load_robots_rules, hf]
      split_ifs with h1 <;> rfl
    · intro hst hct p
      simp only [load_robots_rules, hf]
      split_ifs with h1
      · exact absurd hst h1
      · rw [robotsFold_mem]
        simp

/-- C8 witness: a transport failure while fetching robots.txt yields
the empty rule set (fail open). -/
theorem c8_witness :
    load_robots_rules (fun _ _ => none) 0 ("http".data, "e.com".data) = [] :=
  (c8_load_robots_rules_characterization (fun _ _ => none) 0
    ("http".data, "e.com".data)).1 rfl

/-! Branch equations for `crawlLoop`, one per loop path. -/

theorem crawlLoop_empty (env : CrawlEnv) (rules : List PyStr)
    (origin : PyStr × PyStr) (s : CrawlState) (hq : s.queue = []) :
    crawlLoop env rules origin s = .ok s := by
  rw [crawlLoop.eq_def]
  split
  · rfl
  · rename_i url rest hq2
    rw [hq] at hq2
    exact absurd hq2 (by simp)

theorem crawlLoop_limit (env : CrawlEnv) (rules : List PyStr)
    (origin : PyStr × PyStr) (s : CrawlState)
    (hp : ¬ s.stats.pages_crawled < env.max_pages) :
    crawlLoop env rules origin s = .ok s := by
  rw [crawlLoop.eq_def]
  split
  · rfl
  · rw [dif_neg hp]

theorem crawlLoop_scanned (env : CrawlEnv) (rules : List PyStr)
    (origin : PyStr × PyStr) (s : CrawlState) (url : PyStr) (rest : List PyStr)
    (hq : s.queue = url :: rest) (hp : s.stats.pages_crawled < env.max_pages)
    (hs : url ∈ s.scanned) :
    crawlLoop env rules origin s = crawlLoop env rules origin { s with queue := rest } := by
  rw [crawlLoop.eq_def]
  split
  · rename_i hq2
    rw [hq] at hq2
    exact absurd hq2 (by simp)
  · rename_i url2 rest2 hq2
    rw [hq] at hq2
    injection hq2 with h1 h2
    subst h1
    subst h2
    rw [dif_pos hp, if_pos hs]

theorem crawlLoop_robots_error (env : CrawlEnv) (rules : List PyStr)
    (origin : PyStr × PyStr) (s : CrawlState) (url : PyStr) (rest : List PyStr)
    (e : PyErr)
    (hq : s.queue = url :: rest) (hp : s.stats.pages_crawled < env.max_pages)
    (hs : url ∉ s.scanned) (hb : is_blocked_by_robots url rules = .error e) :
    crawlLoop env rules origin s = .error e := by
  rw [crawlLoop.eq_def]
  split
  · rename_i hq2
    rw [hq] at hq2
    exact absurd hq2 (by simp)
  · rename_i url2 rest2 hq2
    rw [hq] at hq2
    injection hq2 with h1 h2
    subst h1
    subst h2
    rw [dif_pos hp, if_neg hs, hb]

theorem crawlLoop_robots_skip (env : CrawlEnv) (rules : List PyStr)
    (origin : PyStr × PyStr) (s : CrawlState) (url : PyStr) (rest : List PyStr)
    (hq : s.queue = url :: rest) (hp : s.stats.pages_crawled < env.max_pages)
    (hs : url ∉ s.scanned) (hb : is_blocked_by_robots url rules = .ok true) :
    crawlLoop env rules origin s =
      crawlLoop env rules origin (robotsSkipState env url rest s) := by
  rw [crawlLoop.eq_def]
  split
  · rename_i hq2
    rw [hq] at hq2
    exact absurd hq2 (by simp)
  · rename_i url2 rest2 hq2
    rw [hq] at hq2
    injection hq2 with h1 h2
    subst h1
    subst h2
    rw [dif_pos hp, if_neg hs, hb]

theorem crawlLoop_fetch_error (env : CrawlEnv) (rules : List PyStr)
    (origin : PyStr × PyStr) (s : CrawlState) (url : PyStr) (rest : List PyStr)
    (hq : s.queue = url :: rest) (hp : s.stats.pages_crawled < env.max_pages)
    (hs : url ∉ s.scanned) (hb : is_blocked_by_robots url rules = .ok false)
    (hf : env.fetch s.fetchTick url = none) :
    crawlLoop env rules origin s =
      crawlLoop env rules origin (fetchErrorState url (preFetchState env url rest s) s) := by
  rw [crawlLoop.eq_def]
  split
  · rename_i hq2
    rw [hq] at hq2
    exact absurd hq2 (by simp)
  · rename_i url2 rest2 hq2
    rw [hq] at hq2
    injection hq2 with h1 h2
    subst h1
    subst h2
    rw [dif_pos hp, if_neg hs, hb, hf]

theorem crawlLoop_nonhtml (env : CrawlEnv) (rules : List PyStr)
    (origin : PyStr × PyStr) (s : CrawlState) (url : PyStr) (rest : List PyStr)
    (resp : Response)
    (hq : s.queue = url :: rest) (hp : s.stats.pages_crawled < env.max_pages)
    (hs : url ∉ s.scanned) (hb : is_blocked_by_robots url rules = .ok false)
    (hf : env.fetch s.fetchTick url = some resp)
    (hct : ¬ isSubstringOf "text/html".data (pyLower resp.contentType) = true) :
    crawlLoop env rules origin s =
      crawlLoop env rules origin (nonHtmlState url resp (preFetchState env url rest s) s) := by
  rw [crawlLoop.eq_def]
  split
  · rename_i hq2
    rw [hq] at hq2
    exact absurd hq2 (by simp)
  · rename_i url2 rest2 hq2
    rw [hq] at hq2
    injection hq2 with h1 h2
    subst h1
    subst h2
    rw [dif_pos hp, if_neg hs, hb, hf]
    simp [hct]

theorem crawlLoop_html (env : CrawlEnv) (rules : List PyStr)
    (origin : PyStr × PyStr) (s : CrawlState) (url : PyStr) (rest : List PyStr)
    (resp : Response) (ls : LinkState)
    (hq : s.queue = url :: rest) (hp : s.stats.pages_crawled < env.max_pages)
    (hs : url ∉ s.scanned) (hb : is_blocked_by_robots url rules = .ok false)
    (hf : env.fetch s.fetchTick url = some resp)
    (hct : isSubstringOf "text/html".data (pyLower resp.contentType) = true)
    (hl : processLinks origin env.pathPrefix url (env.extract_links resp.body)
        ⟨(preFetchState env url rest s).inlinks,
         updateResult
           (updateResult (preFetchState env url rest s).results url
             (fun r => { r with status_code := some resp.status }))
           url
           (fun r => { r with title := (env.parse_metadata resp.body).1,
                              h1_present := some (env.parse_metadata resp.body).2.1,
                              h1_contents := some (env.parse_metadata resp.body).2.2 }),
         (preFetchState env url rest s).discovered,
         (preFetchState env url rest s).queue⟩ = .ok ls) :
    crawlLoop env rules origin s =
      crawlLoop env rules origin
        (htmlState url resp (env.parse_metadata resp.body) ls
          (preFetchState env url rest s) s) := by
  rw [crawlLoop.eq_def]
  split
  · rename_i hq2
    rw [hq] at hq2
    exact absurd hq2 (by simp)
  · rename_i url2 rest2 hq2
    rw [hq] at hq2
    injection hq2 with h1 h2
    subst h1
    subst h2
    rw [dif_pos hp, if_neg hs, hb, hf]
    simp [hct, hl]

theorem crawlLoop_html_error (env : CrawlEnv) (rules : List PyStr)
    (origin : PyStr × PyStr) (s : CrawlState) (url : PyStr) (rest : List PyStr)
    (resp : Response) (e : PyErr)
    (hq : s.queue = url :: rest) (hp : s.stats.pages_crawled < env.max_pages)
    (hs : url ∉ s.scanned) (hb : is_blocked_by_robots url rules = .ok false)
    (hf : env.fetch s.fetchTick url = some resp)
    (hct : isSubstringOf "text/html".data (pyLower resp.contentType) = true)
    (hl : processLinks origin env.pathPrefix url (env.extract_links resp.body)
        ⟨(preFetchState env url rest s).inlinks,
         updateResult
           (updateResult (preFetchState env url rest s).results url
             (fun r => { r with status_code := some resp.status }))
           url
           (fun r => { r with title := (env.parse_metadata resp.body).1,
                              h1_present := some (env.parse_metadata resp.body).2.1,
                              h1_contents := some (env.parse_metadata resp.body).2.2 }),
         (preFetchState env url rest s).discovered,
         (preFetchState env url rest s).queue⟩ = .error e) :
    crawlLoop env rules origin s = .error e := by
  rw [crawlLoop.eq_def]
  split
  · rename_i hq2
    rw [hq] at hq2
    exact absurd hq2 (by simp)
  · rename_i url2 rest2 hq2
    rw [hq] at hq2
    injection hq2 with h1 h2
    subst h1
    subst h2
    rw [dif_pos hp, if_neg hs, hb, hf]
    simp [hct, hl]

/-- Master induction for successful loop runs: any property preserved
by the four state-changing branches (and by dequeuing an
already-scanned URL) holds at the final state, which moreover satisfies
the loop's exit condition (empty frontier or page limit reached). -/
theorem crawlLoop_ok_inv (env : CrawlEnv) (rules : List PyStr) (origin : PyStr × PyStr)
    (P : CrawlState → Prop)
    (hscan : ∀ s url rest, s.queue = url :: rest →
        s.stats.pages_crawled < env.max_pages → url ∈ s.scanned → P s →
        P { s with queue := rest })
    (hskip : ∀ s url rest, s.queue = url :: rest →
        s.stats.pages_crawled < env.max_pages → url ∉ s.scanned →
        is_blocked_by_robots url rules = .ok true → P s →
        P (robotsSkipState env url rest s))
    (herr : ∀ s url rest, s.queue = url :: rest →
        s.stats.pages_crawled < env.max_pages → url ∉ s.scanned →
        is_blocked_by_robots url rules = .ok false →
        env.fetch s.fetchTick url = none → P s →
        P (fetchErrorState url (preFetchState env url rest s) s))
    (hnon : ∀ s url rest resp, s.queue = url :: rest →
        s.stats.pages_crawled < env.max_pages → url ∉ s.scanned →
        is_blocked_by_robots url rules = .ok false →
        env.fetch s.fetchTick url = some resp →
        ¬ isSubstringOf "text/html".data (pyLower resp.contentType) = true → P s →
        P (nonHtmlState url resp (preFetchState env url rest s) s))
    (hhtml : ∀ s url rest resp ls, s.queue = url :: rest →
        s.stats.pages_crawled < env.max_pages → url ∉ s.scanned →
        is_blocked_by_robots url rules = .ok false →
        env.fetch s.fetchTick url = some resp →
        isSubstringOf "text/html".data (pyLower resp.contentType) = true →
        processLinks origin env.pathPrefix url (env.extract_links resp.body)
          ⟨(preFetchState env url rest s).inlinks,
           updateResult
             (updateResult (preFetchState env url rest s).results url
               (fun r => { r with status_code := some resp.status }))
             url
             (fun r => { r with title := (env.parse_metadata resp.body).1,
                                h1_present := some (env.parse_metadata resp.body).2.1,
                                h1_contents := some (env.parse_metadata resp.body).2.2 }),
           (preFetchState env url rest s).discovered,
           (preFetchState env url rest s).queue⟩ = .ok ls → P s →
        P (htmlState url resp (env.parse_metadata resp.body) ls
            (preFetchState env url rest s) s)) :
    ∀ s t, P s → crawlLoop env rules origin s = .ok t →
      P t ∧ (t.queue = [] ∨ ¬ t.stats.pages_crawled < env.max_pages) := by
  intro s
  induction s using crawlLoop.induct env rules origin with
  | case1 x hq =>
    intro t hP hok
    rw [crawlLoop_empty env rules origin x hq] at hok
    injection hok with h
    subst h
    exact ⟨hP, Or.inl hq⟩
  | case2 x url rest hq hp hs ih =>
    intro t hP hok
    rw [crawlLoop_scanned env rules origin x url rest hq hp hs] at hok
    exact ih t (hscan x url rest hq hp hs hP) hok
  | case3 x url rest hq hp hs e hb =>
    intro t hP hok
    rw [crawlLoop_robots_error env rules origin x url rest e hq hp hs hb] at hok
    exact absurd hok (by simp)
  | case4 x url rest hq hp hs hb ih =>
    intro t hP hok
    rw [crawlLoop_robots_skip env rules origin x url rest hq hp hs hb] at hok
    exact ih t (hskip x url rest hq hp hs hb hP) hok
  | case5 x url rest hq hp hs hb s1 hf ih =>
    intro t hP hok
    rw [crawlLoop_fetch_error env rules origin x url rest hq hp hs hb hf] at hok
    exact ih t (herr x url rest hq hp hs hb hf hP) hok
  | case6 x url rest hq hp hs hb s1 resp hf hct ih =>
    intro t hP hok
    rw [crawlLoop_nonhtml env rules origin x url rest resp hq hp hs hb hf hct] at hok
    exact ih t (hnon x url rest resp hq hp hs hb hf hct hP) hok
  | case7 x url rest hq hp hs hb s1 resp hf hct r2 meta r3 e hl =>
    intro t hP hok
    rw [crawlLoop_html_error env rules origin x url rest resp e hq hp hs hb hf
      (not_not.mp hct) hl] at hok
    exact absurd hok (by simp)
  | case8 x url rest hq hp hs hb s1 resp hf hct r2 meta r3 ls hl ih =>
    intro t hP hok
    rw [crawlLoop_html env rules origin x url rest resp ls hq hp hs hb hf
      (not_not.mp hct) hl] at hok
    exact ih t (hhtml x url rest resp ls hq hp hs hb hf (not_not.mp hct) hl hP) hok
  | case9 x url rest hq hp =>
    intro t hP hok
    rw [crawlLoop_limit env rules origin x hp] at hok
    injection hok with h
    subst h
    exact ⟨hP, Or.inr hp⟩

/-! Small facts about the stats and map operations. -/

theorem record_error_pages_crawled (st : CrawlStats) (c : Option Nat) :
    (st.record_error c).pages_crawled = st.pages_crawled := by
  cases c <;> simp [CrawlStats.record_error] <;> split <;> rfl

theorem record_page_pages_crawled (st : CrawlStats) (t : Option PyStr) (h : Option Bool) :
    (st.record_page t h).pages_crawled = st.pages_crawled := by
  simp only [CrawlStats.record_page]
  split <;> split <;> rfl

theorem record_page_error_counts (st : CrawlStats) (t : Option PyStr) (h : Option Bool) :
    (st.record_page t h).error_counts = st.error_counts := by
  simp only [CrawlStats.record_page]
  split <;> split <;> rfl

theorem responseStats_pages_crawled (st : CrawlStats) (c : Nat) :
    (responseStats st c).pages_crawled = st.pages_crawled + 1 := rfl

theorem lookupResult_setdefault_preserved (u X : PyStr) (r : PageResult) :
    ∀ rs : List (PyStr × PageResult), lookupResult rs X = some r →
      lookupResult (setdefaultResult rs u) X = some r
  | [], h => by simp [lookupResult] at h
  | (k, v) :: rest, h => by
    by_cases hk : k = u
    · simp only [setdefaultResult, if_pos hk]
      exact h
    · simp only [setdefaultResult, if_neg hk]
      by_cases hx : k = X
      · simpa only [lookupResult, if_pos hx] using h
      · simp only [lookupResult, if_neg hx] at h ⊢
        exact lookupResult_setdefault_preserved u X r rest h

theorem lookupResult_updateResult (u : PyStr) (f : PageResult → PageResult) (X : PyStr) :
    ∀ rs : List (PyStr × PageResult),
      lookupResult (updateResult rs u f) X =
        if u = X then (lookupResult rs X).map f else lookupResult rs X := by
  intro rs
  induction rs with
  | nil => by_cases h : u = X <;> simp [updateResult, lookupResult, h]
  | cons kv rest ih =>
    obtain ⟨k, v⟩ := kv
    by_cases hk : k = u
    · subst hk
      by_cases hx : k = X
      · subst hx
        simp [updateResult, lookupResult]
      · have hux : ¬ k = X := hx
        simp [updateResult, lookupResult, hux, ih]
    · by_cases hx : k = X
      · subst hx
        have hux : ¬ u = k := fun h => hk h.symm
        simp [updateResult, lookupResult, hk, hux]
      · simp [updateResult, lookupResult, hk, hx, ih]

theorem lookupResult_update_ne (u : PyStr) (f : PageResult → PageResult) (X : PyStr)
    (hne : u ≠ X) (rs : List (PyStr × PageResult)) :
    lookupResult (updateResult rs u f) X = lookupResult rs X := by
  rw [lookupResult_updateResult, if_neg hne]

theorem processLinks_results_preserved (origin : PyStr × PyStr) (pp : Option PyStr)
    (pageUrl X : PyStr) (r : PageResult) :
    ∀ (hrefs : List PyStr) (ls ls' : LinkState),
      processLinks origin pp pageUrl hrefs ls = .ok ls' →
      lookupResult ls.results X = some r → lookupResult ls'.results X = some r
  | [], ls, ls', h, hl => by
    simp only [processLinks] at h
    injection h with h
    subst h
    exact hl
  | href :: rest, ls, ls', h, hl => by
    simp only [processLinks] at h
    cases hn : normalize_url href pageUrl with
    | error e => rw [hn] at h; simp [Bind.bind, Except.bind] at h
    | ok o =>
      rw [hn] at h
      cases o with
      | none =>
        simp only [Bind.bind, Except.bind] at h
        exact processLinks_results_preserved origin pp pageUrl X r rest ls ls' h hl
      | some target =>
        simp only [Bind.bind, Except.bind] at h
        by_cases ht : target = []
        · rw [if_pos ht] at h
          exact processLinks_results_preserved origin pp pageUrl X r rest ls ls' h hl
        · rw [if_neg ht] at h
          cases hloc : is_local target origin with
          | error e => rw [hloc] at h; simp [Bind.bind, Except.bind] at h
          | ok loc =>
            rw [hloc] at h
            simp only [Bind.bind, Except.bind] at h
            by_cases hl2 : loc = true
            · subst hl2
              rw [if_neg (by simp)] at h
              cases hm : matchesPathPrefix target pp with
              | error e => rw [hm] at h; simp [Bind.bind, Except.bind] at h
              | ok m =>
                rw [hm] at h
                simp only [Bind.bind, Except.bind] at h
                by_cases hm2 : m = true
                · subst hm2
                  rw [if_neg (by simp)] at h
                  refine processLinks_results_preserved origin pp pageUrl X r rest _ ls' h ?_
                  have hbase : lookupResult (setdefaultResult ls.results target) X = some r :=
                    lookupResult_setdefault_preserved target X r ls.results hl
                  split <;> exact hbase
                · have : m = false := by simpa using hm2
                  subst this
                  rw [if_pos (by simp)] at h
                  exact processLinks_results_preserved origin pp pageUrl X r rest ls ls' h hl
            · have : loc = false := by simpa using hl2
              subst this
              rw [if_pos (by simp)] at h
              exact processLinks_results_preserved origin pp pageUrl X r rest ls ls' h hl

/-- A successful `crawlFinal` run decomposes into: successful start-URL
canonicalization, a passed path-prefix check, a parsed origin, the
robots rules, and a successful loop run from the initial state. -/
theorem crawlFinal_ok_elim (env : CrawlEnv) (u : PyStr) (rb : Bool) (t : CrawlState)
    (h : crawlFinal env u rb = .ok t) :
    ∃ start parsed,
      normalize_url u u = .ok (some start) ∧
      pyUrlparse start = .ok parsed ∧
      crawlLoop env
        (if rb then load_robots_rules env.fetch 0 (parsed.scheme, parsed.netloc) else [])
        (parsed.scheme, parsed.netloc)
        (initState start 0 (if rb then 1 else 0)) = .ok t := by
  unfold crawlFinal at h
  cases hn : normalize_url u u with
  | error e =>
    rw [hn] at h
    simp [Bind.bind, Except.bind] at h
  | ok o =>
    rw [hn] at h
    cases o with
    | none => simp [Bind.bind, Except.bind] at h
    | some start =>
      simp only [Bind.bind, Except.bind] at h
      cases hm : (if env.pathPrefix = none ∨ env.pathPrefix = some [] then
          Except.ok true else matchesPathPrefix start env.pathPrefix) with
      | error e =>
        rw [hm] at h
        simp [Bind.bind, Except.bind] at h
      | ok m =>
        rw [hm] at h
        simp only [Bind.bind, Except.bind] at h
        by_cases hm2 : m = true
        · subst hm2
          rw [if_neg (by simp)] at h
          cases hpp : pyUrlparse start with
          | error e =>
            rw [hpp] at h
            simp [Bind.bind, Except.bind] at h
          | ok parsed =>
            rw [hpp] at h
            simp only [Bind.bind, Except.bind] at h
            exact ⟨start, parsed, rfl, hpp, h⟩
        · have : m = false := by simpa using hm2
          subst this
          rw [if_pos (by simp)] at h
          simp at h

/-- C1: in every successful engine run — for any fetcher, extractor and
timestamp behaviour — each canonical URL is processed at most once (the
scanned accounting is duplicate-free and the processed-count equals its
size), the processed-count never exceeds `max_pages`, and the loop
stops exactly at an empty frontier or at the page limit, whichever
comes first. -/
theorem c1_frontier_discipline (env : CrawlEnv) (u : PyStr) (rb : Bool)
    (t : CrawlState) (h : crawlFinal env u rb = .ok t) :
    t.scanned.Nodup ∧
    t.stats.pages_crawled = t.scanned.length ∧
    t.stats.pages_crawled ≤ env.max_pages ∧
    (t.queue = [] ∨ t.stats.pages_crawled = env.max_pages) := by
  obtain ⟨start, parsed, hn, hpp, hloop⟩ := crawlFinal_ok_elim env u rb t h
  have main := crawlLoop_ok_inv env
    (if rb then load_robots_rules env.fetch 0 (parsed.scheme, parsed.netloc) else [])
    (parsed.scheme, parsed.netloc)
    (fun s => s.scanned.Nodup ∧ s.stats.pages_crawled = s.scanned.length ∧
      s.stats.pages_crawled ≤ env.max_pages)
    (by
      intro s url rest hq hp hs hP
      exact hP)
    (by
      intro s url rest hq hp hs hb hP
      refine ⟨?_, ?_, ?_⟩
      · simp only [robotsSkipState]
        simp [List.nodup_append, hP.1, hs]
      · simp only [robotsSkipState]
        simp [hP.2.1]
      · simp only [robotsSkipState]
        omega)
    (by
      intro s url rest hq hp hs hb hf hP
      refine ⟨?_, ?_, ?_⟩
      · simp only [fetchErrorState, preFetchState]
        simp [List.nodup_append, hP.1, hs]
      · simp only [fetchErrorState, preFetchState]
        simp [hP.2.1]
      · simp only [fetchErrorState, preFetchState]
        omega)
    (by
      intro s url rest resp hq hp hs hb hf hct hP
      refine ⟨?_, ?_, ?_⟩
      · simp only [nonHtmlState, preFetchState]
        simp [List.nodup_append, hP.1, hs]
      · simp only [nonHtmlState, preFetchState, responseStats]
        simp [record_page_pages_crawled, hP.2.1]
      · simp only [nonHtmlState, preFetchState, responseStats]
        simp [record_page_pages_crawled]
        omega)
    (by
      intro s url rest resp ls hq hp hs hb hf hct hl hP
      refine ⟨?_, ?_, ?_⟩
      · simp only [htmlState, preFetchState]
        simp [List.nodup_append, hP.1, hs]
      · simp only [htmlState, preFetchState, responseStats]
        simp [record_page_pages_crawled, hP.2.1]
      · simp only [htmlState, preFetchState, responseStats]
        simp [record_page_pages_crawled]
        omega)
    (initState start 0 (if rb then 1 else 0)) t
    (by simp [initState]) hloop
  obtain ⟨⟨hnd, hlen, hle⟩, hexit⟩ := main
  refine ⟨hnd, hlen, hle, ?_⟩
  rcases hexit with hq | hp
  · exact Or.inl hq
  · exact Or.inr (by omega)

/-- Concrete evaluation of the `envA` loop run: it takes the
fetch-error branch once and then stops at the page limit.  (The loop is
defined by well-founded recursion, so concrete runs are evaluated by
chaining its branch equations rather than by kernel reduction.) -/
theorem crawlLoopA :
    crawlLoop envA [] (("http").data, ("e.com").data) (initState startA 0 0) =
      Except.ok finA := by
  rw [crawlLoop_fetch_error envA [] (("http").data, ("e.com").data)
      (initState startA 0 0) startA [] rfl (by decide) (by decide) (by decide) rfl,
    crawlLoop_limit envA [] (("http").data, ("e.com").data) _ (by decide)]
  decide

/-- Concrete evaluation of the full `envA` run. -/
theorem crawlFinalA : crawlFinal envA startA false = Except.ok finA := by
  have h0 : crawlFinal envA startA false =
      crawlLoop envA [] (("http").data, ("e.com").data) (initState startA 0 0) := by
    rfl
  rw [h0, crawlLoopA]

/-- C1 witness: a concrete one-page run (all fetches fail) reaching the
page limit with a duplicate-free scanned set. -/
theorem c1_witness :
    finA.scanned.Nodup ∧ finA.stats.pages_crawled = finA.scanned.length ∧
    finA.stats.pages_crawled ≤ envA.max_pages ∧
    (finA.queue = [] ∨ finA.stats.pages_crawled = envA.max_pages) :=
  c1_frontier_discipline envA startA false finA crawlFinalA

/-! More dictionary facts, and the record-freezing invariant used by the
step-effect claims. -/

theorem lookupCount_bumpCount_self (k : PyStr) :
    ∀ m : List (PyStr × Nat), lookupCount (bumpCount m k) k = lookupCount m k + 1
  | [] => by simp [bumpCount, lookupCount]
  | (k', v) :: rest => by
    by_cases h : k' = k
    · simp [bumpCount, lookupCount, h]
    · simp [bumpCount, lookupCount, h, lookupCount_bumpCount_self k rest]

theorem lookupResult_setdefault_self (u : PyStr) :
    ∀ rs, lookupResult (setdefaultResult rs u) u =
      some ((lookupResult rs u).getD { url := u })
  | [] => by simp [setdefaultResult, lookupResult]
  | (k, r) :: rest => by
    by_cases hk : k = u
    · simp [setdefaultResult, lookupResult, hk]
    · simp [setdefaultResult, lookupResult, hk, lookupResult_setdefault_self u rest]

/-- Once a URL has been scanned, its stored record never changes again
for the remainder of a successful loop run (later iterations only touch
the records of not-yet-scanned dequeued URLs and `setdefault` link
targets). -/
theorem crawlLoop_record_frozen (env : CrawlEnv) (rules : List PyStr)
    (origin : PyStr × PyStr) (X : PyStr) (r0 : PageResult)
    (s t : CrawlState) (hse : X ∈ s.scanned)
    (hr : lookupResult s.results X = some r0)
    (hok : crawlLoop env rules origin s = .ok t) :
    X ∈ t.scanned ∧ lookupResult t.results X = some r0 := by
  have main := crawlLoop_ok_inv env rules origin
    (fun s => X ∈ s.scanned ∧ lookupResult s.results X = some r0)
    (by
      intro s url rest hq hp hs hP
      exact hP)
    (by
      intro s url rest hq hp hs hb hP
      obtain ⟨h1, h2⟩ := hP
      have hne : url ≠ X := fun h => hs (h ▸ h1)
      refine ⟨by simp [robotsSkipState, h1], ?_⟩
      simp only [robotsSkipState, mark_skipped]
      rw [lookupResult_update_ne _ _ _ hne]
      exact lookupResult_setdefault_preserved url X r0 s.results h2)
    (by
      intro s url rest hq hp hs hb hf hP
      obtain ⟨h1, h2⟩ := hP
      have hne : url ≠ X := fun h => hs (h ▸ h1)
      refine ⟨by simp [fetchErrorState, preFetchState, h1], ?_⟩
      simp only [fetchErrorState, preFetchState]
      rw [lookupResult_update_ne _ _ _ hne, lookupResult_update_ne _ _ _ hne]
      exact lookupResult_setdefault_preserved url X r0 s.results h2)
    (by
      intro s url rest resp hq hp hs hb hf hct hP
      obtain ⟨h1, h2⟩ := hP
      have hne : url ≠ X := fun h => hs (h ▸ h1)
      refine ⟨by simp [nonHtmlState, preFetchState, h1], ?_⟩
      simp only [nonHtmlState, preFetchState]
      rw [lookupResult_update_ne _ _ _ hne, lookupResult_update_ne _ _ _ hne]
      exact lookupResult_setdefault_preserved url X r0 s.results h2)
    (by
      intro s url rest resp ls hq hp hs hb hf hct hl hP
      obtain ⟨h1, h2⟩ := hP
      have hne : url ≠ X := fun h => hs (h ▸ h1)
      refine ⟨by simp [htmlState, preFetchState, h1], ?_⟩
      simp only [htmlState]
      refine processLinks_results_preserved origin env.pathPrefix url X r0 _ _ ls hl ?_
      simp only [preFetchState]
      rw [lookupResult_update_ne _ _ _ hne, lookupResult_update_ne _ _ _ hne,
        lookupResult_update_ne _ _ _ hne]
      exact lookupResult_setdefault_preserved url X r0 s.results h2)
    s t ⟨hse, hr⟩ hok
  exact main.1

/-- C6: a dequeued URL whose fetch raises a transport error is handled
in place: the loop continues from the exception-handler state instead
of aborting, that state's processed-count is the old one plus one and
its `connection_error` bucket is the old one plus one, and at the end
of the (successful) run the URL's record still has `scanned_at` set to
the fetch-time timestamp and absent status, title, h1-presence and
h1-contents. -/
theorem c6_transport_error (env : CrawlEnv) (rules : List PyStr)
    (origin : PyStr × PyStr) (s : CrawlState) (X : PyStr) (rest : List PyStr)
    (t : CrawlState)
    (hq : s.queue = X :: rest) (hp : s.stats.pages_crawled < env.max_pages)
    (hs : X ∉ s.scanned) (hb : is_blocked_by_robots X rules = .ok false)
    (hf : env.fetch s.fetchTick X = none)
    (hrun : crawlLoop env rules origin s = .ok t) :
    crawlLoop env rules origin s =
      crawlLoop env rules origin (fetchErrorState X (preFetchState env X rest s) s) ∧
    (fetchErrorState X (preFetchState env X rest s) s).stats.pages_crawled =
      s.stats.pages_crawled + 1 ∧
    lookupCount (fetchErrorState X (preFetchState env X rest s) s).stats.error_counts
        ("connection_error").data =
      lookupCount s.stats.error_counts ("connection_error").data + 1 ∧
    ∃ r, lookupResult t.results X = some r ∧
      r.scanned_at = some (env.now s.nowTick) ∧
      r.status_code = none ∧ r.title = none ∧ r.h1_present = none ∧
      r.h1_contents = none := by
  have hstep := crawlLoop_fetch_error env rules origin s X rest hq hp hs hb hf
  refine ⟨hstep, rfl, ?_, ?_⟩
  · simp only [fetchErrorState, CrawlStats.record_error]
    exact lookupCount_bumpCount_self _ s.stats.error_counts
  · have hrun2 : crawlLoop env rules origin
        (fetchErrorState X (preFetchState env X rest s) s) = .ok t := by
      rw [← hstep]; exact hrun
    have hlook2 : lookupResult
        (fetchErrorState X (preFetchState env X rest s) s).results X =
        some { (lookupResult s.results X).getD { url := X } with
               scanned_at := some (env.now s.nowTick), status_code := none,
               title := none, h1_present := none, h1_contents := none } := by
      simp only [fetchErrorState, preFetchState]
      rw [lookupResult_updateResult, if_pos rfl, lookupResult_updateResult,
        if_pos rfl, lookupResult_setdefault_self]
      rfl
    have hmem2 : X ∈ (fetchErrorState X (preFetchState env X rest s) s).scanned := by
      simp [fetchErrorState, preFetchState]
    obtain ⟨-, hfin⟩ := crawlLoop_record_frozen env rules origin X _ _ t hmem2 hlook2 hrun2
    exact ⟨_, hfin, rfl, rfl, rfl, rfl, rfl⟩

/-- C6 witness: the concrete one-page run in which the only fetch fails
with a transport error. -/
theorem c6_witness :
    crawlLoop envA [] (("http").data, ("e.com").data) (initState startA 0 0) =
      crawlLoop envA [] (("http").data, ("e.com").data)
        (fetchErrorState startA
          (preFetchState envA startA [] (initState startA 0 0))
          (initState startA 0 0)) ∧
    (fetchErrorState startA (preFetchState envA startA [] (initState startA 0 0))
      (initState startA 0 0)).stats.pages_crawled =
      (initState startA 0 0).stats.pages_crawled + 1 ∧
    lookupCount (fetchErrorState startA
        (preFetchState envA startA [] (initState startA 0 0))
        (initState startA 0 0)).stats.error_counts ("connection_error").data =
      lookupCount (initState startA 0 0).stats.error_counts
        ("connection_error").data + 1 ∧
    ∃ r, lookupResult finA.results startA = some r ∧
      r.scanned_at = some (envA.now (initState startA 0 0).nowTick) ∧
      r.status_code = none ∧ r.title = none ∧ r.h1_present = none ∧
      r.h1_contents = none :=
  c6_transport_error envA [] (("http").data, ("e.com").data) (initState startA 0 0)
    startA [] finA rfl (by decide) (by decide) (by decide) rfl crawlLoopA

/-- Concrete evaluation of the `envA` loop run under the robots rule
set `["/"]`: the single page is robots-blocked, then the page limit is
reached. -/
theorem crawlLoopB :
    crawlLoop envA [("/").data] (("http").data, ("e.com").data)
      (initState startA 0 0) = Except.ok finB := by
  rw [crawlLoop_robots_skip envA [("/").data] (("http").data, ("e.com").data)
      (initState startA 0 0) startA [] rfl (by decide) (by decide) (by decide),
    crawlLoop_limit envA [("/").data] (("http").data, ("e.com").data) _ (by decide)]
  decide

/-- C7: robots blocking is a plain path-prefix test — with an empty
rule set nothing is blocked, and with a successfully parsed URL the
verdict is true iff some collected rule is a string prefix of the
parsed path — and a dequeued robots-blocked URL is handled without
fetching: the loop continues from the skip state, whose processed-count
is the old one plus one and whose error buckets are unchanged, the URL
never enters the fetch log for the rest of a successful run, and its
record ends the run with `scanned_at` set to the skip-time timestamp
and absent status, title, h1-presence and h1-contents. -/
theorem c7_robots_skip (env : CrawlEnv) (rules : List PyStr)
    (origin : PyStr × PyStr) (s : CrawlState) (X : PyStr) (rest : List PyStr)
    (t : CrawlState)
    (hq : s.queue = X :: rest) (hp : s.stats.pages_crawled < env.max_pages)
    (hs : X ∉ s.scanned) (hb : is_blocked_by_robots X rules = .ok true)
    (hrun : crawlLoop env rules origin s = .ok t) :
    (∀ u, is_blocked_by_robots u ([] : List PyStr) = .ok false) ∧
    (∀ u (rules' : List PyStr) parsed b, pyUrlparse u = .ok parsed →
      is_blocked_by_robots u rules' = .ok b →
      (b = true ↔ ∃ rl ∈ rules', rl.isPrefixOf parsed.path = true)) ∧
    crawlLoop env rules origin s =
      crawlLoop env rules origin (robotsSkipState env X rest s) ∧
    (robotsSkipState env X rest s).stats.pages_crawled =
      s.stats.pages_crawled + 1 ∧
    (robotsSkipState env X rest s).stats.error_counts = s.stats.error_counts ∧
    (X ∉ s.fetchLog → X ∉ t.fetchLog) ∧
    ∃ r, lookupResult t.results X = some r ∧
      r.scanned_at = some (env.now s.nowTick) ∧
      r.status_code = none ∧ r.title = none ∧ r.h1_present = none ∧
      r.h1_contents = none := by
  have hstep := crawlLoop_robots_skip env rules origin s X rest hq hp hs hb
  refine ⟨?_, ?_, hstep, rfl, rfl, ?_, ?_⟩
  · intro u
    simp [is_blocked_by_robots]
  · intro u rules' parsed b hparse hblocked
    unfold is_blocked_by_robots at hblocked
    by_cases hr : rules' = []
    · subst hr
      simp only [if_pos rfl] at hblocked
      injection hblocked with h
      subst h
      simp
    · rw [if_neg hr, hparse] at hblocked
      simp only [Bind.bind, Except.bind] at hblocked
      injection hblocked with h
      subst h
      simp [List.any_eq_true]
  · intro hflog
    have hnf := crawlLoop_ok_inv env rules origin (fun s => X ∉ s.fetchLog)
      (by
        intro s' url rest' hq' hp' hs' hP
        exact hP)
      (by
        intro s' url rest' hq' hp' hs' hb2 hP
        simpa [robotsSkipState] using hP)
      (by
        intro s' url rest' hq' hp' hs' hb2 hf hP
        have hne : url ≠ X := by
          intro h
          subst h
          rw [hb] at hb2
          simp at hb2
        simp only [fetchErrorState, preFetchState, List.mem_append,
          List.mem_singleton]
        rintro (h | h)
        · exact hP h
        · exact hne h.symm)
      (by
        intro s' url rest' resp hq' hp' hs' hb2 hf hct hP
        have hne : url ≠ X := by
          intro h
          subst h
          rw [hb] at hb2
          simp at hb2
        simp only [nonHtmlState, preFetchState, List.mem_append,
          List.mem_singleton]
        rintro (h | h)
        · exact hP h
        · exact hne h.symm)
      (by
        intro s' url rest' resp ls hq' hp' hs' hb2 hf hct hl hP
        have hne : url ≠ X := by
          intro h
          subst h
          rw [hb] at hb2
          simp at hb2
        simp only [htmlState, preFetchState, List.mem_append,
          List.mem_singleton]
        rintro (h | h)
        · exact hP h
        · exact hne h.symm)
      s t hflog hrun
    exact hnf.1
  · have hrun2 : crawlLoop env rules origin (robotsSkipState env X rest s) = .ok t := by
      rw [← hstep]
      exact hrun
    have hlook2 : lookupResult (robotsSkipState env X rest s).results X =
        some { (lookupResult s.results X).getD { url := X } with
               scanned_at := some (env.now s.nowTick), status_code := none,
               title := none, h1_present := none, h1_contents := none } := by
      simp only [robotsSkipState, mark_skipped]
      rw [lookupResult_updateResult, if_pos rfl, lookupResult_setdefault_self]
      rfl
    have hmem2 : X ∈ (robotsSkipState env X rest s).scanned := by
      simp [robotsSkipState]
    obtain ⟨-, hfin⟩ := crawlLoop_record_frozen env rules origin X _ _ t hmem2 hlook2 hrun2
    exact ⟨_, hfin, rfl, rfl, rfl, rfl, rfl⟩

/-- C7 witness: the concrete one-page run whose single URL is blocked
by the rule set `["/"]`. -/
theorem c7_witness :
    (∀ u, is_blocked_by_robots u ([] : List PyStr) = .ok false) ∧
    (∀ u (rules' : List PyStr) parsed b, pyUrlparse u = .ok parsed →
      is_blocked_by_robots u rules' = .ok b →
      (b = true ↔ ∃ rl ∈ rules', rl.isPrefixOf parsed.path = true)) ∧
    crawlLoop envA [("/").data] (("http").data, ("e.com").data)
        (initState startA 0 0) =
      crawlLoop envA [("/").data] (("http").data, ("e.com").data)
        (robotsSkipState envA startA [] (initState startA 0 0)) ∧
    (robotsSkipState envA startA [] (initState startA 0 0)).stats.pages_crawled =
      (initState startA 0 0).stats.pages_crawled + 1 ∧
    (robotsSkipState envA startA [] (initState startA 0 0)).stats.error_counts =
      (initState startA 0 0).stats.error_counts ∧
    (startA ∉ (initState startA 0 0).fetchLog → startA ∉ finB.fetchLog) ∧
    ∃ r, lookupResult finB.results startA = some r ∧
      r.scanned_at = some (envA.now (initState startA 0 0).nowTick) ∧
      r.status_code = none ∧ r.title = none ∧ r.h1_present = none ∧
      r.h1_contents = none :=
  c7_robots_skip envA [("/").data] (("http").data, ("e.com").data)
    (initState startA 0 0) startA [] finB rfl (by decide) (by decide) (by decide)
    crawlLoopB

/-! The backlink map's key set under `addInlink`, and the filter
discipline of the link-discovery loop. -/

theorem addInlink_keys (target source : PyStr) :
    ∀ m : List (PyStr × List PyStr), (addInlink m target source).map Prod.fst =
      if target ∈ m.map Prod.fst then m.map Prod.fst
      else m.map Prod.fst ++ [target]
  | [] => by simp [addInlink]
  | (k, v) :: rest => by
    by_cases hk : k = target
    · subst hk
      simp [addInlink]
    · simp only [addInlink, if_neg hk, List.map_cons]
      rw [addInlink_keys target source rest]
      by_cases hm : target ∈ rest.map Prod.fst
      · simp [hm, Ne.symm hk]
      · simp [hm, Ne.symm hk]

/-- The `for href` loop never lets a target that fails the same-origin
or path-prefix filter into the discovered set, the queue, or the
backlink map, and keeps every backlink key a filter-passing target. -/
theorem processLinks_filters (origin : PyStr × PyStr) (pp : Option PyStr)
    (pageUrl T : PyStr) (hfail : ¬ passesFilters origin pp T) :
    ∀ (hrefs : List PyStr) (ls ls' : LinkState),
      processLinks origin pp pageUrl hrefs ls = .ok ls' →
      (T ∉ ls.discovered ∧ T ∉ ls.queue ∧ T ∉ ls.inlinks.map Prod.fst ∧
        (∀ u ∈ ls.inlinks.map Prod.fst, passesFilters origin pp u)) →
      (T ∉ ls'.discovered ∧ T ∉ ls'.queue ∧ T ∉ ls'.inlinks.map Prod.fst ∧
        (∀ u ∈ ls'.inlinks.map Prod.fst, passesFilters origin pp u))
  | [], ls, ls', h, hpre => by
    simp only [processLinks] at h
    injection h with h
    subst h
    exact hpre
  | href :: rest, ls, ls', h, hpre => by
    simp only [processLinks] at h
    cases hn : normalize_url href pageUrl with
    | error e => rw [hn] at h; simp [Bind.bind, Except.bind] at h
    | ok o =>
      rw [hn] at h
      cases o with
      | none =>
        simp only [Bind.bind, Except.bind] at h
        exact processLinks_filters origin pp pageUrl T hfail rest ls ls' h hpre
      | some target =>
        simp only [Bind.bind, Except.bind] at h
        by_cases ht : target = []
        · rw [if_pos ht] at h
          exact processLinks_filters origin pp pageUrl T hfail rest ls ls' h hpre
        · rw [if_neg ht] at h
          cases hloc : is_local target origin with
          | error e => rw [hloc] at h; simp [Bind.bind, Except.bind] at h
          | ok loc =>
            rw [hloc] at h
            simp only [Bind.bind, Except.bind] at h
            by_cases hl2 : loc = true
            · subst hl2
              rw [if_neg (by simp)] at h
              cases hm : matchesPathPrefix target pp with
              | error e => rw [hm] at h; simp [Bind.bind, Except.bind] at h
              | ok m =>
                rw [hm] at h
                simp only [Bind.bind, Except.bind] at h
                by_cases hm2 : m = true
                · subst hm2
                  rw [if_neg (by simp)] at h
                  refine processLinks_filters origin pp pageUrl T hfail rest _ ls' h ?_
                  obtain ⟨hd, hqn, hik, hpass⟩ := hpre
                  have hTne : target ≠ T := fun he => hfail ⟨he ▸ hloc, he ▸ hm⟩
                  have hik2 : T ∉ (addInlink ls.inlinks target pageUrl).map Prod.fst := by
                    rw [addInlink_keys]
                    split
                    · exact hik
                    · simp only [List.mem_append, List.mem_singleton]
                      rintro (hmm | hmm)
                      · exact hik hmm
                      · exact hTne hmm.symm
                  have hpass2 : ∀ u ∈ (addInlink ls.inlinks target pageUrl).map Prod.fst,
                      passesFilters origin pp u := by
                    intro u hu
                    rw [addInlink_keys] at hu
                    have hu2 : u ∈ ls.inlinks.map Prod.fst ∨ u = target := by
                      revert hu
                      split
                      · exact fun hu => Or.inl hu
                      · intro hu
                        rcases List.mem_append.mp hu with hu | hu
                        · exact Or.inl hu
                        · exact Or.inr (List.mem_singleton.mp hu)
                    rcases hu2 with hu2 | hu2
                    · exact hpass u hu2
                    · subst hu2
                      exact ⟨hloc, hm⟩
                  split
                  · exact ⟨hd, hqn, hik2, hpass2⟩
                  · refine ⟨?_, ?_, hik2, hpass2⟩
                    · simp only [List.mem_append, List.mem_singleton]
                      rintro (hmm | hmm)
                      · exact hd hmm
                      · exact hTne hmm.symm
                    · simp only [List.mem_append, List.mem_singleton]
                      rintro (hmm | hmm)
                      · exact hqn hmm
                      · exact hTne hmm.symm
                · have : m = false := by simpa using hm2
                  subst this
                  rw [if_pos (by simp)] at h
                  exact processLinks_filters origin pp pageUrl T hfail rest ls ls' h hpre
            · have : loc = false := by simpa using hl2
              subst this
              rw [if_pos (by simp)] at h
              exact processLinks_filters origin pp pageUrl T hfail rest ls ls' h hpre

/-- C5: over any successful run, a target that fails the same-origin
filter or the path-prefix filter is never added to the discovered set,
never enqueued and never keyed in the backlink map, and the backlink
map's keys stay filter-passing targets throughout. -/
theorem c5_filter_discipline (env : CrawlEnv) (rules : List PyStr)
    (origin : PyStr × PyStr) (s t : CrawlState) (T : PyStr)
    (hfail : ¬ passesFilters origin env.pathPrefix T)
    (hrun : crawlLoop env rules origin s = .ok t)
    (hd : T ∉ s.discovered) (hqn : T ∉ s.queue)
    (hik : T ∉ s.inlinks.map Prod.fst)
    (hkeys : ∀ u ∈ s.inlinks.map Prod.fst, passesFilters origin env.pathPrefix u) :
    T ∉ t.discovered ∧ T ∉ t.queue ∧ T ∉ t.inlinks.map Prod.fst ∧
    ∀ u ∈ t.inlinks.map Prod.fst, passesFilters origin env.pathPrefix u := by
  have main := crawlLoop_ok_inv env rules origin
    (fun s => T ∉ s.discovered ∧ T ∉ s.queue ∧ T ∉ s.inlinks.map Prod.fst ∧
      ∀ u ∈ s.inlinks.map Prod.fst, passesFilters origin env.pathPrefix u)
    (by
      intro s' url rest hq hp hs hP
      obtain ⟨h1, h2, h3, h4⟩ := hP
      refine ⟨h1, ?_, h3, h4⟩
      rw [hq] at h2
      simp only [List.mem_cons, not_or] at h2
      exact h2.2)
    (by
      intro s' url rest hq hp hs hb hP
      obtain ⟨h1, h2, h3, h4⟩ := hP
      refine ⟨h1, ?_, h3, h4⟩
      rw [hq] at h2
      simp only [List.mem_cons, not_or] at h2
      exact h2.2)
    (by
      intro s' url rest hq hp hs hb hf hP
      obtain ⟨h1, h2, h3, h4⟩ := hP
      refine ⟨h1, ?_, h3, h4⟩
      rw [hq] at h2
      simp only [List.mem_cons, not_or] at h2
      exact h2.2)
    (by
      intro s' url rest resp hq hp hs hb hf hct hP
      obtain ⟨h1, h2, h3, h4⟩ := hP
      refine ⟨h1, ?_, h3, h4⟩
      rw [hq] at h2
      simp only [List.mem_cons, not_or] at h2
      exact h2.2)
    (by
      intro s' url rest resp ls hq hp hs hb hf hct hl hP
      obtain ⟨h1, h2, h3, h4⟩ := hP
      have h2' : T ∉ rest := by
        rw [hq] at h2
        simp only [List.mem_cons, not_or] at h2
        exact h2.2
      exact processLinks_filters origin env.pathPrefix url T hfail _ _ ls hl
        ⟨h1, h2', h3, h4⟩)
    s t ⟨hd, hqn, hik, hkeys⟩ hrun
  exact main.1

/-- C5 witness: the off-origin target `http://other.com/` stays out of
every accumulator of the concrete `envA` run. -/
theorem c5_witness :
    ("http://other.com/").data ∉ finA.discovered ∧
    ("http://other.com/").data ∉ finA.queue ∧
    ("http://other.com/").data ∉ finA.inlinks.map Prod.fst ∧
    ∀ u ∈ finA.inlinks.map Prod.fst,
      passesFilters (("http").data, ("e.com").data) envA.pathPrefix u :=
  c5_filter_discipline envA [] (("http").data, ("e.com").data)
    (initState startA 0 0) finA ("http://other.com/").data (by decide) crawlLoopA
    (by decide) (by decide) (by decide) (by decide)

/-! `pyStrLt` is a strict total order (as Python string `<` is), so
`pyLe` is a total preorder and `sorted` output is `Sorted pyLe`. -/

theorem pyStrLt_irrefl : ∀ a : PyStr, pyStrLt a a = false
  | [] => rfl
  | a :: as => by
    rw [pyStrLt, if_neg (show ¬ a.val < a.val from Nat.lt_irrefl _), if_pos rfl]
    exact pyStrLt_irrefl as

theorem pyStrLt_trans :
    ∀ a b c : PyStr, pyStrLt a b = true → pyStrLt b c = true → pyStrLt a c = true
  | [], [], _ => fun h _ => by simp [pyStrLt] at h
  | _ :: _, [], _ => fun h _ => by simp [pyStrLt] at h
  | [], _ :: _, [] => fun _ h => by simp [pyStrLt] at h
  | _ :: _, _ :: _, [] => fun _ h => by simp [pyStrLt] at h
  | [], _ :: _, _ :: _ => fun _ _ => by simp [pyStrLt]
  | a :: as, b :: bs, c :: cs => fun h1 h2 => by
    rw [pyStrLt] at h1 h2 ⊢
    by_cases hab : a.val < b.val
    · by_cases hbc : b.val < c.val
      · rw [if_pos (show a.val < c.val from Nat.lt_trans hab hbc)]
      · rw [if_neg hbc] at h2
        by_cases hbc2 : b.val = c.val
        · rw [if_pos (hbc2 ▸ hab)]
        · rw [if_neg hbc2] at h2
          exact absurd h2 (by simp)
    · rw [if_neg hab] at h1
      by_cases hab2 : a.val = b.val
      · rw [if_pos hab2] at h1
        by_cases hbc : b.val < c.val
        · rw [if_pos (hab2 ▸ hbc)]
        · rw [if_neg hbc] at h2
          by_cases hbc2 : b.val = c.val
          · rw [if_pos hbc2] at h2
            rw [if_neg (show ¬ a.val < c.val by rw [hab2, hbc2]; exact Nat.lt_irrefl _),
              if_pos (hab2.trans hbc2)]
            exact pyStrLt_trans as bs cs h1 h2
          · rw [if_neg hbc2] at h2
            exact absurd h2 (by simp)
      · rw [if_neg hab2] at h1
        exact absurd h1 (by simp)

theorem pyStrLt_trichotomy :
    ∀ a b : PyStr, pyStrLt a b = true ∨ a = b ∨ pyStrLt b a = true
  | [], [] => Or.inr (Or.inl rfl)
  | [], _ :: _ => Or.inl rfl
  | _ :: _, [] => Or.inr (Or.inr rfl)
  | a :: as, b :: bs => by
    rcases Nat.lt_trichotomy a.val.toNat b.val.toNat with h | h | h
    · exact Or.inl (by rw [pyStrLt, if_pos (show a.val < b.val from h)])
    · have h : a.val = b.val := UInt32.ext h
      have hnlt : ¬ a.val < b.val := by rw [h]; exact Nat.lt_irrefl _
      have hnlt2 : ¬ b.val < a.val := by rw [h]; exact Nat.lt_irrefl _
      rcases pyStrLt_trichotomy as bs with h2 | h2 | h2
      · exact Or.inl (by rw [pyStrLt, if_neg hnlt, if_pos h]; exact h2)
      · exact Or.inr (Or.inl (by rw [Char.ext h, h2]))
      · exact Or.inr (Or.inr (by rw [pyStrLt, if_neg hnlt2, if_pos h.symm]; exact h2))
    · exact Or.inr (Or.inr (by rw [pyStrLt, if_pos (show b.val < a.val from h)]))

theorem pyLe_iff (a b : PyStr) : pyLe a b ↔ ¬ pyStrLt b a = true := by
  simp [pyLe, pyStrLe]

theorem pyLe_total : ∀ a b : PyStr, pyLe a b ∨ pyLe b a := by
  intro a b
  by_cases h : pyStrLt b a = true
  · right
    rw [pyLe_iff]
    intro h2
    have h3 := pyStrLt_trans b a b h h2
    rw [pyStrLt_irrefl] at h3
    simp at h3
  · left
    exact (pyLe_iff a b).mpr h

theorem pyLe_trans : ∀ a b c : PyStr, pyLe a b → pyLe b c → pyLe a c := by
  intro a b c h1 h2
  rw [pyLe_iff] at h1 h2 ⊢
  intro hca
  rcases pyStrLt_trichotomy a b with h3 | h3 | h3
  · exact h2 (pyStrLt_trans c a b hca h3)
  · exact h2 (h3 ▸ hca)
  · exact h1 h3

/-! Key-set facts about the results dictionary. -/

theorem setdefaultResult_keys (u : PyStr) :
    ∀ rs : List (PyStr × PageResult), (setdefaultResult rs u).map Prod.fst =
      if u ∈ rs.map Prod.fst then rs.map Prod.fst else rs.map Prod.fst ++ [u]
  | [] => by simp [setdefaultResult]
  | (k, v) :: rest => by
    by_cases hk : k = u
    · subst hk
      rw [setdefaultResult, if_pos rfl,
        if_pos (List.mem_map_of_mem Prod.fst (List.mem_cons_self (k, v) rest))]
    · simp only [setdefaultResult, if_neg hk, List.map_cons]
      rw [setdefaultResult_keys u rest]
      by_cases hm : u ∈ rest.map Prod.fst
      · simp [hm, Ne.symm hk]
      · simp [hm, Ne.symm hk]

theorem updateResult_keys (u : PyStr) (f : PageResult → PageResult) :
    ∀ rs : List (PyStr × PageResult),
      (updateResult rs u f).map Prod.fst = rs.map Prod.fst
  | [] => rfl
  | (k, v) :: rest => by
    by_cases hk : k = u
    · simp [updateResult, hk, updateResult_keys u f rest]
    · simp [updateResult, hk, updateResult_keys u f rest]

theorem setdefaultResult_urlfield (u : PyStr) :
    ∀ rs : List (PyStr × PageResult), (∀ p ∈ rs, (p.2).url = p.1) →
      ∀ p ∈ setdefaultResult rs u, (p.2).url = p.1
  | [], _, p, hp => by
    simp only [setdefaultResult, List.mem_singleton] at hp
    subst hp
    rfl
  | (k, v) :: rest, hinv, p, hp => by
    by_cases hk : k = u
    · rw [setdefaultResult, if_pos hk] at hp
      exact hinv p hp
    · rw [setdefaultResult, if_neg hk] at hp
      rcases List.mem_cons.mp hp with h | h
      · exact hinv p (h ▸ List.mem_cons_self _ _)
      · exact setdefaultResult_urlfield u rest
          (fun q hq => hinv q (List.mem_cons_of_mem _ hq)) p h

theorem updateResult_urlfield (u : PyStr) (f : PageResult → PageResult)
    (hf : ∀ r, (f r).url = r.url) :
    ∀ rs : List (PyStr × PageResult), (∀ p ∈ rs, (p.2).url = p.1) →
      ∀ p ∈ updateResult rs u f, (p.2).url = p.1
  | [], _, p, hp => by simp [updateResult] at hp
  | (k, v) :: rest, hinv, p, hp => by
    have htail := updateResult_urlfield u f hf rest
      (fun q hq => hinv q (List.mem_cons_of_mem _ hq))
    by_cases hk : k = u
    · rw [updateResult, if_pos hk] at hp
      rcases List.mem_cons.mp hp with h | h
      · subst h
        rw [hf v]
        exact hinv (k, v) (List.mem_cons_self _ _)
      · exact htail p h
    · rw [updateResult, if_neg hk] at hp
      rcases List.mem_cons.mp hp with h | h
      · exact hinv p (h ▸ List.mem_cons_self _ _)
      · exact htail p h

theorem lookupResult_mem_keys (u : PyStr) :
    ∀ rs : List (PyStr × PageResult), u ∈ rs.map Prod.fst →
      ∃ r, lookupResult rs u = some r ∧ (u, r) ∈ rs
  | [], h => by simp at h
  | (k, v) :: rest, h => by
    by_cases hk : k = u
    · subst hk
      exact ⟨v, by simp [lookupResult], by simp⟩
    · have h2 : u ∈ rest.map Prod.fst := by
        simp only [List.map_cons, List.mem_cons] at h
        rcases h with h | h
        · exact absurd h.symm hk
        · exact h
      obtain ⟨r, hr, hmem⟩ := lookupResult_mem_keys u rest h2
      exact ⟨r, by simp [lookupResult, hk, hr], by simp [hmem]⟩

/-- The link-discovery loop keeps the results-dictionary key list equal
to the discovered list, the queue inside the discovered set, every
stored record's `url` field equal to its key, and the discovered list
duplicate-free. -/
theorem processLinks_keys (origin : PyStr × PyStr) (pp : Option PyStr)
    (pageUrl : PyStr) :
    ∀ (hrefs : List PyStr) (ls ls' : LinkState),
      processLinks origin pp pageUrl hrefs ls = .ok ls' →
      (ls.results.map Prod.fst = ls.discovered ∧
        (∀ u ∈ ls.queue, u ∈ ls.discovered) ∧
        (∀ p ∈ ls.results, (p.2).url = p.1) ∧ ls.discovered.Nodup) →
      (ls'.results.map Prod.fst = ls'.discovered ∧
        (∀ u ∈ ls'.queue, u ∈ ls'.discovered) ∧
        (∀ p ∈ ls'.results, (p.2).url = p.1) ∧ ls'.discovered.Nodup)
  | [], ls, ls', h, hpre => by
    simp only [processLinks] at h
    injection h with h
    subst h
    exact hpre
  | href :: rest, ls, ls', h, hpre => by
    simp only [processLinks] at h
    cases hn : normalize_url href pageUrl with
    | error e => rw [hn] at h; simp [Bind.bind, Except.bind] at h
    | ok o =>
      rw [hn] at h
      cases o with
      | none =>
        simp only [Bind.bind, Except.bind] at h
        exact processLinks_keys origin pp pageUrl rest ls ls' h hpre
      | some target =>
        simp only [Bind.bind, Except.bind] at h
        by_cases ht : target = []
        · rw [if_pos ht] at h
          exact processLinks_keys origin pp pageUrl rest ls ls' h hpre
        · rw [if_neg ht] at h
          cases hloc : is_local target origin with
          | error e => rw [hloc] at h; simp [Bind.bind, Except.bind] at h
          | ok loc =>
            rw [hloc] at h
            simp only [Bind.bind, Except.bind] at h
            by_cases hl2 : loc = true
            · subst hl2
              rw [if_neg (by simp)] at h
              cases hm : matchesPathPrefix target pp with
              | error e => rw [hm] at h; simp [Bind.bind, Except.bind] at h
              | ok m =>
                rw [hm] at h
                simp only [Bind.bind, Except.bind] at h
                by_cases hm2 : m = true
                · subst hm2
                  rw [if_neg (by simp)] at h
                  refine processLinks_keys origin pp pageUrl rest _ ls' h ?_
                  obtain ⟨hkeys, hqd, hurl, hnd⟩ := hpre
                  have hurl2 : ∀ p ∈ setdefaultResult ls.results target,
                      (p.2).url = p.1 :=
                    setdefaultResult_urlfield target ls.results hurl
                  split
                  · rename_i hdisc
                    refine ⟨?_, hqd, hurl2, hnd⟩
                    rw [setdefaultResult_keys, hkeys, if_pos hdisc]
                  · rename_i hdisc
                    refine ⟨?_, ?_, hurl2, ?_⟩
                    · rw [setdefaultResult_keys, hkeys, if_neg hdisc]
                    · intro u hu
                      rcases List.mem_append.mp hu with hu | hu
                      · exact List.mem_append_left _ (hqd u hu)
                      · exact List.mem_append_right _ hu
                    · simp only [List.nodup_append, List.nodup_singleton]
                      exact ⟨hnd, by simp, by
                        intro x hx hx2
                        rw [List.mem_singleton] at hx2
                        subst hx2
                        exact hdisc hx⟩
                · have : m = false := by simpa using hm2
                  subst this
                  rw [if_pos (by simp)] at h
                  exact processLinks_keys origin pp pageUrl rest ls ls' h hpre
            · have : loc = false := by simpa using hl2
              subst this
              rw [if_pos (by simp)] at h
              exact processLinks_keys origin pp pageUrl rest ls ls' h hpre

theorem lookupResult_some_mem (u : PyStr) :
    ∀ rs : List (PyStr × PageResult), ∀ r, lookupResult rs u = some r → (u, r) ∈ rs
  | [], r, h => by simp [lookupResult] at h
  | (k, v) :: rest, r, h => by
    by_cases hk : k = u
    · subst hk
      rw [lookupResult, if_pos rfl] at h
      injection h with h
      subst h
      exact List.mem_cons_self _ _
    · rw [lookupResult, if_neg hk] at h
      exact List.mem_cons_of_mem _ (lookupResult_some_mem u rest r h)

/-- Throughout a successful loop run the results-dictionary key list
equals the discovered list, the queue stays inside the discovered set,
records carry their key as `url`, and the discovered list is
duplicate-free. -/
theorem crawlLoop_keys (env : CrawlEnv) (rules : List PyStr)
    (origin : PyStr × PyStr) (s t : CrawlState)
    (hrun : crawlLoop env rules origin s = .ok t)
    (h1 : s.results.map Prod.fst = s.discovered)
    (h2 : ∀ u ∈ s.queue, u ∈ s.discovered)
    (h3 : ∀ p ∈ s.results, (p.2).url = p.1)
    (h4 : s.discovered.Nodup) :
    t.results.map Prod.fst = t.discovered ∧
    (∀ p ∈ t.results, (p.2).url = p.1) ∧ t.discovered.Nodup := by
  have main := crawlLoop_ok_inv env rules origin
    (fun s => s.results.map Prod.fst = s.discovered ∧
      (∀ u ∈ s.queue, u ∈ s.discovered) ∧
      (∀ p ∈ s.results, (p.2).url = p.1) ∧ s.discovered.Nodup)
    (by
      intro s' url rest hq hp hs hP
      obtain ⟨h1, h2, h3, h4⟩ := hP
      exact ⟨h1, fun u hu => h2 u (by rw [hq]; exact List.mem_cons_of_mem _ hu),
        h3, h4⟩)
    (by
      intro s' url rest hq hp hs hb hP
      obtain ⟨h1, h2, h3, h4⟩ := hP
      have hud : url ∈ s'.discovered := h2 url (by rw [hq]; exact List.mem_cons_self _ _)
      refine ⟨?_, ?_, ?_, h4⟩
      · simp only [robotsSkipState, mark_skipped]
        rw [updateResult_keys, setdefaultResult_keys, h1, if_pos hud]
      · intro u hu
        exact h2 u (by rw [hq]; exact List.mem_cons_of_mem _ hu)
      · simp only [robotsSkipState, mark_skipped]
        apply updateResult_urlfield
        · exact fun r => rfl
        · exact setdefaultResult_urlfield url s'.results h3)
    (by
      intro s' url rest hq hp hs hb hf hP
      obtain ⟨h1, h2, h3, h4⟩ := hP
      have hud : url ∈ s'.discovered := h2 url (by rw [hq]; exact List.mem_cons_self _ _)
      refine ⟨?_, ?_, ?_, h4⟩
      · simp only [fetchErrorState, preFetchState]
        rw [updateResult_keys, updateResult_keys, setdefaultResult_keys, h1,
          if_pos hud]
      · intro u hu
        exact h2 u (by rw [hq]; exact List.mem_cons_of_mem _ hu)
      · simp only [fetchErrorState, preFetchState]
        apply updateResult_urlfield
        · exact fun r => rfl
        · apply updateResult_urlfield
          · exact fun r => rfl
          · exact setdefaultResult_urlfield url s'.results h3)
    (by
      intro s' url rest resp hq hp hs hb hf hct hP
      obtain ⟨h1, h2, h3, h4⟩ := hP
      have hud : url ∈ s'.discovered := h2 url (by rw [hq]; exact List.mem_cons_self _ _)
      refine ⟨?_, ?_, ?_, h4⟩
      · simp only [nonHtmlState, preFetchState]
        rw [updateResult_keys, updateResult_keys, setdefaultResult_keys, h1,
          if_pos hud]
      · intro u hu
        exact h2 u (by rw [hq]; exact List.mem_cons_of_mem _ hu)
      · simp only [nonHtmlState, preFetchState]
        apply updateResult_urlfield
        · exact fun r => rfl
        · apply updateResult_urlfield
          · exact fun r => rfl
          · exact setdefaultResult_urlfield url s'.results h3)
    (by
      intro s' url rest resp ls hq hp hs hb hf hct hl hP
      obtain ⟨h1, h2, h3, h4⟩ := hP
      have hud : url ∈ s'.discovered := h2 url (by rw [hq]; exact List.mem_cons_self _ _)
      have := processLinks_keys origin env.pathPrefix url _ _ ls hl
        (by
          refine ⟨?_, ?_, ?_, h4⟩
          · simp only [preFetchState]
            rw [updateResult_keys, updateResult_keys, updateResult_keys,
              setdefaultResult_keys, h1, if_pos hud]
          · intro u hu
            exact h2 u (by rw [hq]; exact List.mem_cons_of_mem _ hu)
          · simp only [preFetchState]
            apply updateResult_urlfield
            · exact fun r => rfl
            · apply updateResult_urlfield
              · exact fun r => rfl
              · apply updateResult_urlfield
                · exact fun r => rfl
                · exact setdefaultResult_urlfield url s'.results h3)
      exact ⟨this.1, this.2.1, this.2.2.1, this.2.2.2⟩)
    s t ⟨h1, h2, h3, h4⟩ hrun
  exact ⟨main.1.1, main.1.2.2.1, main.1.2.2.2⟩

/-- The shape of the post-loop assembly: the emitted records are keyed
by the sorted discovered set, one each, with `linked_from` filled from
the final backlink map, and the stats are returned unchanged. -/
theorem finalize_shape (t : CrawlState)
    (hkeys : t.results.map Prod.fst = t.discovered)
    (hurl : ∀ p ∈ t.results, (p.2).url = p.1)
    (hnd : t.discovered.Nodup) :
    ((finalize t).1.map (fun r => r.url)) = (t.discovered).insertionSort pyLe ∧
    (∀ r ∈ (finalize t).1,
      r.linked_from = (inlinksGet t.inlinks r.url).insertionSort pyLe) ∧
    (finalize t).2 = t.stats := by
  have hmap : ∀ keys : List PyStr, (∀ u ∈ keys, u ∈ t.results.map Prod.fst) →
      (keys.filterMap (fun u => (lookupResult t.results u).map
        (fun r => { r with
          linked_from := (inlinksGet t.inlinks u).insertionSort pyLe }))).map
        (fun r => r.url) = keys := by
    intro keys
    induction keys with
    | nil => intro _; rfl
    | cons x xs ih =>
      intro hmem
      obtain ⟨r, hr, hrm⟩ := lookupResult_mem_keys x t.results
        (hmem x (List.mem_cons_self _ _))
      have hrurl : r.url = x := hurl (x, r) hrm
      simp only [List.filterMap_cons, hr, Option.map_some', List.map_cons]
      rw [ih (fun u hu => hmem u (List.mem_cons_of_mem _ hu))]
      rw [show ({ r with
        linked_from := (inlinksGet t.inlinks x).insertionSort pyLe } :
          PageResult).url = r.url from rfl, hrurl]
  refine ⟨?_, ?_, rfl⟩
  · show ((((t.results.map Prod.fst).insertionSort pyLe).filterMap _).map _) = _
    rw [hmap _ (fun u hu => (List.perm_insertionSort pyLe _).mem_iff.mp hu), hkeys]
  · intro r hr
    have hr2 := List.mem_filterMap.mp hr
    obtain ⟨u, hu, hu2⟩ := hr2
    cases hlook : lookupResult t.results u with
    | none => rw [hlook] at hu2; simp at hu2
    | some r0 =>
      rw [hlook] at hu2
      simp only [Option.map_some'] at hu2
      injection hu2 with hu2
      have hu0 : r0.url = u := hurl (u, r0) (lookupResult_some_mem u t.results r0 hlook)
      rw [← hu2]
      rw [show ({ r0 with
        linked_from := (inlinksGet t.inlinks u).insertionSort pyLe } :
          PageResult).url = r0.url from rfl, hu0]

/-- C4: for every completed run, the returned list has exactly one
record per URL ever added to the discovered set (a duplicate-free
permutation of it) and no others, it is sorted ascending by canonical
URL, each record's `linked_from` is the sorted source list of the
final backlink map entry for its URL (computed from the
post-termination map), and the returned stats are the final state's. -/
theorem c4_output_records (env : CrawlEnv) (u0 : PyStr) (rb : Bool)
    (t : CrawlState) (res : List PageResult) (st : CrawlStats)
    (hfin : crawlFinal env u0 rb = .ok t)
    (hcr : crawl env u0 rb = .ok (res, st)) :
    List.Perm (res.map (fun r => r.url)) t.discovered ∧
    (res.map (fun r => r.url)).Nodup ∧
    List.Sorted pyLe (res.map (fun r => r.url)) ∧
    (∀ r ∈ res, r.linked_from = (inlinksGet t.inlinks r.url).insertionSort pyLe) ∧
    st = t.stats := by
  have hres : finalize t = (res, st) := by
    unfold crawl at hcr
    rw [hfin] at hcr
    simp only [Bind.bind, Except.bind] at hcr
    injection hcr with hcr
  obtain ⟨start, parsed, hn, hpp, hloop⟩ := crawlFinal_ok_elim env u0 rb t hfin
  obtain ⟨hkeys, hurl, hnd⟩ := crawlLoop_keys env
    (if rb then load_robots_rules env.fetch 0 (parsed.scheme, parsed.netloc) else [])
    (parsed.scheme, parsed.netloc) (initState start 0 (if rb then 1 else 0)) t hloop
    (by simp [initState]) (by simp [initState]) (by simp [initState])
    (by simp [initState])
  obtain ⟨hshape, hlf, hst⟩ := finalize_shape t hkeys hurl hnd
  rw [hres] at hshape hlf hst
  simp only at hshape hlf hst
  refine ⟨?_, ?_, ?_, hlf, hst⟩
  · rw [hshape]
    exact List.perm_insertionSort pyLe t.discovered
  · rw [hshape]
    exact (List.perm_insertionSort pyLe t.discovered).nodup_iff.mpr hnd
  · rw [hshape]
    exact @List.sorted_insertionSort PyStr pyLe _ ⟨pyLe_total⟩ ⟨pyLe_trans⟩ t.discovered

/-- C4 witness: the record list of the concrete one-page run. -/
theorem c4_witness :
    List.Perm ((finalize finA).1.map (fun r => r.url)) finA.discovered ∧
    ((finalize finA).1.map (fun r => r.url)).Nodup ∧
    List.Sorted pyLe ((finalize finA).1.map (fun r => r.url)) ∧
    (∀ r ∈ (finalize finA).1,
      r.linked_from = (inlinksGet finA.inlinks r.url).insertionSort pyLe) ∧
    (finalize finA).2 = finA.stats :=
  c4_output_records envA startA false finA (finalize finA).1 (finalize finA).2
    crawlFinalA
    (by unfold crawl; rw [crawlFinalA]; rfl)

/-- C9, counterexample: with a perfectly valid start configuration (the
start URL canonicalizes, no path prefix is configured) the engine can
still propagate an error that is not of the invalid-input class — here
a `ValueError` ("Port out of range") raised while canonicalizing a
discovered href mid-crawl — so invalid input is not the only error
class that escapes the engine. -/
theorem c9_counterexample :
    normalize_url startA startA = Except.ok (some startA) ∧
    envC.pathPrefix = none ∧
    crawl envC startA false = Except.error (PyErr.portOutOfRange 99999) ∧
    (∀ u, PyErr.portOutOfRange 99999 ≠ PyErr.invalidStartUrl u) ∧
    PyErr.portOutOfRange 99999 ≠ PyErr.startPrefixMismatch := by
  have hloop : crawlLoop envC [] (("http").data, ("e.com").data)
      (initState startA 0 0) = Except.error (PyErr.portOutOfRange 99999) :=
    crawlLoop_html_error envC [] (("http").data, ("e.com").data)
      (initState startA 0 0) startA []
      { status := 200, contentType := ("text/html").data, body := ("X").data }
      (PyErr.portOutOfRange 99999) rfl (by decide) (by decide) (by decide) rfl
      (by decide) (by decide)
  have hcf : crawlFinal envC startA false =
      Except.error (PyErr.portOutOfRange 99999) := by
    have h0 : crawlFinal envC startA false =
        crawlLoop envC [] (("http").data, ("e.com").data) (initState startA 0 0) :=
      rfl
    rw [h0, hloop]
  refine ⟨by decide, rfl, ?_, by intro u; simp, by simp⟩
  unfold crawl
  rw [hcf]
  rfl

/-- C9, amended: a start URL that fails canonicalization, or that
misses a configured path-prefix filter, aborts the run synchronously
with the corresponding invalid-input error, and that outcome is
entirely oracle-independent (the same error is produced under every
fetcher, extractor and clock, with robots on or off — so no network
access or crawl state influences it).  The claim's further assertion
that this is the only escaping error class is false
(mid-crawl canonicalization errors also propagate). -/
theorem c9_precondition_errors (env env' : CrawlEnv) (u : PyStr) (rb rb' : Bool)
    (hpp : env'.pathPrefix = env.pathPrefix) :
    (normalize_url u u = .ok none →
      crawl env u rb = .error (.invalidStartUrl u) ∧
      crawl env' u rb' = .error (.invalidStartUrl u)) ∧
    (∀ e, normalize_url u u = .error e →
      crawl env u rb = .error e ∧ crawl env' u rb' = .error e) ∧
    (∀ start pp, normalize_url u u = .ok (some start) →
      env.pathPrefix = some pp → pp ≠ [] →
      matchesPathPrefix start (some pp) = .ok false →
      crawl env u rb = .error .startPrefixMismatch ∧
      crawl env' u rb' = .error .startPrefixMismatch) := by
  refine ⟨?_, ?_, ?_⟩
  · intro hn
    constructor
    · unfold crawl crawlFinal
      rw [hn]
      rfl
    · unfold crawl crawlFinal
      rw [hn]
      rfl
  · intro e hn
    constructor
    · unfold crawl crawlFinal
      rw [hn]
      rfl
    · unfold crawl crawlFinal
      rw [hn]
      rfl
  · intro start pp hn hpE hne hm
    constructor
    · unfold crawl crawlFinal
      rw [hn]
      simp only [Bind.bind, Except.bind]
      rw [hpE, if_neg (by simp [hne]), hm]
      rfl
    · unfold crawl crawlFinal
      rw [hn]
      simp only [Bind.bind, Except.bind]
      rw [hpp, hpE, if_neg (by simp [hne]), hm]
      rfl

/-- C9 witness: the non-http start URL `ftp://x/` aborts with
`invalidStartUrl` under two different transport oracles alike. -/
theorem c9_witness :
    crawl envA ("ftp://x/").data false =
      Except.error (.invalidStartUrl ("ftp://x/").data) ∧
    crawl envC ("ftp://x/").data true =
      Except.error (.invalidStartUrl ("ftp://x/").data) :=
  (c9_precondition_errors envA envC ("ftp://x/").data false true rfl).1 (by decide)

/-! ## Canonicalization equivalence and idempotence (C2, C3) -/


/-! String-splitting lemmas for the canonicalization analysis. -/

theorem splitFirst_append_first (sep : Char) :
    ∀ a b : PyStr, sep ∉ a → splitFirst sep (a ++ sep :: b) = some (a, b)
  | [], b, _ => by simp [splitFirst]
  | c :: a, b, h => by
    have hc : c ≠ sep := fun hc => h (hc ▸ List.mem_cons_self _ _)
    rw [List.cons_append, splitFirst, if_neg hc,
      splitFirst_append_first sep a b (fun hm => h (List.mem_cons_of_mem _ hm))]
    rfl

theorem splitFirst_none (sep : Char) :
    ∀ s : PyStr, sep ∉ s → splitFirst sep s = none
  | [], _ => rfl
  | c :: s, h => by
    have hc : c ≠ sep := fun hc => h (hc ▸ List.mem_cons_self _ _)
    simp [splitFirst, hc,
      splitFirst_none sep s (fun hm => h (List.mem_cons_of_mem _ hm))]

theorem splitFirst_eq_some (sep : Char) :
    ∀ s a b, splitFirst sep s = some (a, b) → s = a ++ sep :: b ∧ sep ∉ a
  | [], a, b, h => by simp [splitFirst] at h
  | c :: s, a, b, h => by
    by_cases hc : c = sep
    · rw [splitFirst, if_pos hc] at h
      injection h with h2
      rw [Prod.mk.injEq] at h2
      obtain ⟨h3, h4⟩ := h2
      subst h3
      subst h4
      exact ⟨by simp [hc], by simp⟩
    · rw [splitFirst, if_neg hc] at h
      cases hs : splitFirst sep s with
      | none => rw [hs] at h; simp at h
      | some p =>
        obtain ⟨p1, p2⟩ := p
        rw [hs] at h
        simp only [Option.map_some'] at h
        injection h with h2
        rw [Prod.mk.injEq] at h2
        obtain ⟨h3, h4⟩ := h2
        obtain ⟨hs1, hs2⟩ := splitFirst_eq_some sep s p1 p2 hs
        subst h4
        subst h3
        refine ⟨by rw [hs1]; rfl, ?_⟩
        intro hm
        rcases List.mem_cons.mp hm with hm | hm
        · exact hc hm.symm
        · exact hs2 hm

theorem splitFirst_isSome (sep : Char) :
    ∀ s : PyStr, sep ∈ s → ∃ a b, splitFirst sep s = some (a, b)
  | [], hm => by simp at hm
  | c :: s, hm => by
    by_cases hc : c = sep
    · exact ⟨[], s, by rw [splitFirst, if_pos hc]⟩
    · have hm2 : sep ∈ s := by
        rcases List.mem_cons.mp hm with h | h
        · exact absurd h.symm hc
        · exact h
      obtain ⟨a, b, hab⟩ := splitFirst_isSome sep s hm2
      exact ⟨c :: a, b, by rw [splitFirst, if_neg hc, hab]; rfl⟩

theorem takeWhile_append_stop (p : Char → Bool) :
    ∀ (a t : PyStr), (∀ x ∈ a, p x = true) →
      (∀ h, t.head? = some h → p h = false) →
      (a ++ t).takeWhile p = a ∧ (a ++ t).dropWhile p = t
  | [], t, _, ht => by
    cases t with
    | nil => simp
    | cons h tl =>
      have := ht h rfl
      simp [List.takeWhile_cons, List.dropWhile_cons, this]
  | c :: a, t, ha, ht => by
    have hc : p c = true := ha c (List.mem_cons_self _ _)
    have ih := takeWhile_append_stop p a t
      (fun x hx => ha x (List.mem_cons_of_mem _ hx)) ht
    simp [List.takeWhile_cons, List.dropWhile_cons, hc, ih.1, ih.2]

/-! Case-folding facts. -/

theorem toLower_eq_self_of_not_upper (c : Char)
    (h : ¬ (c.toNat ≥ 65 ∧ c.toNat ≤ 90)) : c.toLower = c := by
  simp only [Char.toLower]
  rw [if_neg h]


theorem toNat_ofNat_lt (n : Nat) (h : n < 55296) : (Char.ofNat n).toNat = n := by
  unfold Char.ofNat
  rw [dif_pos (Or.inl h)]
  unfold Char.ofNatAux
  show (UInt32.ofNatCore n _).toNat = n
  simp [UInt32.ofNatCore, UInt32.toNat]

/-- Full behaviour of `Char.toLower`: ASCII upper-case letters shift by
32, everything else is fixed. -/
theorem toLower_spec (c : Char) :
    (65 ≤ c.toNat ∧ c.toNat ≤ 90 ∧ c.toLower.toNat = c.toNat + 32) ∨
    (¬ (65 ≤ c.toNat ∧ c.toNat ≤ 90) ∧ c.toLower = c) := by
  by_cases h : c.toNat ≥ 65 ∧ c.toNat ≤ 90
  · left
    refine ⟨h.1, h.2, ?_⟩
    simp only [Char.toLower]
    rw [if_pos h]
    exact toNat_ofNat_lt _ (by omega)
  · right
    refine ⟨h, ?_⟩
    simp only [Char.toLower]
    rw [if_neg h]

theorem toLower_toLower (c : Char) : c.toLower.toLower = c.toLower := by
  rcases toLower_spec c with ⟨h1, h2, h3⟩ | ⟨h1, h2⟩
  · rcases toLower_spec c.toLower with ⟨g1, g2, g3⟩ | ⟨g1, g2⟩
    · omega
    · exact g2
  · rw [h2, h2]

theorem pyLower_idem (s : PyStr) : pyLower (pyLower s) = pyLower s := by
  simp only [pyLower, List.map_map]
  exact List.map_congr_left (fun c _ => toLower_toLower c)

/-- A character that is not a lower-case ASCII letter is in the image
of `toLower` only from itself. -/
theorem toLower_eq_special (c d : Char) (hd : ¬ (97 ≤ d.toNat ∧ d.toNat ≤ 122))
    (h : c.toLower = d) : c = d := by
  rcases toLower_spec c with ⟨h1, h2, h3⟩ | ⟨h1, h2⟩
  · rw [h] at h3
    omega
  · rw [← h, h2]

theorem not_mem_pyLower (d : Char) (hd : ¬ (97 ≤ d.toNat ∧ d.toNat ≤ 122)) (s : PyStr)
    (h : d ∉ s) : d ∉ pyLower s := by
  intro hm
  obtain ⟨c, hc, hcl⟩ := List.mem_map.mp hm
  exact h ((toLower_eq_special c d hd hcl) ▸ hc)

theorem uint32_le_toNat (a b : UInt32) : (a ≤ b) ↔ a.toNat ≤ b.toNat := Iff.rfl

theorem isSchemeChar_toLower (c : Char) (h : isSchemeChar c = true) :
    isSchemeChar c.toLower = true := by
  rcases toLower_spec c with ⟨h1, h2, h3⟩ | ⟨h1, h2⟩
  · simp only [Char.toNat] at h1 h2 h3
    simp only [isSchemeChar, Char.isUpper, Char.isLower, Char.isDigit,
      Bool.or_eq_true, Bool.and_eq_true, decide_eq_true_eq, ge_iff_le,
      uint32_le_toNat, UInt32.toNat_ofNat, UInt32.size, Nat.reducePow,
      Nat.reduceMod] at h ⊢
    left
    right
    left
    constructor <;> omega
  · rw [h2]
    exact h

theorem schemeHeadOk_pyLower (s : PyStr) (h : schemeHeadOk s = true) :
    schemeHeadOk (pyLower s) = true := by
  cases s with
  | nil => simp [schemeHeadOk] at h
  | cons c rest =>
    simp only [pyLower, List.map_cons, schemeHeadOk, Bool.and_eq_true,
      decide_eq_true_eq, Bool.or_eq_true, Char.isUpper, Char.isLower,
      uint32_le_toNat, UInt32.toNat_ofNat, ge_iff_le, UInt32.size,
      Nat.reducePow, Nat.reduceMod] at h ⊢
    rcases toLower_spec c with ⟨g1, g2, g3⟩ | ⟨g1, g2⟩
    · simp only [Char.toNat] at g1 g2 g3
      refine ⟨by omega, ?_⟩
      right
      constructor <;> omega
    · rw [g2]
      exact h


/-! Membership and cleanliness facts about `urlsplit` components. -/

theorem mem_cleanUrl_unsafe (u : PyStr) (c : Char) (h : c ∈ cleanUrl u) :
    isUnsafeUrlByte c = false := by
  simp only [cleanUrl, List.mem_filter, decide_eq_true_eq] at h
  simpa using h.2

theorem splitFirst_parts_subset (sep : Char) (s a b : PyStr)
    (h : splitFirst sep s = some (a, b)) : (∀ c ∈ a, c ∈ s) ∧ ∀ c ∈ b, c ∈ s := by
  obtain ⟨hs, -⟩ := splitFirst_eq_some sep s a b h
  subst hs
  constructor
  · intro c hc
    exact List.mem_append_left _ hc
  · intro c hc
    exact List.mem_append_right _ (List.mem_cons_of_mem _ hc)

theorem takeWhile_subset_mem (p : Char → Bool) (s : PyStr) :
    ∀ c ∈ s.takeWhile p, c ∈ s :=
  fun c hc => (List.takeWhile_sublist p).subset hc

theorem dropWhile_subset_mem (p : Char → Bool) (s : PyStr) :
    ∀ c ∈ s.dropWhile p, c ∈ s :=
  fun c hc => (List.dropWhile_sublist p).subset hc

theorem drop_subset_mem (n : Nat) (s : PyStr) : ∀ c ∈ s.drop n, c ∈ s :=
  fun c hc => (List.drop_subset n s) hc

theorem cleanScheme_fixed (s : PyStr) (h : s.all isSchemeChar = true) :
    cleanScheme s = s := by
  have hnc : ∀ c ∈ s, isC0OrSpace c = false := by
    intro c hc
    have := List.all_eq_true.mp h c hc
    simp only [isSchemeChar, Bool.or_eq_true, decide_eq_true_eq, Char.isUpper,
      Char.isLower, Char.isDigit, Bool.and_eq_true, decide_eq_true_eq,
      ge_iff_le, uint32_le_toNat, UInt32.toNat_ofNat, UInt32.size,
      Nat.reducePow, Nat.reduceMod] at this
    simp only [isC0OrSpace, decide_eq_false_iff_not, uint32_le_toNat,
      UInt32.toNat_ofNat, UInt32.size, Nat.reducePow, Nat.reduceMod]
    rcases this with (⟨h2, h3⟩ | ⟨h2, h3⟩ | ⟨h2, h3⟩) | h2 | h2 | h2
    · omega
    · omega
    · omega
    all_goals (subst h2; decide)
  have hnu : ∀ c ∈ s, isUnsafeUrlByte c = false := by
    intro c hc
    have h0 := hnc c hc
    simp only [isC0OrSpace, decide_eq_false_iff_not, not_le] at h0
    simp only [isUnsafeUrlByte, decide_eq_false_iff_not]
    rintro (h1 | h1 | h1) <;> (subst h1; revert h0; decide)
  unfold cleanScheme
  rw [List.dropWhile_eq_self_iff.mpr (fun hl => by
    have hm := List.get_mem ((s.dropWhile isC0OrSpace).reverse) 0 hl
    have hm2 := dropWhile_subset_mem isC0OrSpace s _ (List.mem_reverse.mp hm)
    simpa using hnc _ hm2)]
  rw [List.dropWhile_eq_self_iff.mpr (fun hl => by
    simpa using hnc _ (List.get_mem s 0 hl))]
  rw [List.reverse_reverse]
  exact List.filter_eq_self.mpr (by intro c hc; simpa using hnu c hc)


theorem partBefore_append (c : Char) (a b : PyStr) (h : c ∉ a) :
    partBefore c (a ++ c :: b) = a ∧ partAfter c (a ++ c :: b) = b := by
  unfold partBefore partAfter
  rw [splitFirst_append_first c a b h]
  exact ⟨rfl, rfl⟩

theorem partBefore_of_not_mem (c : Char) (s : PyStr) (h : c ∉ s) :
    partBefore c s = s ∧ partAfter c s = [] := by
  unfold partBefore partAfter
  rw [splitFirst_none c s h]
  exact ⟨rfl, rfl⟩

theorem match_split_eq_parts (c : Char) (s : PyStr) :
    (match splitFirst c s with
     | some p => p
     | none => (s, [])) = (partBefore c s, partAfter c s) := by
  unfold partBefore partAfter
  cases splitFirst c s with
  | none => rfl
  | some p => rfl

theorem isSchemeChar_classify (c : Char) (h : isSchemeChar c = true) :
    isC0OrSpace c = false ∧ isUnsafeUrlByte c = false ∧ c ≠ ':' ∧ c ≠ '/' ∧
    c ≠ '?' ∧ c ≠ '#' := by
  have hb : (48 ≤ c.val.toNat ∧ c.val.toNat ≤ 57) ∨
      (65 ≤ c.val.toNat ∧ c.val.toNat ≤ 90) ∨
      (97 ≤ c.val.toNat ∧ c.val.toNat ≤ 122) ∨
      c.val.toNat = 43 ∨ c.val.toNat = 45 ∨ c.val.toNat = 46 := by
    simp only [isSchemeChar, Bool.or_eq_true, decide_eq_true_eq, Char.isUpper,
      Char.isLower, Char.isDigit, Bool.and_eq_true, ge_iff_le, uint32_le_toNat,
      UInt32.toNat_ofNat, UInt32.size, Nat.reducePow, Nat.reduceMod] at h
    rcases h with (⟨h1, h2⟩ | ⟨h1, h2⟩ | ⟨h1, h2⟩) | h1 | h1 | h1
    · exact Or.inr (Or.inl ⟨h1, h2⟩)
    · exact Or.inr (Or.inr (Or.inl ⟨h1, h2⟩))
    · exact Or.inl ⟨h1, h2⟩
    all_goals (subst h1; decide)
  refine ⟨?_, ?_, ?_, ?_, ?_, ?_⟩
  · simp only [isC0OrSpace, decide_eq_false_iff_not, uint32_le_toNat,
      UInt32.toNat_ofNat, UInt32.size, Nat.reducePow, Nat.reduceMod]
    omega
  · simp only [isUnsafeUrlByte, decide_eq_false_iff_not, not_or]
    refine ⟨?_, ?_, ?_⟩ <;> (intro he; rw [he] at hb; exact absurd hb (by decide))
  all_goals (intro he; rw [he] at hb; exact absurd hb (by decide))


theorem schemeSplit_valid (scheme R d : PyStr) (h1 : scheme ≠ [])
    (h2 : schemeHeadOk scheme = true) (h3 : scheme.all isSchemeChar = true) :
    schemeSplit (scheme ++ ':' :: R) d = (pyLower scheme, R) := by
  have hcol : ':' ∉ scheme := by
    intro hm
    exact absurd (List.all_eq_true.mp h3 _ hm)
      (by have := (isSchemeChar_classify ':').mt; simp [isSchemeChar])
  unfold schemeSplit
  rw [splitFirst_append_first ':' scheme R hcol]
  dsimp only
  rw [if_pos ⟨h1, h2, h3⟩]

theorem schemeSplit_slash (R d : PyStr) (h : R.head? = some '/') :
    schemeSplit R d = (d, R) := by
  unfold schemeSplit
  cases hsp : splitFirst ':' R with
  | none => rfl
  | some pp =>
    obtain ⟨pre, post⟩ := pp
    obtain ⟨hR, hnm⟩ := splitFirst_eq_some ':' R pre post hsp
    dsimp only
    cases pre with
    | nil => rw [if_neg (by simp)]
    | cons c t =>
      have hc : c = '/' := by
        rw [hR] at h
        injection h
      rw [if_neg]
      intro hcond
      have := List.all_eq_true.mp hcond.2.2 c (List.mem_cons_self _ _)
      rw [hc] at this
      exact absurd this (by decide)

theorem splitNetlocTail_shape (scheme n T : PyStr)
    (hn : ∀ c ∈ n, isNetlocEnd c = false) (hbr : bracketsOk n)
    (hT : T = [] ∨ ∃ h t, T = h :: t ∧ isNetlocEnd h = true) :
    splitNetlocTail scheme ('/' :: '/' :: (n ++ T)) =
      .ok ⟨scheme, n,
        partBefore '?' (partBefore '#' T), partAfter '?' (partBefore '#' T),
        partAfter '#' T⟩ := by
  have hsplit := takeWhile_append_stop (fun c => ¬ isNetlocEnd c) n T
    (fun x hx => by simp [hn x hx])
    (by
      intro h hh
      rcases hT with hT | ⟨h2, t2, hT2, he⟩
      · rw [hT] at hh; cases hh
      · rw [hT2] at hh
        injection hh with hh
        subst hh
        simp [he])
  unfold splitNetlocTail
  simp only [List.take_succ_cons, List.take_zero, List.drop_succ_cons,
    List.drop_zero, if_pos rfl, hsplit.1, hsplit.2, if_true]
  rw [if_neg hbr.1, if_neg (fun hc => hc.2.2 (hbr.2 ⟨hc.1, hc.2.1⟩))]
  rw [match_split_eq_parts, match_split_eq_parts]

theorem splitNetlocTail_noslash (scheme rest : PyStr)
    (h : ¬ rest.take 2 = ['/', '/']) :
    splitNetlocTail scheme rest =
      .ok ⟨scheme, [],
        partBefore '?' (partBefore '#' rest), partAfter '?' (partBefore '#' rest),
        partAfter '#' rest⟩ := by
  unfold splitNetlocTail
  rw [if_neg h]
  dsimp only
  rw [if_neg (by simp), if_neg (by simp)]
  rw [match_split_eq_parts, match_split_eq_parts]


theorem not_mem_of_splitFirst_none (sep : Char) (s : PyStr)
    (h : splitFirst sep s = none) : sep ∉ s := by
  intro hm
  obtain ⟨a, b, h2⟩ := splitFirst_isSome sep s hm
  rw [h2] at h
  cases h

theorem cleanUrl_fixed : ∀ (s : PyStr),
    (∀ c, s.head? = some c → isC0OrSpace c = false) →
    (∀ c ∈ s, isUnsafeUrlByte c = false) → cleanUrl s = s
  | [], _, _ => rfl
  | c :: t, h1, h2 => by
    unfold cleanUrl
    rw [List.dropWhile_cons, if_neg (by simp [h1 c rfl])]
    exact List.filter_eq_self.mpr (by intro x hx; simpa using h2 x hx)

theorem dropWhile_head_cases (p : Char → Bool) :
    ∀ l : PyStr, l.dropWhile p = [] ∨
      ∃ h t, l.dropWhile p = h :: t ∧ p h = false
  | [] => Or.inl rfl
  | c :: l => by
    rw [List.dropWhile_cons]
    by_cases hc : p c = true
    · rw [if_pos hc]
      exact dropWhile_head_cases p l
    · rw [if_neg hc]
      exact Or.inr ⟨c, l, rfl, by simpa using hc⟩

theorem head_append_of_ne_nil {a : PyStr} (b : PyStr) (h : a ≠ []) :
    (a ++ b).head? = a.head? := by
  cases a with
  | nil => exact absurd rfl h
  | cons c t => rfl

theorem isNetlocEnd_cases (c : Char) (h : isNetlocEnd c = true) :
    c = '/' ∨ c = '?' ∨ c = '#' := by
  simpa [isNetlocEnd] using h


theorem mem_of_head_some {l : PyStr} {a : Char} (h : l.head? = some a) : a ∈ l := by
  cases l with
  | nil => cases h
  | cons x t =>
    injection h with h
    exact h ▸ List.mem_cons_self _ _

theorem partBefore_subset (sep : Char) (s : PyStr) :
    ∀ c ∈ partBefore sep s, c ∈ s := by
  unfold partBefore
  cases hs : splitFirst sep s with
  | none => exact fun c hc => hc
  | some p =>
    obtain ⟨a, b⟩ := p
    obtain ⟨h1, -⟩ := splitFirst_eq_some sep s a b hs
    intro c hc
    rw [h1]
    exact List.mem_append_left _ hc

theorem partAfter_subset (sep : Char) (s : PyStr) :
    ∀ c ∈ partAfter sep s, c ∈ s := by
  unfold partAfter
  cases hs : splitFirst sep s with
  | none => intro c hc; cases hc
  | some p =>
    obtain ⟨a, b⟩ := p
    obtain ⟨h1, -⟩ := splitFirst_eq_some sep s a b hs
    intro c hc
    rw [h1]
    exact List.mem_append_right _ (List.mem_cons_of_mem _ hc)

theorem not_mem_partBefore_self (sep : Char) (s : PyStr) (h : sep ∉ s ∨ True) :
    sep ∉ partBefore sep s := by
  unfold partBefore
  cases hs : splitFirst sep s with
  | none => exact not_mem_of_splitFirst_none sep s hs
  | some p =>
    obtain ⟨a, b⟩ := p
    exact (splitFirst_eq_some sep s a b hs).2

theorem partBefore_head (sep : Char) (s : PyStr) (h : partBefore sep s ≠ []) :
    s.head? = (partBefore sep s).head? := by
  unfold partBefore at h ⊢
  cases hs : splitFirst sep s with
  | none => rfl
  | some p =>
    obtain ⟨a, b⟩ := p
    rw [hs] at h
    obtain ⟨h1, -⟩ := splitFirst_eq_some sep s a b hs
    rw [h1]
    exact head_append_of_ne_nil _ h

theorem splitNetlocTail_ok_inv (scheme rest : PyStr) (s : SplitResult)
    (h : splitNetlocTail scheme rest = .ok s) :
    s.scheme = scheme ∧
    (∀ c ∈ s.netloc, isNetlocEnd c = false) ∧ bracketsOk s.netloc ∧
    '#' ∉ s.path ∧ '?' ∉ s.path ∧ '#' ∉ s.query ∧
    (∀ c ∈ s.netloc, c ∈ rest) ∧ (∀ c ∈ s.path, c ∈ rest) ∧
    (∀ c ∈ s.query, c ∈ rest) ∧
    (s.netloc ≠ [] → s.path = [] ∨ s.path.head? = some '/') := by
  unfold splitNetlocTail at h
  by_cases htk : rest.take 2 = ['/', '/']
  · rw [if_pos htk] at h
    dsimp only at h
    set n := (rest.drop 2).takeWhile (fun c => ¬ isNetlocEnd c) with hn
    set T := (rest.drop 2).dropWhile (fun c => ¬ isNetlocEnd c) with hT
    split at h
    · cases h
    · split at h
      · cases h
      · rename_i hbr1 hbr2
        rw [match_split_eq_parts, match_split_eq_parts] at h
        injection h with h
        subst h
        dsimp only
        refine ⟨rfl, ?_, ⟨hbr1, fun hb => by
          by_cases hc : checkBracketedHost (partBefore ']' (partAfter '[' n)) = true
          · exact hc
          · exact absurd ⟨hb.1, hb.2, by simpa using hc⟩ hbr2⟩,
          ?_, ?_, ?_, ?_, ?_, ?_, ?_⟩
        · intro c hc
          have := List.mem_takeWhile_imp hc
          simpa using this
        · intro hm
          exact not_mem_partBefore_self '#' T (Or.inr trivial)
            (partBefore_subset '?' _ _ hm)
        · exact not_mem_partBefore_self '?' _ (Or.inr trivial)
        · intro hm
          exact not_mem_partBefore_self '#' T (Or.inr trivial)
            (partAfter_subset '?' _ _ hm)
        · intro c hc
          exact drop_subset_mem 2 rest _ (takeWhile_subset_mem _ _ _ hc)
        · intro c hc
          exact drop_subset_mem 2 rest _ (dropWhile_subset_mem _ _ _
            (partBefore_subset '#' T _ (partBefore_subset '?' _ _ hc)))
        · intro c hc
          exact drop_subset_mem 2 rest _ (dropWhile_subset_mem _ _ _
            (partBefore_subset '#' T _ (partAfter_subset '?' _ _ hc)))
        · intro hnl
          by_cases hp : partBefore '?' (partBefore '#' T) = []
          · exact Or.inl hp
          · right
            have h1 := partBefore_head '?' (partBefore '#' T) hp
            have hp2 : partBefore '#' T ≠ [] := by
              intro he
              rw [he] at hp
              exact hp rfl
            have h2 := partBefore_head '#' T hp2
            rcases dropWhile_head_cases (fun c => ¬ isNetlocEnd c) (rest.drop 2) with
              hcase | ⟨hd, tl, hcase, hpred⟩
            · rw [← hT] at hcase
              rw [hcase] at hp2
              simp [partBefore, splitFirst] at hp2
            · rw [← hT] at hcase
              have hend : isNetlocEnd hd = true := by simpa using hpred
              have hhd : (partBefore '?' (partBefore '#' T)).head? = some hd := by
                rw [← h1, ← h2, hcase]
                rfl
              rcases isNetlocEnd_cases hd hend with he | he | he
              · rw [he] at hhd
                exact hhd
              · exfalso
                subst he
                exact (not_mem_partBefore_self '?' (partBefore '#' T)
                  (Or.inr trivial)) (mem_of_head_some hhd)
              · exfalso
                subst he
                exact (not_mem_partBefore_self '#' T (Or.inr trivial))
                  (partBefore_subset '?' _ _ (mem_of_head_some hhd))
  · rw [if_neg htk] at h
    dsimp only at h
    rw [if_neg (by simp), if_neg (by simp)] at h
    rw [match_split_eq_parts, match_split_eq_parts] at h
    injection h with h
    subst h
    dsimp only
    refine ⟨rfl, by simp, ⟨by simp, by simp⟩, ?_, ?_, ?_, by simp, ?_, ?_, by simp⟩
    · intro hm
      exact not_mem_partBefore_self '#' rest (Or.inr trivial)
        (partBefore_subset '?' _ _ hm)
    · exact not_mem_partBefore_self '?' _ (Or.inr trivial)
    · intro hm
      exact not_mem_partBefore_self '#' rest (Or.inr trivial)
        (partAfter_subset '?' _ _ hm)
    · intro c hc
      exact partBefore_subset '#' rest _ (partBefore_subset '?' _ _ hc)
    · intro c hc
      exact partBefore_subset '#' rest _ (partAfter_subset '?' _ _ hc)


theorem pyLower_all_scheme (s : PyStr) (h : s.all isSchemeChar = true) :
    (pyLower s).all isSchemeChar = true := by
  rw [List.all_eq_true] at h ⊢
  intro c hc
  obtain ⟨c0, hc0, hcl⟩ := List.mem_map.mp hc
  exact hcl ▸ isSchemeChar_toLower c0 (h c0 hc0)

theorem schemeSplit_inv (u d : PyStr) (sch rest : PyStr)
    (hd1 : d.all isSchemeChar = true) (hd2 : pyLower d = d)
    (hd3 : d = [] ∨ schemeHeadOk d = true)
    (h : schemeSplit u d = (sch, rest)) :
    sch.all isSchemeChar = true ∧ pyLower sch = sch ∧
    (sch = [] ∨ schemeHeadOk sch = true) ∧ ∀ c ∈ rest, c ∈ u := by
  unfold schemeSplit at h
  cases hsp : splitFirst ':' u with
  | none =>
    rw [hsp] at h
    rw [Prod.mk.injEq] at h
    obtain ⟨h1, h2⟩ := h
    subst h1
    subst h2
    exact ⟨hd1, hd2, hd3, fun c hc => hc⟩
  | some pp =>
    obtain ⟨pre, post⟩ := pp
    rw [hsp] at h
    dsimp only at h
    by_cases hv : pre ≠ [] ∧ schemeHeadOk pre = true ∧ pre.all isSchemeChar = true
    · rw [if_pos hv] at h
      rw [Prod.mk.injEq] at h
      obtain ⟨h1, h2⟩ := h
      subst h1
      subst h2
      refine ⟨pyLower_all_scheme pre hv.2.2, pyLower_idem pre,
        Or.inr (schemeHeadOk_pyLower pre hv.2.1), ?_⟩
      exact (splitFirst_parts_subset ':' u pre post hsp).2
    · rw [if_neg hv] at h
      rw [Prod.mk.injEq] at h
      obtain ⟨h1, h2⟩ := h
      subst h1
      subst h2
      exact ⟨hd1, hd2, hd3, fun c hc => hc⟩

theorem splitInv_of_ok (url dflt : PyStr) (s : SplitResult)
    (hd1 : dflt.all isSchemeChar = true) (hd2 : pyLower dflt = dflt)
    (hd3 : dflt = [] ∨ schemeHeadOk dflt = true)
    (h : pyUrlsplitD url dflt = .ok s) : SplitInv s := by
  unfold pyUrlsplitD at h
  rw [cleanScheme_fixed dflt hd1] at h
  dsimp only at h
  rcases hsr : schemeSplit (cleanUrl url) dflt with ⟨sch, rest⟩
  rw [hsr] at h
  dsimp only at h
  obtain ⟨g1, g2, g3, gsub⟩ :=
    schemeSplit_inv (cleanUrl url) dflt sch rest hd1 hd2 hd3 hsr
  obtain ⟨t1, t2, t3, t4, t5, t6, t7, t8, t9, t10⟩ :=
    splitNetlocTail_ok_inv sch rest s h
  exact
    { scheme_lower := by rw [t1]; exact g2
      scheme_chars := by rw [t1]; exact g1
      scheme_head := by rw [t1]; exact g3
      netloc_clean := t2
      netloc_br := t3
      path_hash := t4
      path_q := t5
      query_hash := t6
      netloc_unsafe := fun c hc => mem_cleanUrl_unsafe url c (gsub c (t7 c hc))
      path_unsafe := fun c hc => mem_cleanUrl_unsafe url c (gsub c (t8 c hc))
      query_unsafe := fun c hc => mem_cleanUrl_unsafe url c (gsub c (t9 c hc))
      path_slash := t10 }


/-- The textual shape of `urlunsplit` on a netloc-carrying, fragmentless
split result whose path is empty or absolute. -/
theorem unsplit_netlocful (s : SplitResult) (hinv : SplitInv s) (hnl : s.netloc ≠ []) :
    pyUrlunsplit s.scheme s.netloc s.path s.query [] =
      (if s.scheme ≠ [] then s.scheme ++ ':' ::
        ('/' :: '/' :: (s.netloc ++
          (s.path ++ (if s.query ≠ [] then '?' :: s.query else []))))
       else '/' :: '/' :: (s.netloc ++
          (s.path ++ (if s.query ≠ [] then '?' :: s.query else [])))) := by
  unfold pyUrlunsplit
  dsimp only
  have hpath : ¬ (s.path ≠ [] ∧ ¬ s.path.head? = some '/') := by
    rintro ⟨hp1, hp2⟩
    rcases hinv.path_slash hnl with h | h
    · exact hp1 h
    · exact hp2 h
  rw [if_pos (Or.inl hnl), if_neg hpath, if_neg (by simp)]
  by_cases hq : s.query ≠ []
  · rw [if_pos hq]
    by_cases hs : s.scheme ≠ []
    · rw [if_pos hs, if_pos hs, if_pos hq]
      simp [List.append_assoc]
    · rw [if_neg hs, if_neg hs, if_pos hq]
      simp [List.append_assoc]
  · rw [if_neg hq]
    by_cases hs : s.scheme ≠ []
    · rw [if_pos hs, if_pos hs, if_neg hq]
      simp [List.append_assoc]
    · rw [if_neg hs, if_neg hs, if_neg hq]
      simp [List.append_assoc]

/-- Re-splitting the unsplit of a netloc-carrying fragmentless split
result recovers it exactly. -/
theorem urlsplit_unsplit_roundtrip (s : SplitResult) (hinv : SplitInv s)
    (hnl : s.netloc ≠ []) :
    pyUrlsplitD (pyUrlunsplit s.scheme s.netloc s.path s.query []) [] =
      .ok ⟨s.scheme, s.netloc, s.path, s.query, []⟩ := by
  have hT : ∀ c ∈ s.path ++ (if s.query ≠ [] then '?' :: s.query else []),
      isUnsafeUrlByte c = false ∧ c ≠ '#' := by
    intro c hc
    rcases List.mem_append.mp hc with hc | hc
    · exact ⟨hinv.path_unsafe c hc, fun he => hinv.path_hash (he ▸ hc)⟩
    · by_cases hq : s.query ≠ []
      · rw [if_pos hq] at hc
        rcases List.mem_cons.mp hc with hc | hc
        · subst hc
          exact ⟨by decide, by decide⟩
        · exact ⟨hinv.query_unsafe c hc, fun he => hinv.query_hash (he ▸ hc)⟩
      · rw [if_neg hq] at hc
        cases hc
  have hTshape : (s.path ++ (if s.query ≠ [] then '?' :: s.query else [])) = [] ∨
      ∃ h t, (s.path ++ (if s.query ≠ [] then '?' :: s.query else [])) = h :: t ∧
        isNetlocEnd h = true := by
    cases hp : s.path with
    | nil =>
      by_cases hq : s.query ≠ []
      · rw [if_pos hq]
        exact Or.inr ⟨'?', s.query, rfl, by decide⟩
      · rw [if_neg hq]
        exact Or.inl rfl
    | cons c t =>
      have hc : c = '/' := by
        rcases hinv.path_slash hnl with h | h
        · rw [hp] at h; cases h
        · rw [hp] at h; injection h
      subst hc
      exact Or.inr ⟨'/', _, rfl, by decide⟩
  have hTsplit : partBefore '#'
        (s.path ++ (if s.query ≠ [] then '?' :: s.query else [])) =
        (s.path ++ (if s.query ≠ [] then '?' :: s.query else [])) ∧
      partAfter '#'
        (s.path ++ (if s.query ≠ [] then '?' :: s.query else [])) = [] :=
    partBefore_of_not_mem '#' _ (fun hm => (hT '#' hm).2 rfl)
  have hQsplit : partBefore '?'
        (s.path ++ (if s.query ≠ [] then '?' :: s.query else [])) = s.path ∧
      partAfter '?'
        (s.path ++ (if s.query ≠ [] then '?' :: s.query else [])) = s.query := by
    by_cases hq : s.query ≠ []
    · rw [if_pos hq]
      exact partBefore_append '?' s.path s.query hinv.path_q
    · rw [if_neg hq]
      rw [List.append_nil]
      have := partBefore_of_not_mem '?' s.path hinv.path_q
      rw [not_ne_iff] at hq
      rw [hq]
      exact this
  have htail := splitNetlocTail_shape s.scheme s.netloc
    (s.path ++ (if s.query ≠ [] then '?' :: s.query else []))
    hinv.netloc_clean hinv.netloc_br hTshape
  rw [hTsplit.1, hTsplit.2, hQsplit.1, hQsplit.2] at htail
  rw [unsplit_netlocful s hinv hnl]
  by_cases hs : s.scheme ≠ []
  · rw [if_pos hs]
    have hhead : schemeHeadOk s.scheme = true := by
      rcases hinv.scheme_head with h | h
      · exact absurd h hs
      · exact h
    have hclean1 : ∀ c, (s.scheme ++ ':' :: '/' :: '/' ::
        (s.netloc ++ (s.path ++ (if s.query ≠ [] then '?' :: s.query else [])))).head? =
        some c → isC0OrSpace c = false := by
      intro c hc
      cases hsc : s.scheme with
      | nil => exact absurd hsc hs
      | cons c0 t0 =>
        rw [hsc, List.cons_append] at hc
        injection hc with hc
        subst hc
        have hc0 : isSchemeChar c0 = true := by
          have := hinv.scheme_chars
          rw [hsc] at this
          exact List.all_eq_true.mp this c0 (List.mem_cons_self _ _)
        exact (isSchemeChar_classify c0 hc0).1
    have hclean2 : ∀ c ∈ (s.scheme ++ ':' :: '/' :: '/' ::
        (s.netloc ++ (s.path ++ (if s.query ≠ [] then '?' :: s.query else [])))),
        isUnsafeUrlByte c = false := by
      intro c hc
      rcases List.mem_append.mp hc with hc | hc
      · exact (isSchemeChar_classify c
          (List.all_eq_true.mp hinv.scheme_chars c hc)).2.1
      · rcases List.mem_cons.mp hc with hc | hc
        · subst hc; decide
        · rcases List.mem_cons.mp hc with hc | hc
          · subst hc; decide
          · rcases List.mem_cons.mp hc with hc | hc
            · subst hc; decide
            · rcases List.mem_append.mp hc with hc | hc
              · exact hinv.netloc_unsafe c hc
              · exact (hT c hc).1
    unfold pyUrlsplitD
    dsimp only
    rw [cleanUrl_fixed _ hclean1 hclean2,
      show cleanScheme ([] : PyStr) = ([] : PyStr) from rfl,
      schemeSplit_valid s.scheme _ [] hs hhead hinv.scheme_chars,
      hinv.scheme_lower]
    dsimp only
    exact htail
  · rw [if_neg hs]
    rw [not_ne_iff] at hs
    have hclean2 : ∀ c ∈ ('/' :: '/' ::
        (s.netloc ++ (s.path ++ (if s.query ≠ [] then '?' :: s.query else [])))),
        isUnsafeUrlByte c = false := by
      intro c hc
      rcases List.mem_cons.mp hc with hc | hc
      · subst hc; decide
      · rcases List.mem_cons.mp hc with hc | hc
        · subst hc; decide
        · rcases List.mem_append.mp hc with hc | hc
          · exact hinv.netloc_unsafe c hc
          · exact (hT c hc).1
    unfold pyUrlsplitD
    dsimp only
    rw [cleanUrl_fixed _ (by intro c hc; injection hc with hc; subst hc; decide)
        hclean2,
      show cleanScheme ([] : PyStr) = ([] : PyStr) from rfl,
      schemeSplit_slash ('/' :: '/' ::
        (s.netloc ++ (s.path ++ (if s.query ≠ [] then '?' :: s.query else []))))
        [] rfl]
    dsimp only
    rw [hs] at htail ⊢
    exact htail


theorem splitFirst_append_right (sep : Char) :
    ∀ (a b : PyStr), sep ∉ a → splitFirst sep (a ++ b) =
      (splitFirst sep b).map (fun p => (a ++ p.1, p.2))
  | [], b, _ => by
    simp only [List.nil_append]
    cases splitFirst sep b with
    | none => rfl
    | some p => rfl
  | c :: a, b, h => by
    have hc : c ≠ sep := fun hc => h (hc ▸ List.mem_cons_self _ _)
    rw [List.cons_append, splitFirst, if_neg hc,
      splitFirst_append_right sep a b (fun hm => h (List.mem_cons_of_mem _ hm))]
    cases splitFirst sep b with
    | none => rfl
    | some p => rfl

theorem takeWhile_append_break (p : Char → Bool) (c : Char) (t : PyStr)
    (hc : p c = false) :
    ∀ a : PyStr, (a ++ c :: t).takeWhile p = a.takeWhile p ∧
      (a ++ c :: t).dropWhile p = a.dropWhile p ++ c :: t
  | [] => by simp [List.takeWhile_cons, List.dropWhile_cons, hc]
  | x :: a => by
    by_cases hx : p x = true
    · simp [List.takeWhile_cons, List.dropWhile_cons, hx,
        takeWhile_append_break p c t hc a]
    · simp [List.takeWhile_cons, List.dropWhile_cons, hx]

theorem schemeSplit_append_frag (W f d : PyStr) (hW : '#' ∉ W) :
    schemeSplit (W ++ '#' :: f) d =
      ((schemeSplit W d).1, (schemeSplit W d).2 ++ '#' :: f) := by
  unfold schemeSplit
  cases hsp : splitFirst ':' W with
  | none =>
    have hWn : ':' ∉ W := not_mem_of_splitFirst_none ':' W hsp
    rw [splitFirst_append_right ':' W ('#' :: f) hWn]
    cases hf : splitFirst ':' ('#' :: f) with
    | none => rfl
    | some p =>
      obtain ⟨a, b⟩ := p
      simp only [Option.map_some']
      rw [if_neg (by
        rintro ⟨h1, h2, h3⟩
        rw [splitFirst, if_neg (by decide)] at hf
        cases ha : splitFirst ':' f with
        | none => rw [ha] at hf; cases hf
        | some pp =>
          rw [ha] at hf
          simp only [Option.map_some'] at hf
          injection hf with hf
          rw [Prod.mk.injEq] at hf
          have hmem : '#' ∈ W ++ '#' :: pp.1 :=
            List.mem_append_right _ (List.mem_cons_self _ _)
          rw [hf.1] at hmem
          have := List.all_eq_true.mp h3 '#' hmem
          exact absurd this (by decide))]
  | some pp =>
    obtain ⟨pre, post⟩ := pp
    obtain ⟨hW2, hpre⟩ := splitFirst_eq_some ':' W pre post hsp
    rw [hW2, List.append_assoc, List.cons_append,
      splitFirst_append_first ':' pre (post ++ '#' :: f) hpre]
    dsimp only
    by_cases hv : pre ≠ [] ∧ schemeHeadOk pre = true ∧ pre.all isSchemeChar = true
    · rw [if_pos hv, if_pos hv]
    · rw [if_neg hv, if_neg hv]
      rw [← List.cons_append, ← List.append_assoc, ← hW2]

/-- `splitNetlocTail` on a `//`-headed rest, without assuming the
bracket checks pass. -/
theorem splitNetlocTail_shape_gen (scheme n T : PyStr)
    (hn : ∀ c ∈ n, isNetlocEnd c = false)
    (hT : T = [] ∨ ∃ h t, T = h :: t ∧ isNetlocEnd h = true) :
    splitNetlocTail scheme ('/' :: '/' :: (n ++ T)) =
      (if ('[' ∈ n ∧ ']' ∉ n) ∨ (']' ∈ n ∧ '[' ∉ n) then .error .invalidIPv6
       else if '[' ∈ n ∧ ']' ∈ n ∧
           ¬ checkBracketedHost (partBefore ']' (partAfter '[' n)) then
         .error (.invalidBracketedHost (partBefore ']' (partAfter '[' n)))
       else .ok ⟨scheme, n,
         partBefore '?' (partBefore '#' T), partAfter '?' (partBefore '#' T),
         partAfter '#' T⟩) := by
  have hsplit := takeWhile_append_stop (fun c => ¬ isNetlocEnd c) n T
    (fun x hx => by simp [hn x hx])
    (by
      intro h hh
      rcases hT with hT | ⟨h2, t2, hT2, he⟩
      · rw [hT] at hh; cases hh
      · rw [hT2] at hh
        injection hh with hh
        subst hh
        simp [he])
  unfold splitNetlocTail
  simp only [List.take_succ_cons, List.take_zero, List.drop_succ_cons,
    List.drop_zero, if_pos rfl, hsplit.1, hsplit.2, if_true]
  rw [match_split_eq_parts, match_split_eq_parts]

theorem splitNetlocTail_append_frag (sch rest f : PyStr) (h : '#' ∉ rest) :
    splitNetlocTail sch (rest ++ '#' :: f) =
      (splitNetlocTail sch rest).map (fun s => { s with fragment := f }) := by
  by_cases htk : rest.take 2 = ['/', '/']
  · obtain ⟨c1, rest1, hr1⟩ : ∃ c1 rest1, rest = c1 :: rest1 := by
      cases rest with
      | nil => cases htk
      | cons a b => exact ⟨a, b, rfl⟩
    obtain ⟨c2, rest2, hr2⟩ : ∃ c2 rest2, rest1 = c2 :: rest2 := by
      cases rest1 with
      | nil => rw [hr1] at htk; cases htk
      | cons a b => exact ⟨a, b, rfl⟩
    have hc1 : c1 = '/' := by
      rw [hr1, hr2] at htk
      injection htk with h1 h2
    have hc2 : c2 = '/' := by
      rw [hr1, hr2] at htk
      injection htk with h1 h2
      injection h2 with h2
    subst hr1
    subst hr2
    subst hc1
    subst hc2
    have hrm : '#' ∉ rest2 := fun hm =>
      h (List.mem_cons_of_mem _ (List.mem_cons_of_mem _ hm))
    have hdecomp : rest2 =
        rest2.takeWhile (fun c => ¬ isNetlocEnd c) ++
        rest2.dropWhile (fun c => ¬ isNetlocEnd c) :=
      (List.takeWhile_append_dropWhile _ _).symm
    set n := rest2.takeWhile (fun c => ¬ isNetlocEnd c) with hn
    set T := rest2.dropWhile (fun c => ¬ isNetlocEnd c) with hT
    have hnend : ∀ c ∈ n, isNetlocEnd c = false := by
      intro c hc
      have := List.mem_takeWhile_imp hc
      simpa using this
    have hTsh : T = [] ∨ ∃ h t, T = h :: t ∧ isNetlocEnd h = true := by
      rcases dropWhile_head_cases (fun c => ¬ isNetlocEnd c) rest2 with hc | ⟨hd, tl, hc, hp⟩
      · exact Or.inl (by rw [hT]; exact hc)
      · exact Or.inr ⟨hd, tl, by rw [hT]; exact hc, by simpa using hp⟩
    have hTfr : '#' ∉ T := fun hm => hrm (by rw [hdecomp]; exact List.mem_append_right _ hm)
    have hTsh2 : T ++ '#' :: f = [] ∨
        ∃ h t, T ++ '#' :: f = h :: t ∧ isNetlocEnd h = true := by
      rcases hTsh with hc | ⟨hd, tl, hc, hp⟩
      · rw [hc]
        exact Or.inr ⟨'#', f, rfl, by decide⟩
      · rw [hc]
        exact Or.inr ⟨hd, tl ++ '#' :: f, rfl, hp⟩
    have heq1 : ('/' : Char) :: '/' :: (rest2 ++ '#' :: f) =
        '/' :: '/' :: (n ++ (T ++ '#' :: f)) := by
      rw [← List.append_assoc, ← hdecomp]
    have heq2 : ('/' : Char) :: '/' :: rest2 = '/' :: '/' :: (n ++ T) := by
      rw [← hdecomp]
    rw [List.cons_append, List.cons_append, heq1, heq2,
      splitNetlocTail_shape_gen sch n (T ++ '#' :: f) hnend hTsh2,
      splitNetlocTail_shape_gen sch n T hnend hTsh]
    obtain ⟨hb1, hb2⟩ := partBefore_of_not_mem '#' T hTfr
    obtain ⟨hb3, hb4⟩ := partBefore_append '#' T f hTfr
    rw [hb1, hb2, hb3, hb4]
    split
    · rfl
    · split
      · rfl
      · rfl
  · have htk2 : ¬ (rest ++ '#' :: f).take 2 = ['/', '/'] := by
      intro h2
      cases rest with
      | nil => cases h2
      | cons a b =>
        cases b with
        | nil =>
          simp only [List.cons_append, List.nil_append, List.take_succ_cons,
            List.take_zero] at h2
          injection h2 with g1 g2
          injection g2 with g2
          exact absurd g2 (by decide)
        | cons x y =>
          simp only [List.cons_append, List.take_succ_cons, List.take_zero] at h2 htk
          exact htk h2
    rw [splitNetlocTail_noslash sch rest htk,
      splitNetlocTail_noslash sch (rest ++ '#' :: f) htk2]
    obtain ⟨hpb, hpa⟩ := partBefore_of_not_mem '#' rest h
    have hsp : partBefore '#' (rest ++ '#' :: f) = rest ∧
        partAfter '#' (rest ++ '#' :: f) = f := partBefore_append '#' rest f h
    rw [hpb, hpa, hsp.1, hsp.2]
    rfl


theorem urlsplit_append_frag (W f : PyStr) (hW : '#' ∉ W)
    (hc0 : ∀ c, W.head? = some c → isC0OrSpace c = false)
    (hWu : ∀ c ∈ W, isUnsafeUrlByte c = false)
    (hfu : ∀ c ∈ f, isUnsafeUrlByte c = false) :
    pyUrlsplitD (W ++ '#' :: f) [] =
      (pyUrlsplitD W []).map (fun s => { s with fragment := f }) := by
  have hcleanW : cleanUrl W = W := cleanUrl_fixed W hc0 hWu
  have hcleanWf : cleanUrl (W ++ '#' :: f) = W ++ '#' :: f := by
    refine cleanUrl_fixed _ ?_ ?_
    · intro c hc
      cases W with
      | nil =>
        injection hc with hc
        subst hc
        decide
      | cons w t =>
        rw [List.cons_append] at hc
        exact hc0 c hc
    · intro c hc
      rcases List.mem_append.mp hc with hc | hc
      · exact hWu c hc
      · rcases List.mem_cons.mp hc with hc | hc
        · subst hc; decide
        · exact hfu c hc
  unfold pyUrlsplitD
  rw [hcleanW, hcleanWf, show cleanScheme ([] : PyStr) = ([] : PyStr) from rfl]
  dsimp only
  rcases hsr : schemeSplit W [] with ⟨sch, rest⟩
  rw [schemeSplit_append_frag W f [] hW, hsr]
  dsimp only
  have hrest : '#' ∉ rest := by
    obtain ⟨-, -, -, hsub⟩ := schemeSplit_inv W [] sch rest rfl rfl (Or.inl rfl) hsr
    exact fun hm => hW (hsub _ hm)
  exact splitNetlocTail_append_frag sch rest f hrest

theorem rsplitLast_eq_some (sep : Char) (s a b : PyStr)
    (h : rsplitLast sep s = some (a, b)) : s = a ++ sep :: b ∧ sep ∉ b := by
  unfold rsplitLast at h
  cases hs : splitFirst sep s.reverse with
  | none => rw [hs] at h; cases h
  | some p =>
    obtain ⟨x, y⟩ := p
    rw [hs] at h
    simp only [Option.map_some'] at h
    injection h with h
    rw [Prod.mk.injEq] at h
    obtain ⟨h1, h2⟩ := h
    obtain ⟨hrev, hnm⟩ := splitFirst_eq_some sep s.reverse x y hs
    subst h1
    subst h2
    constructor
    · have h3 := congrArg List.reverse hrev
      rw [List.reverse_reverse] at h3
      rw [h3]
      simp [List.reverse_append]
    · intro hm
      exact hnm (List.mem_reverse.mp hm)

theorem rsplitLast_append (sep : Char) (pre suf : PyStr) (h : sep ∉ suf) :
    rsplitLast sep (pre ++ sep :: suf) = some (pre, suf) := by
  unfold rsplitLast
  have h2 : (pre ++ sep :: suf).reverse = suf.reverse ++ sep :: pre.reverse := by
    simp [List.reverse_append]
  rw [h2, splitFirst_append_first sep _ _ (fun hm => h (List.mem_reverse.mp hm))]
  simp

theorem rsplitLast_none (sep : Char) (s : PyStr) (h : sep ∉ s) :
    rsplitLast sep s = none := by
  unfold rsplitLast
  rw [splitFirst_none sep s.reverse (fun hm => h (List.mem_reverse.mp hm))]
  rfl


theorem splitParams_reglue (p p1 p2 : PyStr) (h : splitParams p = (p1, p2))
    (h2 : p2 ≠ []) : splitParams (p1 ++ ';' :: p2) = (p1, p2) := by
  unfold splitParams at h
  cases hr : rsplitLast '/' p with
  | some pp =>
    obtain ⟨pre, suf⟩ := pp
    rw [hr] at h
    dsimp only at h
    obtain ⟨hp, hsuf⟩ := rsplitLast_eq_some '/' p pre suf hr
    cases hsp : splitFirst ';' suf with
    | some ab =>
      obtain ⟨a, b⟩ := ab
      rw [hsp] at h
      dsimp only at h
      injection h with ha hb
      subst ha
      subst hb
      obtain ⟨hsuf2, hna⟩ := splitFirst_eq_some ';' suf a b hsp
      have hslash_a : '/' ∉ a := fun hm => hsuf (by rw [hsuf2]; exact List.mem_append_left _ hm)
      have hslash_b : '/' ∉ b := fun hm => hsuf
        (by rw [hsuf2]; exact List.mem_append_right _ (List.mem_cons_of_mem _ hm))
      unfold splitParams
      have hshape : (pre ++ '/' :: a) ++ ';' :: b = pre ++ '/' :: (a ++ ';' :: b) := by
        simp [List.append_assoc]
      rw [hshape, rsplitLast_append '/' pre (a ++ ';' :: b) (by
        intro hm
        rcases List.mem_append.mp hm with hm | hm
        · exact hslash_a hm
        · rcases List.mem_cons.mp hm with hm | hm
          · exact absurd hm (by decide)
          · exact hslash_b hm)]
      dsimp only
      rw [splitFirst_append_first ';' a b hna]
    | none =>
      rw [hsp] at h
      dsimp only at h
      injection h with ha hb
      exact absurd hb.symm h2
  | none =>
    rw [hr] at h
    dsimp only at h
    have hslash : '/' ∉ p := by
      intro hm
      obtain ⟨a, b, hab⟩ := splitFirst_isSome '/' p.reverse (List.mem_reverse.mpr hm)
      unfold rsplitLast at hr
      rw [hab] at hr
      cases hr
    cases hsp : splitFirst ';' p with
    | some ab =>
      obtain ⟨a, b⟩ := ab
      rw [hsp] at h
      dsimp only at h
      injection h with ha hb
      subst ha
      subst hb
      obtain ⟨hp2, hna⟩ := splitFirst_eq_some ';' p a b hsp
      have hslash_a : '/' ∉ a := fun hm => hslash (by rw [hp2]; exact List.mem_append_left _ hm)
      have hslash_b : '/' ∉ b := fun hm => hslash
        (by rw [hp2]; exact List.mem_append_right _ (List.mem_cons_of_mem _ hm))
      unfold splitParams
      rw [rsplitLast_none '/' _ (by
        intro hm
        rcases List.mem_append.mp hm with hm | hm
        · exact hslash_a hm
        · rcases List.mem_cons.mp hm with hm | hm
          · exact absurd hm (by decide)
          · exact hslash_b hm)]
      dsimp only
      rw [splitFirst_append_first ';' a b hna]
    | none =>
      rw [hsp] at h
      dsimp only at h
      injection h with ha hb
      exact absurd hb.symm h2

theorem splitParams_self (p p1 p2 : PyStr) (h : splitParams p = (p1, p2))
    (h2 : p2 = []) : splitParams p1 = (p1, []) := by
  subst h2
  unfold splitParams at h
  cases hr : rsplitLast '/' p with
  | some pp =>
    obtain ⟨pre, suf⟩ := pp
    rw [hr] at h
    dsimp only at h
    obtain ⟨hp, hsuf⟩ := rsplitLast_eq_some '/' p pre suf hr
    cases hsp : splitFirst ';' suf with
    | some ab =>
      obtain ⟨a, b⟩ := ab
      rw [hsp] at h
      dsimp only at h
      injection h with ha hb
      subst ha
      obtain ⟨hsuf2, hna⟩ := splitFirst_eq_some ';' suf a b hsp
      have hslash_a : '/' ∉ a := fun hm => hsuf (by rw [hsuf2]; exact List.mem_append_left _ hm)
      unfold splitParams
      rw [rsplitLast_append '/' pre a hslash_a]
      dsimp only
      rw [splitFirst_none ';' a hna]
    | none =>
      rw [hsp] at h
      dsimp only at h
      injection h with ha hb
      subst ha
      unfold splitParams
      rw [hr]
      dsimp only
      rw [hsp]
  | none =>
    rw [hr] at h
    dsimp only at h
    have hslash : '/' ∉ p := by
      intro hm
      obtain ⟨a, b, hab⟩ := splitFirst_isSome '/' p.reverse (List.mem_reverse.mpr hm)
      unfold rsplitLast at hr
      rw [hab] at hr
      cases hr
    cases hsp : splitFirst ';' p with
    | some ab =>
      obtain ⟨a, b⟩ := ab
      rw [hsp] at h
      dsimp only at h
      injection h with ha hb
      subst ha
      obtain ⟨hp2, hna⟩ := splitFirst_eq_some ';' p a b hsp
      have hslash_a : '/' ∉ a := fun hm => hslash (by rw [hp2]; exact List.mem_append_left _ hm)
      unfold splitParams
      rw [rsplitLast_none '/' a hslash_a]
      dsimp only
      rw [splitFirst_none ';' a hna]
    | none =>
      rw [hsp] at h
      dsimp only at h
      injection h with ha hb
      subst ha
      unfold splitParams
      rw [hr]
      dsimp only
      rw [hsp]


theorem splitParams_cases (p p1 p2 : PyStr) (h : splitParams p = (p1, p2)) :
    (p1 = p ∧ p2 = []) ∨ (p = p1 ++ ';' :: p2 ∧ '/' ∉ p2) := by
  unfold splitParams at h
  cases hr : rsplitLast '/' p with
  | some pp =>
    obtain ⟨pre, suf⟩ := pp
    rw [hr] at h
    dsimp only at h
    obtain ⟨hp, hsuf⟩ := rsplitLast_eq_some '/' p pre suf hr
    cases hsp : splitFirst ';' suf with
    | some ab =>
      obtain ⟨a, b⟩ := ab
      rw [hsp] at h
      dsimp only at h
      injection h with ha hb
      subst ha
      subst hb
      obtain ⟨hsuf2, hna⟩ := splitFirst_eq_some ';' suf a b hsp
      refine Or.inr ⟨?_, ?_⟩
      · rw [hp, hsuf2]
        simp [List.append_assoc]
      · intro hm
        exact hsuf (by rw [hsuf2]; exact List.mem_append_right _ (List.mem_cons_of_mem _ hm))
    | none =>
      rw [hsp] at h
      dsimp only at h
      injection h with ha hb
      exact Or.inl ⟨ha.symm, hb.symm⟩
  | none =>
    rw [hr] at h
    dsimp only at h
    have hslash : '/' ∉ p := by
      intro hm
      obtain ⟨a, b, hab⟩ := splitFirst_isSome '/' p.reverse (List.mem_reverse.mpr hm)
      unfold rsplitLast at hr
      rw [hab] at hr
      cases hr
    cases hsp : splitFirst ';' p with
    | some ab =>
      obtain ⟨a, b⟩ := ab
      rw [hsp] at h
      dsimp only at h
      injection h with ha hb
      subst ha
      subst hb
      obtain ⟨hp2, hna⟩ := splitFirst_eq_some ';' p a b hsp
      exact Or.inr ⟨hp2, fun hm => hslash
        (by rw [hp2]; exact List.mem_append_right _ (List.mem_cons_of_mem _ hm))⟩
    | none =>
      rw [hsp] at h
      dsimp only at h
      injection h with ha hb
      exact Or.inl ⟨ha.symm, hb.symm⟩

theorem splitParams_snd_ne (p p1 p2 : PyStr) (h : splitParams p = (p1, p2))
    (h2 : p2 ≠ []) : p = p1 ++ ';' :: p2 := by
  rcases splitParams_cases p p1 p2 h with ⟨-, h3⟩ | ⟨h3, -⟩
  · exact absurd h3 h2
  · exact h3

theorem splitParams_fst_subset (p p1 p2 : PyStr) (h : splitParams p = (p1, p2)) :
    ∀ c ∈ p1, c ∈ p := by
  rcases splitParams_cases p p1 p2 h with ⟨h3, -⟩ | ⟨h3, -⟩
  · intro c hc
    rw [h3] at hc
    exact hc
  · intro c hc
    rw [h3]
    exact List.mem_append_left _ hc

theorem splitParams_snd_subset (p p1 p2 : PyStr) (h : splitParams p = (p1, p2)) :
    ∀ c ∈ p2, c ∈ p := by
  rcases splitParams_cases p p1 p2 h with ⟨-, h3⟩ | ⟨h3, -⟩
  · intro c hc
    rw [h3] at hc
    cases hc
  · intro c hc
    rw [h3]
    exact List.mem_append_right _ (List.mem_cons_of_mem _ hc)

theorem splitParams_snd_no_slash (p p1 p2 : PyStr) (h : splitParams p = (p1, p2)) :
    '/' ∉ p2 := by
  rcases splitParams_cases p p1 p2 h with ⟨-, h3⟩ | ⟨-, h3⟩
  · rw [h3]
    exact List.not_mem_nil _
  · exact h3

theorem splitParams_head (p p1 p2 : PyStr) (h : splitParams p = (p1, p2)) :
    p1 = [] ∨ p1.head? = p.head? := by
  rcases splitParams_cases p p1 p2 h with ⟨h3, -⟩ | ⟨h3, -⟩
  · exact Or.inr (by rw [h3])
  · cases hp1 : p1 with
    | nil => exact Or.inl rfl
    | cons c t =>
      refine Or.inr ?_
      rw [h3, ← hp1, head_append_of_ne_nil _ (by rw [hp1]; exact List.cons_ne_nil c t)]

theorem unsplit_frag_decomp (sch n p q f : PyStr) (hf : f ≠ []) :
    pyUrlunsplit sch n p q f = pyUrlunsplit sch n p q [] ++ '#' :: f := by
  unfold pyUrlunsplit
  dsimp only
  rw [if_pos hf, if_neg (by simp : ¬ (([] : PyStr) ≠ []))]

theorem unsplit_query_decomp (sch n p q : PyStr) (hq : q ≠ []) :
    pyUrlunsplit sch n p q [] = pyUrlunsplit sch n p [] [] ++ '?' :: q := by
  unfold pyUrlunsplit
  dsimp only
  rw [if_neg (by simp : ¬ (([] : PyStr) ≠ [])), if_pos hq,
    if_neg (by simp : ¬ (([] : PyStr) ≠ [])),
    if_neg (by simp : ¬ (([] : PyStr) ≠ []))]

theorem unsplit_subset (sch n p q : PyStr) :
    ∀ c ∈ pyUrlunsplit sch n p q [],
      c ∈ sch ∨ c ∈ n ∨ c ∈ p ∨ c ∈ q ∨ c = ':' ∨ c = '/' ∨ c = '?' := by
  intro c hc
  unfold pyUrlunsplit at hc
  dsimp only at hc
  rw [if_neg (by simp : ¬ (([] : PyStr) ≠ []))] at hc
  have hZ : ∀ x ∈ (if p ≠ [] ∧ List.head? p ≠ some '/' then '/' :: p else p),
      x ∈ p ∨ x = '/' := by
    intro x hx
    by_cases h : p ≠ [] ∧ List.head? p ≠ some '/'
    · rw [if_pos h] at hx
      rcases List.mem_cons.mp hx with hx | hx
      · exact Or.inr hx
      · exact Or.inl hx
    · rw [if_neg h] at hx
      exact Or.inl hx
  have hY : ∀ x ∈ (if n ≠ [] ∨ sch ≠ [] ∧ sch ∈ usesNetloc ∧ List.take 2 p ≠ ['/', '/'] then
        '/' :: '/' :: n ++ (if p ≠ [] ∧ List.head? p ≠ some '/' then '/' :: p else p)
      else p), x ∈ n ∨ x ∈ p ∨ x = '/' := by
    intro x hx
    by_cases h : n ≠ [] ∨ sch ≠ [] ∧ sch ∈ usesNetloc ∧ List.take 2 p ≠ ['/', '/']
    · rw [if_pos h] at hx
      rcases List.mem_cons.mp hx with hx | hx
      · tauto
      rcases List.mem_cons.mp hx with hx | hx
      · tauto
      rcases List.mem_append.mp hx with hx | hx
      · tauto
      · rcases hZ x hx with hx | hx <;> tauto
    · rw [if_neg h] at hx
      tauto
  have hX : ∀ x ∈ (if sch ≠ [] then
        sch ++ ':' ::
          (if n ≠ [] ∨ sch ≠ [] ∧ sch ∈ usesNetloc ∧ List.take 2 p ≠ ['/', '/'] then
            '/' :: '/' :: n ++ (if p ≠ [] ∧ List.head? p ≠ some '/' then '/' :: p else p)
          else p)
      else
        (if n ≠ [] ∨ sch ≠ [] ∧ sch ∈ usesNetloc ∧ List.take 2 p ≠ ['/', '/'] then
          '/' :: '/' :: n ++ (if p ≠ [] ∧ List.head? p ≠ some '/' then '/' :: p else p)
        else p)), x ∈ sch ∨ x ∈ n ∨ x ∈ p ∨ x = ':' ∨ x = '/' := by
    intro x hx
    by_cases h : sch ≠ []
    · rw [if_pos h] at hx
      rcases List.mem_append.mp hx with hx | hx
      · tauto
      rcases List.mem_cons.mp hx with hx | hx
      · tauto
      · rcases hY x hx with hx | hx | hx <;> tauto
    · rw [if_neg h] at hx
      rcases hY x hx with hx | hx | hx <;> tauto
  by_cases hq : q ≠ []
  · rw [if_pos hq] at hc
    rcases List.mem_append.mp hc with hc | hc
    · rcases hX c hc with hc | hc | hc | hc | hc <;> tauto
    · rcases List.mem_cons.mp hc with hc | hc <;> tauto
  · rw [if_neg hq] at hc
    rcases hX c hc with hc | hc | hc | hc | hc <;> tauto

theorem unsplit_not_mem (x : Char) (sch n p q : PyStr)
    (hx1 : x ∉ sch) (hx2 : x ∉ n) (hx3 : x ∉ p) (hx4 : x ∉ q)
    (hx5 : x ≠ ':') (hx6 : x ≠ '/') (hx7 : x ≠ '?') :
    x ∉ pyUrlunsplit sch n p q [] := by
  intro hm
  rcases unsplit_subset sch n p q x hm with h | h | h | h | h | h | h
  · exact hx1 h
  · exact hx2 h
  · exact hx3 h
  · exact hx4 h
  · exact hx5 h
  · exact hx6 h
  · exact hx7 h

theorem ofNat_isDigit (d : Nat) (h1 : 48 ≤ d) (h2 : d ≤ 57) :
    (Char.ofNat d).isDigit = true := by
  have ht : (Char.ofNat d).toNat = d := toNat_ofNat_lt d (by omega)
  simp only [Char.isDigit, Bool.and_eq_true, decide_eq_true_eq, ge_iff_le,
    uint32_le_toNat, UInt32.toNat_ofNat, UInt32.size, Nat.reducePow, Nat.reduceMod]
  simp only [Char.toNat] at ht
  omega

theorem natDigitsAux_digit :
    ∀ fuel n, ∀ c ∈ natDigitsAux fuel n, c.isDigit = true := by
  intro fuel
  induction fuel with
  | zero =>
    intro n c hc
    unfold natDigitsAux at hc
    exact absurd hc (List.not_mem_nil c)
  | succ k ih =>
    intro n c hc
    unfold natDigitsAux at hc
    by_cases h : n < 10
    · rw [if_pos h] at hc
      rcases List.mem_cons.mp hc with hc | hc
      · subst hc
        exact ofNat_isDigit _ (by omega) (by omega)
      · cases hc
    · rw [if_neg h] at hc
      rcases List.mem_append.mp hc with hc | hc
      · exact ih (n / 10) c hc
      · rcases List.mem_cons.mp hc with hc | hc
        · subst hc
          exact ofNat_isDigit _ (by omega) (by omega)
        · cases hc

theorem natDigits_digit (n : Nat) : ∀ c ∈ natDigits n, c.isDigit = true :=
  natDigitsAux_digit (n + 1) n

theorem natDigits_ne_nil (n : Nat) : natDigits n ≠ [] := by
  unfold natDigits natDigitsAux
  by_cases h : n < 10
  · rw [if_pos h]
    exact List.cons_ne_nil _ _
  · rw [if_neg h]
    intro hc
    rcases List.append_eq_nil.mp hc with ⟨-, h2⟩
    cases h2


theorem splitNetlocTail_frag_subset (scheme rest : PyStr) (s : SplitResult)
    (h : splitNetlocTail scheme rest = .ok s) : ∀ c ∈ s.fragment, c ∈ rest := by
  unfold splitNetlocTail at h
  by_cases htk : rest.take 2 = ['/', '/']
  · rw [if_pos htk] at h
    dsimp only at h
    set T := (rest.drop 2).dropWhile (fun c => ¬ isNetlocEnd c) with hT
    split at h
    · cases h
    · split at h
      · cases h
      · rw [match_split_eq_parts, match_split_eq_parts] at h
        injection h with h
        subst h
        dsimp only
        intro c hc
        exact drop_subset_mem 2 rest _ (dropWhile_subset_mem _ _ _
          (partAfter_subset '#' T _ hc))
  · rw [if_neg htk] at h
    dsimp only at h
    rw [if_neg (by simp), if_neg (by simp)] at h
    rw [match_split_eq_parts, match_split_eq_parts] at h
    injection h with h
    subst h
    dsimp only
    intro c hc
    exact partAfter_subset '#' rest _ hc

theorem schemeSplit_rest_subset (u d sch rest : PyStr)
    (h : schemeSplit u d = (sch, rest)) : ∀ c ∈ rest, c ∈ u := by
  unfold schemeSplit at h
  cases hsp : splitFirst ':' u with
  | none =>
    rw [hsp] at h
    rw [Prod.mk.injEq] at h
    obtain ⟨h1, h2⟩ := h
    subst h2
    exact fun c hc => hc
  | some pp =>
    obtain ⟨pre, post⟩ := pp
    rw [hsp] at h
    dsimp only at h
    by_cases hv : pre ≠ [] ∧ schemeHeadOk pre = true ∧ pre.all isSchemeChar = true
    · rw [if_pos hv] at h
      rw [Prod.mk.injEq] at h
      obtain ⟨h1, h2⟩ := h
      subst h2
      exact (splitFirst_parts_subset ':' u pre post hsp).2
    · rw [if_neg hv] at h
      rw [Prod.mk.injEq] at h
      obtain ⟨h1, h2⟩ := h
      subst h2
      exact fun c hc => hc

theorem urlsplit_frag_unsafe (url dflt : PyStr) (s : SplitResult)
    (h : pyUrlsplitD url dflt = .ok s) :
    ∀ c ∈ s.fragment, isUnsafeUrlByte c = false := by
  unfold pyUrlsplitD at h
  dsimp only at h
  rcases hsr : schemeSplit (cleanUrl url) (cleanScheme dflt) with ⟨sch, rest⟩
  rw [hsr] at h
  dsimp only at h
  intro c hc
  exact mem_cleanUrl_unsafe url c
    (schemeSplit_rest_subset _ _ _ _ hsr c
      (splitNetlocTail_frag_subset sch rest s h c hc))

theorem pyUrlsplitD_dflt (u d : PyStr) (s : SplitResult)
    (h : pyUrlsplitD u [] = .ok s) (hs : s.scheme ≠ []) :
    pyUrlsplitD u d = .ok s := by
  unfold pyUrlsplitD at h ⊢
  rw [show cleanScheme ([] : PyStr) = ([] : PyStr) from rfl] at h
  dsimp only at h ⊢
  rcases hsr : schemeSplit (cleanUrl u) [] with ⟨sch, rest⟩
  rw [hsr] at h
  dsimp only at h
  have hsch := (splitNetlocTail_ok_inv sch rest s h).1
  unfold schemeSplit at hsr
  cases hsp : splitFirst ':' (cleanUrl u) with
  | none =>
    rw [hsp] at hsr
    rw [Prod.mk.injEq] at hsr
    exact absurd (by rw [hsch, ← hsr.1]) hs
  | some pp =>
    obtain ⟨pre, post⟩ := pp
    rw [hsp] at hsr
    dsimp only at hsr
    by_cases hv : pre ≠ [] ∧ schemeHeadOk pre = true ∧ pre.all isSchemeChar = true
    · rw [if_pos hv] at hsr
      have hgoal : schemeSplit (cleanUrl u) (cleanScheme d) = (sch, rest) := by
        unfold schemeSplit
        rw [hsp]
        dsimp only
        rw [if_pos hv]
        exact hsr
      rw [hgoal]
      dsimp only
      exact h
    · rw [if_neg hv] at hsr
      rw [Prod.mk.injEq] at hsr
      exact absurd (by rw [hsch, ← hsr.1]) hs

theorem pyUrlparseD_ok_elim (u d : PyStr) (q : ParseResult)
    (h : pyUrlparseD u d = .ok q) :
    ∃ s : SplitResult, pyUrlsplitD u d = .ok s ∧ q.scheme = s.scheme ∧
      q.netloc = s.netloc ∧ q.query = s.query ∧ q.fragment = s.fragment ∧
      ((¬ (s.scheme ∈ usesParams ∧ ';' ∈ s.path) ∧ q.path = s.path ∧ q.params = []) ∨
       ((s.scheme ∈ usesParams ∧ ';' ∈ s.path) ∧
        splitParams s.path = (q.path, q.params))) := by
  unfold pyUrlparseD at h
  cases hs : pyUrlsplitD u d with
  | error e =>
    rw [hs] at h
    simp only [Bind.bind, Except.bind] at h
    cases h
  | ok s =>
    rw [hs] at h
    simp only [Bind.bind, Except.bind] at h
    refine ⟨s, rfl, ?_⟩
    by_cases hc : s.scheme ∈ usesParams ∧ ';' ∈ s.path
    · rw [if_pos hc] at h
      rcases hsp2 : splitParams s.path with ⟨pa, pr⟩
      rw [hsp2] at h
      dsimp only at h
      injection h with h
      subst h
      exact ⟨rfl, rfl, rfl, rfl, Or.inr ⟨hc, rfl⟩⟩
    · rw [if_neg hc] at h
      dsimp only at h
      injection h with h
      subst h
      exact ⟨rfl, rfl, rfl, rfl, Or.inl ⟨hc, rfl, rfl⟩⟩

theorem pyUrlparseD_dflt (u d : PyStr) (q : ParseResult)
    (h : pyUrlparseD u [] = .ok q) (hq : q.scheme ≠ []) :
    pyUrlparseD u d = .ok q := by
  obtain ⟨s, hs, h1, h2, h3, h4, h5⟩ := pyUrlparseD_ok_elim u [] q h
  have hss : s.scheme ≠ [] := by
    rw [← h1]
    exact hq
  have hd := pyUrlsplitD_dflt u d s hs hss
  unfold pyUrlparseD
  rw [hd]
  simp only [Bind.bind, Except.bind]
  rcases h5 with ⟨hc, hp, hpr⟩ | ⟨hc, hsp⟩
  · rw [if_neg hc]
    dsimp only
    have he : q = ⟨s.scheme, s.netloc, s.path, [], s.query, s.fragment⟩ := by
      cases q
      exact ParseResult.mk.injEq .. ▸ ⟨h1, h2, hp, hpr, h3, h4⟩
    rw [he]
  · rw [if_pos hc, hsp]
    dsimp only
    have he : q = ⟨s.scheme, s.netloc, q.path, q.params, s.query, s.fragment⟩ := by
      cases q
      exact ParseResult.mk.injEq .. ▸ ⟨h1, h2, rfl, rfl, h3, h4⟩
    rw [he]


theorem reparse_roundtrip (u d : PyStr) (q : ParseResult)
    (hd1 : d.all isSchemeChar = true) (hd2 : pyLower d = d)
    (hd3 : d = [] ∨ schemeHeadOk d = true)
    (h : pyUrlparseD u d = .ok q) (hn : q.netloc ≠ []) (f : PyStr)
    (hf : ∀ c ∈ f, isUnsafeUrlByte c = false) :
    pyUrlparseD (pyUrlunparse { q with fragment := f }) [] =
      .ok { q with fragment := f } := by
  obtain ⟨s, hs, h1, h2, h3, h4, h5⟩ := pyUrlparseD_ok_elim u d q h
  have hinv := splitInv_of_ok u d s hd1 hd2 hd3 hs
  set rp : PyStr := if q.params ≠ [] then q.path ++ ';' :: q.params else q.path with hrp
  have hP1 : ∀ c ∈ rp, c ∈ s.path := by
    rw [hrp]
    by_cases hpr : q.params ≠ []
    · rw [if_pos hpr]
      rcases h5 with ⟨-, -, hpr0⟩ | ⟨-, hsp⟩
      · exact absurd hpr0 hpr
      · have hglue := splitParams_snd_ne _ _ _ hsp hpr
        rw [← hglue]
        exact fun c hc => hc
    · rw [if_neg hpr]
      rcases h5 with ⟨-, hp, -⟩ | ⟨-, hsp⟩
      · rw [hp]
        exact fun c hc => hc
      · exact splitParams_fst_subset _ _ _ hsp
  have hP2 : rp = [] ∨ rp.head? = s.path.head? := by
    rw [hrp]
    by_cases hpr : q.params ≠ []
    · rw [if_pos hpr]
      rcases h5 with ⟨-, -, hpr0⟩ | ⟨-, hsp⟩
      · exact absurd hpr0 hpr
      · have hglue := splitParams_snd_ne _ _ _ hsp hpr
        rw [← hglue]
        exact Or.inr rfl
    · rw [if_neg hpr]
      rcases h5 with ⟨-, hp, -⟩ | ⟨-, hsp⟩
      · rw [hp]
        exact Or.inr rfl
      · exact splitParams_head _ _ _ hsp
  have hinv2 : SplitInv ⟨q.scheme, q.netloc, rp, q.query, []⟩ :=
    { scheme_lower := by
        show pyLower q.scheme = q.scheme
        rw [h1]
        exact hinv.scheme_lower
      scheme_chars := by
        show q.scheme.all isSchemeChar = true
        rw [h1]
        exact hinv.scheme_chars
      scheme_head := by
        show q.scheme = [] ∨ schemeHeadOk q.scheme = true
        rw [h1]
        exact hinv.scheme_head
      netloc_clean := by
        show ∀ c ∈ q.netloc, isNetlocEnd c = false
        rw [h2]
        exact hinv.netloc_clean
      netloc_br := by
        show bracketsOk q.netloc
        rw [h2]
        exact hinv.netloc_br
      path_hash := by
        show '#' ∉ rp
        intro hm
        exact hinv.path_hash (hP1 _ hm)
      path_q := by
        show '?' ∉ rp
        intro hm
        exact hinv.path_q (hP1 _ hm)
      query_hash := by
        show '#' ∉ q.query
        rw [h3]
        exact hinv.query_hash
      netloc_unsafe := by
        show ∀ c ∈ q.netloc, isUnsafeUrlByte c = false
        rw [h2]
        exact hinv.netloc_unsafe
      path_unsafe := by
        show ∀ c ∈ rp, isUnsafeUrlByte c = false
        intro c hc
        exact hinv.path_unsafe c (hP1 c hc)
      query_unsafe := by
        show ∀ c ∈ q.query, isUnsafeUrlByte c = false
        rw [h3]
        exact hinv.query_unsafe
      path_slash := by
        show q.netloc ≠ [] → rp = [] ∨ rp.head? = some '/'
        intro hnl
        rcases hP2 with h0 | h0
        · exact Or.inl h0
        · rcases hinv.path_slash (by rw [← h2]; exact hnl) with h9 | h9
          · left
            rw [h9] at h0
            exact List.head?_eq_none_iff.mp h0
          · right
            rw [h0, h9] }
  have hW := urlsplit_unsplit_roundtrip ⟨q.scheme, q.netloc, rp, q.query, []⟩ hinv2 hn
  have hWhash : '#' ∉ pyUrlunsplit q.scheme q.netloc rp q.query [] := by
    apply unsplit_not_mem
    · intro hm
      exact absurd (List.all_eq_true.mp hinv2.scheme_chars _ hm) (by decide)
    · intro hm
      exact absurd (hinv2.netloc_clean _ hm) (by decide)
    · exact hinv2.path_hash
    · exact hinv2.query_hash
    · decide
    · decide
    · decide
  have hWclean : ∀ c ∈ pyUrlunsplit q.scheme q.netloc rp q.query [],
      isUnsafeUrlByte c = false := by
    intro c hc
    rcases unsplit_subset _ _ _ _ c hc with h0 | h0 | h0 | h0 | h0 | h0 | h0
    · exact (isSchemeChar_classify c (List.all_eq_true.mp hinv2.scheme_chars _ h0)).2.1
    · exact hinv2.netloc_unsafe c h0
    · exact hinv2.path_unsafe c h0
    · exact hinv2.query_unsafe c h0
    · subst h0; decide
    · subst h0; decide
    · subst h0; decide
  have hWc0 : ∀ c, (pyUrlunsplit q.scheme q.netloc rp q.query []).head? = some c →
      isC0OrSpace c = false := by
    intro c hc
    rw [unsplit_netlocful ⟨q.scheme, q.netloc, rp, q.query, []⟩ hinv2 hn] at hc
    by_cases hsch : q.scheme ≠ []
    · rw [if_pos hsch, head_append_of_ne_nil _ hsch] at hc
      rcases hinv2.scheme_head with h0 | h0
      · exact absurd h0 hsch
      · cases hq0 : q.scheme with
        | nil =>
          rw [hq0] at hc
          cases hc
        | cons c0 t0 =>
          rw [hq0] at hc
          injection hc with hc
          subst hc
          rw [hq0] at h0
          simp only [schemeHeadOk, Bool.and_eq_true, Bool.or_eq_true,
            decide_eq_true_eq, ge_iff_le, Char.isUpper, Char.isLower,
            uint32_le_toNat, UInt32.toNat_ofNat, UInt32.size, Nat.reducePow,
            Nat.reduceMod] at h0
          simp only [isC0OrSpace, decide_eq_false_iff_not, uint32_le_toNat,
            UInt32.toNat_ofNat, UInt32.size, Nat.reducePow, Nat.reduceMod]
          omega
    · rw [if_neg hsch] at hc
      injection hc with hc
      subst hc
      decide
  have hsplit2 : ∀ g : PyStr, (∀ c ∈ g, isUnsafeUrlByte c = false) →
      pyUrlsplitD (pyUrlunsplit q.scheme q.netloc rp q.query g) [] =
        .ok ⟨q.scheme, q.netloc, rp, q.query, g⟩ := by
    intro g hg
    cases hgq : g with
    | nil => exact hW
    | cons gc gt =>
      rw [← hgq]
      rw [unsplit_frag_decomp q.scheme q.netloc rp q.query g
        (by rw [hgq]; exact List.cons_ne_nil _ _)]
      rw [urlsplit_append_frag _ g hWhash hWc0 hWclean hg, hW]
      rfl
  have hq2 : pyUrlunparse { q with fragment := f } =
      pyUrlunsplit q.scheme q.netloc rp q.query f := by
    unfold pyUrlunparse
    rw [hrp]
  rw [hq2]
  unfold pyUrlparseD
  rw [hsplit2 f hf]
  simp only [Bind.bind, Except.bind]
  by_cases hpr : q.params ≠ []
  · rcases h5 with ⟨-, -, hpr0⟩ | ⟨hc, hsp⟩
    · exact absurd hpr0 hpr
    · have hcond : q.scheme ∈ usesParams ∧ ';' ∈ rp := by
        constructor
        · rw [h1]
          exact hc.1
        · rw [hrp, if_pos hpr]
          exact List.mem_append_right _ (List.mem_cons_self _ _)
      rw [if_pos hcond, hrp, if_pos hpr]
      rw [splitParams_reglue s.path q.path q.params hsp hpr]
  · have hpre : q.params = [] := not_ne_iff.mp hpr
    have hrp2 : rp = q.path := by rw [hrp, if_neg hpr]
    rcases h5 with ⟨hnc, hp, -⟩ | ⟨hc, hsp⟩
    · have hcond : ¬ (q.scheme ∈ usesParams ∧ ';' ∈ rp) := by
        rw [hrp2, hp, h1]
        exact hnc
      rw [if_neg hcond]
      dsimp only
      rw [hrp2, hpre]
    · by_cases hsemi : ';' ∈ q.path
      · have hcond : q.scheme ∈ usesParams ∧ ';' ∈ rp := by
          constructor
          · rw [h1]
            exact hc.1
          · rw [hrp2]
            exact hsemi
        rw [if_pos hcond, hrp2]
        rw [splitParams_self s.path q.path q.params hsp hpre]
        dsimp only
        rw [hpre]
      · have hcond : ¬ (q.scheme ∈ usesParams ∧ ';' ∈ rp) := by
          rw [hrp2]
          exact fun hx => hsemi hx.2
        rw [if_neg hcond]
        dsimp only
        rw [hrp2, hpre]


theorem partAfter_ne_nil (sep : Char) (x : PyStr) (h : partAfter sep x ≠ []) :
    sep ∈ x := by
  unfold partAfter at h
  cases hs : splitFirst sep x with
  | none =>
    rw [hs] at h
    exact absurd rfl h
  | some p =>
    obtain ⟨a, b⟩ := p
    obtain ⟨hx, -⟩ := splitFirst_eq_some sep x a b hs
    rw [hx]
    exact List.mem_append_right _ (List.mem_cons_self _ _)

theorem cleanUrl_subset (u : PyStr) : ∀ c ∈ cleanUrl u, c ∈ u := by
  intro c hc
  unfold cleanUrl at hc
  exact dropWhile_subset_mem _ _ _ (List.mem_of_mem_filter hc)

theorem splitNetlocTail_frag_sep (scheme rest : PyStr) (s : SplitResult)
    (h : splitNetlocTail scheme rest = .ok s) (hne : s.fragment ≠ []) :
    '#' ∈ rest := by
  unfold splitNetlocTail at h
  by_cases htk : rest.take 2 = ['/', '/']
  · rw [if_pos htk] at h
    dsimp only at h
    set T := (rest.drop 2).dropWhile (fun c => ¬ isNetlocEnd c) with hT
    split at h
    · cases h
    · split at h
      · cases h
      · rw [match_split_eq_parts, match_split_eq_parts] at h
        injection h with h
        subst h
        dsimp only at hne
        exact drop_subset_mem 2 rest _ (dropWhile_subset_mem _ _ _
          (partAfter_ne_nil '#' T hne))
  · rw [if_neg htk] at h
    dsimp only at h
    rw [if_neg (by simp), if_neg (by simp)] at h
    rw [match_split_eq_parts, match_split_eq_parts] at h
    injection h with h
    subst h
    dsimp only at hne
    exact partAfter_ne_nil '#' rest hne

theorem urlsplit_frag_empty (u d : PyStr) (s : SplitResult)
    (h : pyUrlsplitD u d = .ok s) (hu : '#' ∉ u) : s.fragment = [] := by
  by_cases hfs : s.fragment = []
  · exact hfs
  · exfalso
    unfold pyUrlsplitD at h
    dsimp only at h
    rcases hsr : schemeSplit (cleanUrl u) (cleanScheme d) with ⟨sch, rest⟩
    rw [hsr] at h
    dsimp only at h
    exact hu (cleanUrl_subset u '#'
      (schemeSplit_rest_subset _ _ _ _ hsr '#'
        (splitNetlocTail_frag_sep sch rest s h hfs)))

theorem pyUrlparse_frag_empty (u d : PyStr) (q : ParseResult)
    (h : pyUrlparseD u d = .ok q) (hu : '#' ∉ u) : q.fragment = [] := by
  obtain ⟨s, hs, -, -, -, h4, -⟩ := pyUrlparseD_ok_elim u d q h
  rw [h4]
  exact urlsplit_frag_empty u d s hs hu

theorem parse_raw_inv (u d : PyStr) (q : ParseResult)
    (hd1 : d.all isSchemeChar = true) (hd2 : pyLower d = d)
    (hd3 : d = [] ∨ schemeHeadOk d = true)
    (h : pyUrlparseD u d = .ok q) :
    SplitInv ⟨q.scheme, q.netloc,
      (if q.params ≠ [] then q.path ++ ';' :: q.params else q.path),
      q.query, []⟩ := by
  obtain ⟨s, hs, h1, h2, h3, h4, h5⟩ := pyUrlparseD_ok_elim u d q h
  have hinv := splitInv_of_ok u d s hd1 hd2 hd3 hs
  set rp : PyStr := if q.params ≠ [] then q.path ++ ';' :: q.params else q.path with hrp
  have hP1 : ∀ c ∈ rp, c ∈ s.path := by
    rw [hrp]
    by_cases hpr : q.params ≠ []
    · rw [if_pos hpr]
      rcases h5 with ⟨-, -, hpr0⟩ | ⟨-, hsp⟩
      · exact absurd hpr0 hpr
      · have hglue := splitParams_snd_ne _ _ _ hsp hpr
        rw [← hglue]
        exact fun c hc => hc
    · rw [if_neg hpr]
      rcases h5 with ⟨-, hp, -⟩ | ⟨-, hsp⟩
      · rw [hp]
        exact fun c hc => hc
      · exact splitParams_fst_subset _ _ _ hsp
  have hP2 : rp = [] ∨ rp.head? = s.path.head? := by
    rw [hrp]
    by_cases hpr : q.params ≠ []
    · rw [if_pos hpr]
      rcases h5 with ⟨-, -, hpr0⟩ | ⟨-, hsp⟩
      · exact absurd hpr0 hpr
      · have hglue := splitParams_snd_ne _ _ _ hsp hpr
        rw [← hglue]
        exact Or.inr rfl
    · rw [if_neg hpr]
      rcases h5 with ⟨-, hp, -⟩ | ⟨-, hsp⟩
      · rw [hp]
        exact Or.inr rfl
      · exact splitParams_head _ _ _ hsp
  exact
    { scheme_lower := by
        show pyLower q.scheme = q.scheme
        rw [h1]
        exact hinv.scheme_lower
      scheme_chars := by
        show q.scheme.all isSchemeChar = true
        rw [h1]
        exact hinv.scheme_chars
      scheme_head := by
        show q.scheme = [] ∨ schemeHeadOk q.scheme = true
        rw [h1]
        exact hinv.scheme_head
      netloc_clean := by
        show ∀ c ∈ q.netloc, isNetlocEnd c = false
        rw [h2]
        exact hinv.netloc_clean
      netloc_br := by
        show bracketsOk q.netloc
        rw [h2]
        exact hinv.netloc_br
      path_hash := by
        show '#' ∉ rp
        intro hm
        exact hinv.path_hash (hP1 _ hm)
      path_q := by
        show '?' ∉ rp
        intro hm
        exact hinv.path_q (hP1 _ hm)
      query_hash := by
        show '#' ∉ q.query
        rw [h3]
        exact hinv.query_hash
      netloc_unsafe := by
        show ∀ c ∈ q.netloc, isUnsafeUrlByte c = false
        rw [h2]
        exact hinv.netloc_unsafe
      path_unsafe := by
        show ∀ c ∈ rp, isUnsafeUrlByte c = false
        intro c hc
        exact hinv.path_unsafe c (hP1 c hc)
      query_unsafe := by
        show ∀ c ∈ q.query, isUnsafeUrlByte c = false
        rw [h3]
        exact hinv.query_unsafe
      path_slash := by
        show q.netloc ≠ [] → rp = [] ∨ rp.head? = some '/'
        intro hnl
        rcases hP2 with h0 | h0
        · exact Or.inl h0
        · rcases hinv.path_slash (by rw [← h2]; exact hnl) with h9 | h9
          · left
            rw [h9] at h0
            exact List.head?_eq_none_iff.mp h0
          · right
            rw [h0, h9] }

theorem unsplit_no_hash_of_inv (s : SplitResult) (hinv : SplitInv s) :
    '#' ∉ pyUrlunsplit s.scheme s.netloc s.path s.query [] := by
  apply unsplit_not_mem
  · intro hm
    exact absurd (List.all_eq_true.mp hinv.scheme_chars _ hm) (by decide)
  · intro hm
    exact absurd (hinv.netloc_clean _ hm) (by decide)
  · exact hinv.path_hash
  · exact hinv.query_hash
  · decide
  · decide
  · decide

theorem defrag_unparse (u d : PyStr) (q : ParseResult)
    (hd1 : d.all isSchemeChar = true) (hd2 : pyLower d = d)
    (hd3 : d = [] ∨ schemeHeadOk d = true)
    (h : pyUrlparseD u d = .ok q) (hn : q.netloc ≠ []) :
    pyUrldefrag (pyUrlunparse q) = .ok (pyUrlunparse { q with fragment := [] }) := by
  have hinv2 := parse_raw_inv u d q hd1 hd2 hd3 h
  have hWhash := unsplit_no_hash_of_inv _ hinv2
  cases hfq : q.fragment with
  | nil =>
    have heq : ({ q with fragment := [] } : ParseResult) = q := by
      rw [← hfq]
    rw [heq]
    have hnu : pyUrlunparse q =
        pyUrlunsplit q.scheme q.netloc
          (if q.params ≠ [] then q.path ++ ';' :: q.params else q.path) q.query [] := by
      unfold pyUrlunparse
      rw [hfq]
    unfold pyUrldefrag
    rw [if_neg (by rw [hnu]; exact hWhash)]
  | cons fc ft =>
    have hfu : ∀ c ∈ q.fragment, isUnsafeUrlByte c = false := by
      obtain ⟨s, hs, -, -, -, h4, -⟩ := pyUrlparseD_ok_elim u d q h
      intro c hc
      exact urlsplit_frag_unsafe u d s hs c (h4 ▸ hc)
    have hnu : pyUrlunparse q =
        pyUrlunsplit q.scheme q.netloc
          (if q.params ≠ [] then q.path ++ ';' :: q.params else q.path) q.query []
          ++ '#' :: q.fragment := by
      unfold pyUrlunparse
      rw [unsplit_frag_decomp _ _ _ _ _ (by rw [hfq]; exact List.cons_ne_nil _ _)]
    unfold pyUrldefrag
    rw [if_pos (by rw [hnu]; exact List.mem_append_right _ (List.mem_cons_self _ _))]
    have hqq : ({ q with fragment := q.fragment } : ParseResult) = q := rfl
    have hre := reparse_roundtrip u d q hd1 hd2 hd3 h hn q.fragment hfu
    rw [hqq] at hre
    unfold pyUrlparse
    rw [hre]
    simp only [Bind.bind, Except.bind]

theorem normalizeFromU (u : PyStr) (q : ParseResult)
    (h : pyUrlparseD u [] = .ok q) (hn : q.netloc ≠ []) :
    ∃ joined, pyUrldefrag u = .ok joined ∧
      pyUrlparse joined = .ok { q with fragment := [] } := by
  by_cases hu : '#' ∈ u
  · refine ⟨pyUrlunparse { q with fragment := [] }, ?_, ?_⟩
    · unfold pyUrldefrag
      rw [if_pos hu]
      unfold pyUrlparse
      rw [h]
      simp only [Bind.bind, Except.bind]
    · exact reparse_roundtrip u [] q rfl rfl (Or.inl rfl) h hn []
        (fun c hc => absurd hc (List.not_mem_nil c))
  · refine ⟨u, ?_, ?_⟩
    · unfold pyUrldefrag
      rw [if_neg hu]
    · have hfq := pyUrlparse_frag_empty u [] q h hu
      have heq : ({ q with fragment := [] } : ParseResult) = q := by
        rw [← hfq]
      rw [heq]
      exact h


theorem usesRelative_sub_usesNetloc : ∀ s ∈ usesRelative, s ∈ usesNetloc := by
  decide

theorem parse_scheme_props (x : PyStr) (b : ParseResult)
    (h : pyUrlparseD x [] = .ok b) :
    b.scheme.all isSchemeChar = true ∧ pyLower b.scheme = b.scheme ∧
      (b.scheme = [] ∨ schemeHeadOk b.scheme = true) := by
  obtain ⟨s, hs, h1, -, -, -, -⟩ := pyUrlparseD_ok_elim x [] b h
  have hinv := splitInv_of_ok x [] s rfl rfl (Or.inl rfl) hs
  rw [h1]
  exact ⟨hinv.scheme_chars, hinv.scheme_lower, hinv.scheme_head⟩

theorem normalize_url_stage (u base : PyStr) (q : ParseResult)
    (hu : u ≠ []) (h : pyUrlparseD u [] = .ok q)
    (hqs : q.scheme ≠ []) (hn : q.netloc ≠ []) :
    normalize_url u base =
      match pyUrlparseD base [] with
      | .error e => .error e
      | .ok _ => normalizeCore { q with fragment := [] } := by
  unfold normalize_url
  rw [if_neg hu]
  by_cases hbne : base = []
  · subst hbne
    have hj : pyUrljoin [] u = .ok u := by
      unfold pyUrljoin
      rw [if_pos rfl]
    rw [hj]
    simp only [Bind.bind, Except.bind]
    obtain ⟨joined, hdj, hpj⟩ := normalizeFromU u q h hn
    rw [hdj]
    simp only [Bind.bind, Except.bind]
    rw [hpj]
    rw [show pyUrlparseD ([] : PyStr) [] = .ok (⟨[], [], [], [], [], []⟩ : ParseResult) from rfl]
    rfl
  · cases hb : pyUrlparseD base [] with
    | error e =>
      have hj : pyUrljoin base u = .error e := by
        unfold pyUrljoin
        rw [if_neg hbne, if_neg hu, hb]
        simp only [Bind.bind, Except.bind]
      rw [hj]
      simp only [Bind.bind, Except.bind]
    | ok b =>
      have hq2 : pyUrlparseD u b.scheme = .ok q := pyUrlparseD_dflt u b.scheme q h hqs
      by_cases hbr : q.scheme ≠ b.scheme ∨ q.scheme ∉ usesRelative
      · have hj : pyUrljoin base u = .ok u := by
          unfold pyUrljoin
          rw [if_neg hbne, if_neg hu, hb]
          simp only [Bind.bind, Except.bind]
          rw [hq2]
          simp only [Bind.bind, Except.bind]
          rw [if_pos hbr]
        rw [hj]
        simp only [Bind.bind, Except.bind]
        obtain ⟨joined, hdj, hpj⟩ := normalizeFromU u q h hn
        rw [hdj]
        simp only [Bind.bind, Except.bind]
        rw [hpj]
        rfl
      · have hrel : q.scheme ∈ usesRelative := by
          push_neg at hbr
          exact hbr.2
        have hnet : q.scheme ∈ usesNetloc := usesRelative_sub_usesNetloc _ hrel
        obtain ⟨g1, g2, g3⟩ := parse_scheme_props base b hb
        have hj : pyUrljoin base u = .ok (pyUrlunparse q) := by
          unfold pyUrljoin
          rw [if_neg hbne, if_neg hu, hb]
          simp only [Bind.bind, Except.bind]
          rw [hq2]
          simp only [Bind.bind, Except.bind]
          rw [if_neg hbr, if_pos ⟨hnet, hn⟩]
        rw [hj]
        simp only [Bind.bind, Except.bind]
        have hdj := defrag_unparse u b.scheme q g1 g2 g3 hq2 hn
        rw [hdj]
        simp only [Bind.bind, Except.bind]
        have hpj := reparse_roundtrip u b.scheme q g1 g2 g3 hq2 hn []
          (fun c hc => absurd hc (List.not_mem_nil c))
        unfold pyUrlparse
        rw [hpj]
        rfl


theorem rebuild_eq_render (sch host : PyStr) (v : Option Nat) :
    (if (sch = "http".data ∧ v = some 80) ∨ (sch = "https".data ∧ v = some 443)
      then host
      else
        match v with
        | some p => if p ≠ 0 then host ++ ':' :: natDigits p else host
        | none => host) =
    (match portNorm sch v with
      | some p => host ++ ':' :: natDigits p
      | none => host) := by
  cases v with
  | none =>
    rw [if_neg (by rintro (⟨-, hx⟩ | ⟨-, hx⟩) <;> cases hx)]
    rfl
  | some p =>
    by_cases h1 : (sch = "http".data ∧ p = 80) ∨ (sch = "https".data ∧ p = 443) ∨ p = 0
    · have hpn : portNorm sch (some p) = none := by
        show (if (sch = "http".data ∧ p = 80) ∨ (sch = "https".data ∧ p = 443) ∨ p = 0
          then none else some p) = none
        rw [if_pos h1]
      rw [hpn]
      rcases h1 with ⟨ha, hb⟩ | ⟨ha, hb⟩ | h0
      · rw [if_pos (Or.inl ⟨ha, by rw [hb]⟩)]
      · rw [if_pos (Or.inr ⟨ha, by rw [hb]⟩)]
      · subst h0
        rw [if_neg (by rintro (⟨-, hx⟩ | ⟨-, hx⟩) <;> exact absurd hx (by decide))]
        dsimp only
        rw [if_neg (by simp)]
    · have hpn : portNorm sch (some p) = some p := by
        show (if (sch = "http".data ∧ p = 80) ∨ (sch = "https".data ∧ p = 443) ∨ p = 0
          then none else some p) = some p
        rw [if_neg h1]
      rw [hpn]
      have hp0 : p ≠ 0 := fun h0 => h1 (Or.inr (Or.inr h0))
      rw [if_neg (fun hc => h1 (by
        rcases hc with ⟨ha, hb⟩ | ⟨ha, hb⟩
        · exact Or.inl ⟨ha, by injection hb⟩
        · exact Or.inr (Or.inl ⟨ha, by injection hb⟩)))]
      dsimp only
      rw [if_pos hp0]

theorem normalizeCore_cong (t1 t2 : ParseResult) (v1 v2 : Option Nat)
    (hs : t1.scheme = t2.scheme) (hpath : t1.path = t2.path)
    (hparams : t1.params = t2.params) (hquery : t1.query = t2.query)
    (hhost : pyLower ((pyHostname t1.netloc).getD []) =
      pyLower ((pyHostname t2.netloc).getD []))
    (hp1 : pyPort t1.netloc = .ok v1) (hp2 : pyPort t2.netloc = .ok v2)
    (hpn : portNorm t1.scheme v1 = portNorm t2.scheme v2) :
    normalizeCore t1 = normalizeCore t2 := by
  rw [hs] at hpn
  unfold normalizeCore
  dsimp only
  rw [hs, hpath, hparams, hquery, hp1, hp2]
  simp only [Bind.bind, Except.bind]
  rw [hhost]
  rw [rebuild_eq_render t2.scheme (pyLower ((pyHostname t2.netloc).getD [])) v1,
      rebuild_eq_render t2.scheme (pyLower ((pyHostname t2.netloc).getD [])) v2,
      hpn]


theorem afterLast_subset (sep : Char) (s : PyStr) : ∀ c ∈ afterLast sep s, c ∈ s := by
  unfold afterLast
  cases hr : rsplitLast sep s with
  | none => exact fun c hc => hc
  | some p =>
    obtain ⟨a, b⟩ := p
    obtain ⟨hs2, -⟩ := rsplitLast_eq_some sep s a b hr
    intro c hc
    rw [hs2]
    exact List.mem_append_right _ (List.mem_cons_of_mem _ hc)

theorem pyHostinfo_fst_subset (n hst : PyStr) (prt : Option PyStr)
    (h : pyHostinfo n = (hst, prt)) : ∀ c ∈ hst, c ∈ n := by
  unfold pyHostinfo at h
  dsimp only at h
  by_cases hbr : '[' ∈ afterLast '@' n
  · rw [if_pos hbr] at h
    injection h with h1 h2
    subst h1
    intro c hc
    exact afterLast_subset '@' n c
      (partAfter_subset '[' _ _ (partBefore_subset ']' _ _ hc))
  · rw [if_neg hbr] at h
    cases hsp : splitFirst ':' (afterLast '@' n) with
    | some p =>
      obtain ⟨a, b⟩ := p
      rw [hsp] at h
      dsimp only at h
      injection h with h1 h2
      subst h1
      intro c hc
      exact afterLast_subset '@' n c ((splitFirst_parts_subset ':' _ a b hsp).1 c hc)
    | none =>
      rw [hsp] at h
      dsimp only at h
      injection h with h1 h2
      subst h1
      exact afterLast_subset '@' n

theorem pyHostname_getD_not_mem (n : PyStr) (x : Char)
    (hx : ¬ (97 ≤ x.toNat ∧ x.toNat ≤ 122)) (hxm : x ∉ n) :
    x ∉ (pyHostname n).getD [] := by
  unfold pyHostname
  dsimp only
  rcases hpi : pyHostinfo n with ⟨hst, prt⟩
  have hsub := pyHostinfo_fst_subset n hst prt hpi
  dsimp only
  by_cases hh : hst = []
  · rw [if_pos hh]
    exact List.not_mem_nil x
  · rw [if_neg hh]
    cases hsp : splitFirst '%' hst with
    | some p =>
      obtain ⟨pre, post⟩ := p
      dsimp only
      intro hm
      rcases List.mem_append.mp hm with hm | hm
      · exact absurd hm (not_mem_pyLower x hx pre (fun hm2 =>
          hxm (hsub x ((splitFirst_parts_subset '%' hst pre post hsp).1 x hm2))))
      · rcases List.mem_cons.mp hm with hm | hm
        · subst hm
          obtain ⟨he, -⟩ := splitFirst_eq_some '%' hst pre post hsp
          exact hxm (hsub '%' (by
            rw [he]
            exact List.mem_append_right _ (List.mem_cons_self _ _)))
        · exact hxm (hsub x ((splitFirst_parts_subset '%' hst pre post hsp).2 x hm))
    | none =>
      dsimp only
      exact not_mem_pyLower x hx hst (fun hm => hxm (hsub x hm))

theorem newNetloc_not_mem (x : Char) (n sch : PyStr) (v : Option Nat)
    (hx : ¬ (97 ≤ x.toNat ∧ x.toNat ≤ 122)) (hxm : x ∉ n)
    (hxd : x.isDigit = false) (hxc : x ≠ ':') :
    x ∉ (if (sch = "http".data ∧ v = some 80) ∨ (sch = "https".data ∧ v = some 443)
         then pyLower ((pyHostname n).getD [])
         else match v with
           | some p => if p ≠ 0 then pyLower ((pyHostname n).getD []) ++ ':' :: natDigits p
                       else pyLower ((pyHostname n).getD [])
           | none => pyLower ((pyHostname n).getD [])) := by
  have hhost : x ∉ pyLower ((pyHostname n).getD []) :=
    not_mem_pyLower x hx _ (pyHostname_getD_not_mem n x hx hxm)
  by_cases hc : (sch = "http".data ∧ v = some 80) ∨ (sch = "https".data ∧ v = some 443)
  · rw [if_pos hc]
    exact hhost
  · rw [if_neg hc]
    cases v with
    | none => exact hhost
    | some p =>
      dsimp only
      by_cases hp : p ≠ 0
      · rw [if_pos hp]
        intro hm
        rcases List.mem_append.mp hm with hm | hm
        · exact hhost hm
        · rcases List.mem_cons.mp hm with hm | hm
          · exact hxc hm
          · have hd := natDigits_digit p x hm
            rw [hxd] at hd
            cases hd
      · rw [if_neg hp]
        exact hhost

theorem outPath_not_mem (x : Char) (pa pr : PyStr)
    (hxp : x ∉ pa) (hxpr : x ∉ pr) (hxs : x ≠ '/') (hxsemi : x ≠ ';') :
    x ∉ (if pr ≠ [] then (if pa = [] then ['/'] else pa) ++ ';' :: pr
         else (if pa = [] then ['/'] else pa)) := by
  have hpath : x ∉ (if pa = [] then ['/'] else pa) := by
    by_cases h : pa = []
    · rw [if_pos h]
      intro hm
      rcases List.mem_cons.mp hm with hm | hm
      · exact hxs hm
      · cases hm
    · rw [if_neg h]
      exact hxp
  by_cases h : pr ≠ []
  · rw [if_pos h]
    intro hm
    rcases List.mem_append.mp hm with hm | hm
    · exact hpath hm
    · rcases List.mem_cons.mp hm with hm | hm
      · exact hxsemi hm
      · exact hxpr hm
  · rw [if_neg h]
    exact hpath

theorem raw_path_parts (q : ParseResult) :
    (∀ c ∈ q.path, c ∈ (if q.params ≠ [] then q.path ++ ';' :: q.params else q.path)) ∧
    (∀ c ∈ q.params, c ∈ (if q.params ≠ [] then q.path ++ ';' :: q.params else q.path)) := by
  by_cases h : q.params ≠ []
  · rw [if_pos h]
    exact ⟨fun c hc => List.mem_append_left _ hc,
      fun c hc => List.mem_append_right _ (List.mem_cons_of_mem _ hc)⟩
  · rw [if_neg h]
    refine ⟨fun c hc => hc, ?_⟩
    intro c hc
    rw [not_ne_iff.mp h] at hc
    cases hc

theorem normalizeCore_ok_elim (parsed : ParseResult) (out : PyStr)
    (h : normalizeCore parsed = .ok (some out)) :
    ∃ v : Option Nat,
      (parsed.scheme = "http".data ∨ parsed.scheme = "https".data) ∧
      pyPort parsed.netloc = .ok v ∧
      out = pyUrlunparse
        ⟨pyLower parsed.scheme,
         (if (parsed.scheme = "http".data ∧ v = some 80) ∨
             (parsed.scheme = "https".data ∧ v = some 443)
          then pyLower ((pyHostname parsed.netloc).getD [])
          else match v with
            | some p => if p ≠ 0
                then pyLower ((pyHostname parsed.netloc).getD []) ++ ':' :: natDigits p
                else pyLower ((pyHostname parsed.netloc).getD [])
            | none => pyLower ((pyHostname parsed.netloc).getD [])),
         (if parsed.path = [] then ['/'] else parsed.path),
         parsed.params, parsed.query, []⟩ := by
  unfold normalizeCore at h
  dsimp only at h
  by_cases hc1 : parsed.scheme ≠ "http".data ∧ parsed.scheme ≠ "https".data
  · rw [if_pos hc1] at h
    injection h with h
    cases h
  · rw [if_neg hc1] at h
    by_cases hc2 : (SKIP_EXTENSIONS.any fun ext => List.isSuffixOf ext (pyLower parsed.path)) = true
    · rw [if_pos hc2] at h
      injection h with h
      cases h
    · rw [if_neg hc2] at h
      cases hport : pyPort parsed.netloc with
      | error e =>
        rw [hport] at h
        simp only [Bind.bind, Except.bind] at h
        cases h
      | ok v =>
        rw [hport] at h
        simp only [Bind.bind, Except.bind] at h
        injection h with h
        injection h with h
        refine ⟨v, by tauto, rfl, h.symm⟩

theorem normalizeCore_no_hash (parsed : ParseResult)
    (hinv : SplitInv ⟨parsed.scheme, parsed.netloc,
      (if parsed.params ≠ [] then parsed.path ++ ';' :: parsed.params else parsed.path),
      parsed.query, []⟩)
    (out : PyStr) (h : normalizeCore parsed = .ok (some out)) : '#' ∉ out := by
  obtain ⟨v, hsch, hport, hout⟩ := normalizeCore_ok_elim parsed out h
  subst hout
  unfold pyUrlunparse
  dsimp only
  have hpp := raw_path_parts parsed
  have hpath : '#' ∉ parsed.path := fun hm => hinv.path_hash (hpp.1 _ hm)
  have hparams : '#' ∉ parsed.params := fun hm => hinv.path_hash (hpp.2 _ hm)
  have hnet : '#' ∉ parsed.netloc := fun hm =>
    absurd (hinv.netloc_clean _ hm) (by decide)
  apply unsplit_not_mem
  · rcases hsch with h0 | h0 <;> rw [h0] <;> decide
  · exact newNetloc_not_mem '#' parsed.netloc parsed.scheme v (by decide) hnet
      (by decide) (by decide)
  · exact outPath_not_mem '#' parsed.path parsed.params hpath hparams
      (by decide) (by decide)
  · exact hinv.query_hash
  · decide
  · decide
  · decide

theorem unsplit_noquery_no_qmark (sch n p : PyStr)
    (h1 : '?' ∉ sch) (h2 : '?' ∉ n) (h3 : '?' ∉ p) :
    '?' ∉ pyUrlunsplit sch n p [] [] := by
  unfold pyUrlunsplit
  dsimp only
  rw [if_neg (by simp : ¬ (([] : PyStr) ≠ [])), if_neg (by simp : ¬ (([] : PyStr) ≠ []))]
  have hZ : '?' ∉ (if p ≠ [] ∧ List.head? p ≠ some '/' then '/' :: p else p) := by
    by_cases h : p ≠ [] ∧ List.head? p ≠ some '/'
    · rw [if_pos h]
      intro hm
      rcases List.mem_cons.mp hm with hm | hm
      · exact absurd hm (by decide)
      · exact h3 hm
    · rw [if_neg h]
      exact h3
  have hY : '?' ∉ (if n ≠ [] ∨ sch ≠ [] ∧ sch ∈ usesNetloc ∧ List.take 2 p ≠ ['/', '/'] then
        '/' :: '/' :: n ++ (if p ≠ [] ∧ List.head? p ≠ some '/' then '/' :: p else p)
      else p) := by
    by_cases h : n ≠ [] ∨ sch ≠ [] ∧ sch ∈ usesNetloc ∧ List.take 2 p ≠ ['/', '/']
    · rw [if_pos h]
      intro hm
      rcases List.mem_cons.mp hm with hm | hm
      · exact absurd hm (by decide)
      rcases List.mem_cons.mp hm with hm | hm
      · exact absurd hm (by decide)
      rcases List.mem_append.mp hm with hm | hm
      · exact h2 hm
      · exact hZ hm
    · rw [if_neg h]
      exact h3
  by_cases h : sch ≠ []
  · rw [if_pos h]
    intro hm
    rcases List.mem_append.mp hm with hm | hm
    · exact h1 hm
    rcases List.mem_cons.mp hm with hm | hm
    · exact absurd hm (by decide)
    · exact hY hm
  · rw [if_neg h]
    exact hY

theorem normalizeCore_query (parsed : ParseResult)
    (hinv : SplitInv ⟨parsed.scheme, parsed.netloc,
      (if parsed.params ≠ [] then parsed.path ++ ';' :: parsed.params else parsed.path),
      parsed.query, []⟩)
    (out : PyStr) (h : normalizeCore parsed = .ok (some out))
    (hq : parsed.query ≠ []) :
    ∃ W, '?' ∉ W ∧ out = W ++ '?' :: parsed.query := by
  obtain ⟨v, hsch, hport, hout⟩ := normalizeCore_ok_elim parsed out h
  subst hout
  unfold pyUrlunparse
  dsimp only
  refine ⟨_, ?_, unsplit_query_decomp _ _ _ _ hq⟩
  have hpp := raw_path_parts parsed
  have hpath : '?' ∉ parsed.path := fun hm => hinv.path_q (hpp.1 _ hm)
  have hparams : '?' ∉ parsed.params := fun hm => hinv.path_q (hpp.2 _ hm)
  have hnet : '?' ∉ parsed.netloc := fun hm =>
    absurd (hinv.netloc_clean _ hm) (by decide)
  apply unsplit_noquery_no_qmark
  · rcases hsch with h0 | h0 <;> rw [h0] <;> decide
  · exact newNetloc_not_mem '?' parsed.netloc parsed.scheme v (by decide) hnet
      (by decide) (by decide)
  · exact outPath_not_mem '?' parsed.path parsed.params hpath hparams
      (by decide) (by decide)

theorem normalize_no_hash (u base out : PyStr)
    (h : normalize_url u base = .ok (some out)) : '#' ∉ out := by
  unfold normalize_url at h
  by_cases hu : u = []
  · rw [if_pos hu] at h
    injection h with h
    cases h
  · rw [if_neg hu] at h
    cases hj : pyUrljoin base u with
    | error e =>
      rw [hj] at h
      simp only [Bind.bind, Except.bind] at h
      cases h
    | ok j =>
      rw [hj] at h
      simp only [Bind.bind, Except.bind] at h
      cases hd : pyUrldefrag j with
      | error e =>
        rw [hd] at h
        simp only [Bind.bind, Except.bind] at h
        cases h
      | ok joined =>
        rw [hd] at h
        simp only [Bind.bind, Except.bind] at h
        cases hp : pyUrlparse joined with
        | error e =>
          rw [hp] at h
          simp only [Bind.bind, Except.bind] at h
          cases h
        | ok parsed =>
          rw [hp] at h
          simp only [Bind.bind, Except.bind] at h
          have hcore : normalizeCore parsed = .ok (some out) := h
          have hinv := parse_raw_inv joined [] parsed rfl rfl (Or.inl rfl) hp
          exact normalizeCore_no_hash parsed hinv out hcore


/-- C2 (corrected): two nonempty absolute URLs whose parses agree on the
(lower-cased) scheme, on the lower-cased hostname, on the
default-port-normalized port, and on path, params and query — while their
fragments may differ arbitrarily — canonicalize to the identical result
against every base; every successful canonicalization output is
fragment-free; and the query of the input is preserved verbatim as the
part after the single `?` of the output. -/
theorem c2_canonicalization_invariants
    (u1 u2 : PyStr) (q1 q2 : ParseResult) (v1 v2 : Option Nat)
    (hu1 : u1 ≠ []) (hu2 : u2 ≠ [])
    (h1 : pyUrlparseD u1 [] = .ok q1) (h2 : pyUrlparseD u2 [] = .ok q2)
    (hs1 : q1.scheme ≠ []) (hss : q1.scheme = q2.scheme)
    (hn1 : q1.netloc ≠ []) (hn2 : q2.netloc ≠ [])
    (hhost : pyLower ((pyHostname q1.netloc).getD []) =
      pyLower ((pyHostname q2.netloc).getD []))
    (hp1 : pyPort q1.netloc = .ok v1) (hp2 : pyPort q2.netloc = .ok v2)
    (hpn : portNorm q1.scheme v1 = portNorm q2.scheme v2)
    (hpath : q1.path = q2.path) (hparams : q1.params = q2.params)
    (hquery : q1.query = q2.query) :
    (∀ base, normalize_url u1 base = normalize_url u2 base) ∧
    (∀ u base out, normalize_url u base = .ok (some out) → '#' ∉ out) ∧
    (∀ base out, normalize_url u1 base = .ok (some out) → q1.query ≠ [] →
      ∃ W, '?' ∉ W ∧ out = W ++ '?' :: q1.query) := by
  refine ⟨?_, fun u base out h => normalize_no_hash u base out h, ?_⟩
  · intro base
    rw [normalize_url_stage u1 base q1 hu1 h1 hs1 hn1,
        normalize_url_stage u2 base q2 hu2 h2 (by rw [← hss]; exact hs1) hn2]
    cases pyUrlparseD base [] with
    | error e => rfl
    | ok b =>
      exact normalizeCore_cong _ _ v1 v2 hss hpath hparams hquery hhost hp1 hp2 hpn
  · intro base out hout hq
    rw [normalize_url_stage u1 base q1 hu1 h1 hs1 hn1] at hout
    cases hb : pyUrlparseD base [] with
    | error e =>
      rw [hb] at hout
      cases hout
    | ok b =>
      rw [hb] at hout
      have hinv := parse_raw_inv u1 [] q1 rfl rfl (Or.inl rfl) h1
      exact normalizeCore_query { q1 with fragment := [] } hinv out hout hq

/-- C2 as originally stated is false: the inputs `""` and `"#f"` differ
only by a fragment, yet against the base `http://e.com/x` the first
canonicalizes to `None` and the second to `http://e.com/x`. -/
theorem c2_counterexample :
    ("#f".data = ([] : PyStr) ++ '#' :: "f".data) ∧
    normalize_url [] ("http://e.com/x").data ≠
      normalize_url ("#f".data) ("http://e.com/x").data := by
  constructor
  · rfl
  · decide

/-- Witness for C2: a concrete equivalent pair (case of host, default
port `:80`, fragment) canonicalizes identically. -/
theorem c2_witness :
    normalize_url ("http://Example.com:80/x?q=1#a").data ("http://e.com/").data =
      normalize_url ("http://example.com/x?q=1").data ("http://e.com/").data :=
  (c2_canonicalization_invariants
    ("http://Example.com:80/x?q=1#a").data ("http://example.com/x?q=1").data
    ⟨"http".data, "Example.com:80".data, "/x".data, [], "q=1".data, "a".data⟩
    ⟨"http".data, "example.com".data, "/x".data, [], "q=1".data, []⟩
    (some 80) none
    (by decide) (by decide) (by decide) (by decide) (by decide) (by decide)
    (by decide) (by decide) (by decide) (by decide) (by decide) (by decide)
    (by decide) (by decide) (by decide)).1 ("http://e.com/").data


theorem natDigitsAux_congr : ∀ f1 f2 n, n < f1 → n < f2 →
    natDigitsAux f1 n = natDigitsAux f2 n := by
  intro f1
  induction f1 with
  | zero =>
    intro f2 n h1 h2
    exact absurd h1 (Nat.not_lt_zero n)
  | succ k ih =>
    intro f2 n h1 h2
    cases f2 with
    | zero => exact absurd h2 (Nat.not_lt_zero n)
    | succ k2 =>
      unfold natDigitsAux
      by_cases h : n < 10
      · rw [if_pos h, if_pos h]
      · rw [if_neg h, if_neg h]
        rw [ih k2 (n / 10) (by omega) (by omega)]

theorem natDigitsAux_fuel (k n : Nat) (hk : n < k) :
    natDigitsAux k n = natDigits n :=
  natDigitsAux_congr k (n + 1) n hk (Nat.lt_succ_self n)

theorem decimalValue_natDigits : ∀ p, decimalValue (natDigits p) = p := by
  intro p
  induction p using Nat.strong_induction_on with
  | _ p ih =>
    unfold natDigits natDigitsAux
    by_cases h : p < 10
    · rw [if_pos h]
      show 0 * 10 + ((Char.ofNat (48 + p)).toNat - 48) = p
      rw [toNat_ofNat_lt (48 + p) (by omega)]
      omega
    · rw [if_neg h]
      rw [natDigitsAux_fuel p (p / 10) (by omega)]
      unfold decimalValue
      rw [List.foldl_append]
      have hih := ih (p / 10) (Nat.div_lt_self (by omega) (by omega))
      unfold decimalValue at hih
      rw [hih]
      show (p / 10) * 10 + ((Char.ofNat (48 + p % 10)).toNat - 48) = p
      rw [toNat_ofNat_lt (48 + p % 10) (by omega)]
      omega

theorem natDigitsAux_bounds :
    ∀ fuel n, ∀ c ∈ natDigitsAux fuel n, 48 ≤ c.toNat ∧ c.toNat ≤ 57 := by
  intro fuel
  induction fuel with
  | zero =>
    intro n c hc
    unfold natDigitsAux at hc
    exact absurd hc (List.not_mem_nil c)
  | succ k ih =>
    intro n c hc
    unfold natDigitsAux at hc
    by_cases h : n < 10
    · rw [if_pos h] at hc
      rcases List.mem_cons.mp hc with hc | hc
      · subst hc
        rw [toNat_ofNat_lt _ (by omega)]
        omega
      · cases hc
    · rw [if_neg h] at hc
      rcases List.mem_append.mp hc with hc | hc
      · exact ih (n / 10) c hc
      · rcases List.mem_cons.mp hc with hc | hc
        · subst hc
          rw [toNat_ofNat_lt _ (by omega)]
          omega
        · cases hc

theorem natDigits_not_mem (p : Nat) (x : Char)
    (hx : ¬ (48 ≤ x.toNat ∧ x.toNat ≤ 57)) : x ∉ natDigits p :=
  fun hm => hx (natDigitsAux_bounds (p + 1) p x hm)

theorem pyPort_le (n : PyStr) (p : Nat) (h : pyPort n = .ok (some p)) :
    p ≤ 65535 := by
  unfold pyPort at h
  cases h2 : (pyHostinfo n).2 with
  | none =>
    rw [h2] at h
    injection h with h
    cases h
  | some ps =>
    rw [h2] at h
    dsimp only at h
    by_cases hd : ps.all Char.isDigit = true ∧ ps ≠ []
    · rw [if_pos hd] at h
      by_cases hle : decimalValue ps ≤ 65535
      · rw [if_pos hle] at h
        injection h with h
        injection h with h
        omega
      · rw [if_neg hle] at h
        cases h
    · rw [if_neg hd] at h
      cases h

theorem afterLast_sep_free (sep : Char) (s : PyStr) : sep ∉ afterLast sep s := by
  unfold afterLast
  cases hr : rsplitLast sep s with
  | none =>
    intro hm
    obtain ⟨a, b, hab⟩ := splitFirst_isSome sep s.reverse (List.mem_reverse.mpr hm)
    unfold rsplitLast at hr
    rw [hab] at hr
    cases hr
  | some p =>
    obtain ⟨a, b⟩ := p
    exact (rsplitLast_eq_some sep s a b hr).2

theorem afterLast_of_not_mem (sep : Char) (s : PyStr) (h : sep ∉ s) :
    afterLast sep s = s := by
  unfold afterLast
  rw [rsplitLast_none sep s h]

theorem pyHostinfo_fst_props (n hst : PyStr) (prt : Option PyStr)
    (h : pyHostinfo n = (hst, prt)) (hbr : '[' ∉ afterLast '@' n) :
    '@' ∉ hst ∧ ':' ∉ hst := by
  unfold pyHostinfo at h
  dsimp only at h
  rw [if_neg hbr] at h
  cases hsp : splitFirst ':' (afterLast '@' n) with
  | some p =>
    obtain ⟨a, b⟩ := p
    rw [hsp] at h
    dsimp only at h
    injection h with h1 h2
    subst h1
    constructor
    · intro hm
      exact afterLast_sep_free '@' n ((splitFirst_parts_subset ':' _ a b hsp).1 _ hm)
    · exact (splitFirst_eq_some ':' _ a b hsp).2
  | none =>
    rw [hsp] at h
    dsimp only at h
    injection h with h1 h2
    subst h1
    constructor
    · exact afterLast_sep_free '@' n
    · exact not_mem_of_splitFirst_none ':' _ hsp

theorem pyHostname_getD_not_mem2 (n hst : PyStr) (prt : Option PyStr)
    (hpi : pyHostinfo n = (hst, prt)) (x : Char)
    (hx : ¬ (97 ≤ x.toNat ∧ x.toNat ≤ 122)) (hxm : x ∉ hst) :
    x ∉ (pyHostname n).getD [] := by
  unfold pyHostname
  dsimp only
  rw [hpi]
  dsimp only
  by_cases hh : hst = []
  · rw [if_pos hh]
    exact List.not_mem_nil x
  · rw [if_neg hh]
    cases hsp : splitFirst '%' hst with
    | some p =>
      obtain ⟨pre, post⟩ := p
      dsimp only
      intro hm
      rcases List.mem_append.mp hm with hm | hm
      · exact absurd hm (not_mem_pyLower x hx pre (fun hm2 =>
          hxm ((splitFirst_parts_subset '%' hst pre post hsp).1 x hm2)))
      · rcases List.mem_cons.mp hm with hm | hm
        · subst hm
          obtain ⟨he, -⟩ := splitFirst_eq_some '%' hst pre post hsp
          exact hxm (by
            rw [he]
            exact List.mem_append_right _ (List.mem_cons_self _ _))
        · exact hxm ((splitFirst_parts_subset '%' hst pre post hsp).2 x hm)
    | none =>
      dsimp only
      exact not_mem_pyLower x hx hst hxm

theorem pyHostinfo_plain (host : PyStr) (hat : '@' ∉ host) (hbr : '[' ∉ host)
    (hcol : ':' ∉ host) : pyHostinfo host = (host, none) := by
  unfold pyHostinfo
  dsimp only
  rw [afterLast_of_not_mem '@' host hat, if_neg hbr, splitFirst_none ':' host hcol]

theorem pyHostinfo_with_port (host ds : PyStr) (hat : '@' ∉ host ++ ':' :: ds)
    (hbr : '[' ∉ host ++ ':' :: ds) (hcol : ':' ∉ host) (hne : ds ≠ []) :
    pyHostinfo (host ++ ':' :: ds) = (host, some ds) := by
  unfold pyHostinfo
  dsimp only
  rw [afterLast_of_not_mem '@' _ hat, if_neg hbr,
    splitFirst_append_first ':' host ds hcol]
  dsimp only
  rw [if_neg hne]

theorem pyLower_append (a b : PyStr) : pyLower (a ++ b) = pyLower a ++ pyLower b :=
  List.map_append _ a b

theorem hostname_of_hostinfo (N host : PyStr) (prt : Option PyStr)
    (hinfo : pyHostinfo N = (host, prt)) (hne : host ≠ [])
    (hlow : pyLower host = host) :
    pyLower ((pyHostname N).getD []) = host := by
  unfold pyHostname
  dsimp only
  rw [hinfo]
  dsimp only
  rw [if_neg hne]
  cases hsp : splitFirst '%' host with
  | none =>
    show pyLower (pyLower host) = host
    rw [pyLower_idem, hlow]
  | some p =>
    obtain ⟨pre, post⟩ := p
    show pyLower (pyLower pre ++ '%' :: post) = host
    obtain ⟨he, hnm⟩ := splitFirst_eq_some '%' host pre post hsp
    have hdist : ∀ a b : PyStr, pyLower (a ++ '%' :: b) = pyLower a ++ '%' :: pyLower b := by
      intro a b
      rw [pyLower_append]
      rfl
    rw [hdist, pyLower_idem]
    rw [he, hdist] at hlow
    have hlen : (pyLower pre).length = pre.length := by
      simp [pyLower]
    obtain ⟨hpre, htail⟩ := List.append_inj hlow hlen
    injection htail with hx hpost
    rw [hpre, hpost, ← he]

theorem portNorm_some_elim (sch : PyStr) (v : Option Nat) (p : Nat)
    (h : portNorm sch v = some p) :
    v = some p ∧ p ≠ 0 ∧
      ¬ ((sch = "http".data ∧ p = 80) ∨ (sch = "https".data ∧ p = 443)) := by
  cases v with
  | none =>
    have h' : (none : Option Nat) = some p := h
    cases h'
  | some p0 =>
    have h' : (if (sch = "http".data ∧ p0 = 80) ∨ (sch = "https".data ∧ p0 = 443) ∨ p0 = 0
        then none else some p0) = some p := h
    by_cases hc : (sch = "http".data ∧ p0 = 80) ∨ (sch = "https".data ∧ p0 = 443) ∨ p0 = 0
    · rw [if_pos hc] at h'
      cases h'
    · rw [if_neg hc] at h'
      injection h' with h'
      subst h'
      exact ⟨rfl, fun h0 => hc (Or.inr (Or.inr h0)), fun hd => hc (by tauto)⟩

theorem portNorm_none_elim (sch : PyStr) (v : Option Nat)
    (h : portNorm sch v = none) :
    v = none ∨ ∃ p, v = some p ∧
      ((sch = "http".data ∧ p = 80) ∨ (sch = "https".data ∧ p = 443) ∨ p = 0) := by
  cases v with
  | none => exact Or.inl rfl
  | some p0 =>
    have h' : (if (sch = "http".data ∧ p0 = 80) ∨ (sch = "https".data ∧ p0 = 443) ∨ p0 = 0
        then none else some p0) = none := h
    by_cases hc : (sch = "http".data ∧ p0 = 80) ∨ (sch = "https".data ∧ p0 = 443) ∨ p0 = 0
    · exact Or.inr ⟨p0, rfl, hc⟩
    · rw [if_neg hc] at h'
      cases h'

theorem netlocEnd_free_of_not_mem (N : PyStr) (h1 : '/' ∉ N) (h2 : '?' ∉ N)
    (h3 : '#' ∉ N) : ∀ c ∈ N, isNetlocEnd c = false := by
  intro c hc
  by_cases he : isNetlocEnd c = true
  · rcases isNetlocEnd_cases c he with h | h | h <;> subst h
    · exact absurd hc h1
    · exact absurd hc h2
    · exact absurd hc h3
  · simpa using he

theorem unsafe_free_of_not_mem (N : PyStr) (h1 : '\t' ∉ N)
    (h2 : '\r' ∉ N) (h3 : '\n' ∉ N) :
    ∀ c ∈ N, isUnsafeUrlByte c = false := by
  intro c hc
  by_cases he : isUnsafeUrlByte c = true
  · have h5 : c = '\t' ∨ c = '\r' ∨ c = '\n' := by
      simpa [isUnsafeUrlByte] using he
    rcases h5 with h | h | h <;> subst h
    · exact absurd hc h1
    · exact absurd hc h2
    · exact absurd hc h3
  · simpa using he

theorem hostport_not_mem (host ds : PyStr) (x : Char)
    (hh : x ∉ host) (hd : x ∉ ds) (hc : x ≠ ':') : x ∉ host ++ ':' :: ds := by
  intro hm
  rcases List.mem_append.mp hm with hm | hm
  · exact hh hm
  · rcases List.mem_cons.mp hm with hm | hm
    · exact hc hm
    · exact hd hm

theorem splitParams_slash_semi (pr : PyStr) (h : '/' ∉ pr) :
    splitParams ('/' :: ';' :: pr) = (['/'], pr) := by
  unfold splitParams
  have hr := rsplitLast_append '/' [] (';' :: pr) (by
    intro hm
    rcases List.mem_cons.mp hm with hm | hm
    · exact absurd hm (by decide)
    · exact h hm)
  rw [List.nil_append] at hr
  rw [hr]
  dsimp only
  rw [show splitFirst ';' (';' :: pr) = some ([], pr) from by
    unfold splitFirst
    rw [if_pos rfl]]
  rfl


theorem normalizeCore_skip_false (parsed : ParseResult) (out : PyStr)
    (h : normalizeCore parsed = .ok (some out)) :
    (SKIP_EXTENSIONS.any fun ext => List.isSuffixOf ext (pyLower parsed.path)) = false := by
  unfold normalizeCore at h
  dsimp only at h
  by_cases hc1 : parsed.scheme ≠ "http".data ∧ parsed.scheme ≠ "https".data
  · rw [if_pos hc1] at h
    injection h with h
    cases h
  · rw [if_neg hc1] at h
    by_cases hc2 : (SKIP_EXTENSIONS.any fun ext => List.isSuffixOf ext (pyLower parsed.path)) = true
    · rw [if_pos hc2] at h
      injection h with h
      cases h
    · simpa using hc2

theorem c3_finish (q : ParseResult) (N P : PyStr) (v2 : Option Nat) (u out : PyStr)
    (hq : pyUrlparseD u [] = .ok q)
    (hs : q.scheme ≠ [])
    (hsch : q.scheme = "http".data ∨ q.scheme = "https".data)
    (hP : P = if q.path = [] then ['/'] else q.path)
    (hinv3 : SplitInv ⟨q.scheme, N,
      (if q.params ≠ [] then P ++ ';' :: q.params else P), q.query, []⟩)
    (hN_ne : N ≠ [])
    (hPP1 : q.params ≠ [] → splitParams (P ++ ';' :: q.params) = (P, q.params))
    (hPP2 : q.params = [] → ';' ∈ P → splitParams P = (P, []))
    (houteqN : out = pyUrlunsplit q.scheme N
      (if q.params ≠ [] then P ++ ';' :: q.params else P) q.query [])
    (hskip : (SKIP_EXTENSIONS.any fun ext => List.isSuffixOf ext (pyLower P)) = false)
    (hrebuild : (if (q.scheme = "http".data ∧ v2 = some 80) ∨
         (q.scheme = "https".data ∧ v2 = some 443)
        then pyLower ((pyHostname N).getD [])
        else match v2 with
          | some p => if p ≠ 0
              then pyLower ((pyHostname N).getD []) ++ ':' :: natDigits p
              else pyLower ((pyHostname N).getD [])
          | none => pyLower ((pyHostname N).getD [])) = N)
    (hportN : pyPort N = .ok v2) :
    normalize_url out u = .ok (some out) := by
  have hUP : q.scheme ∈ usesParams := by
    rcases hsch with h0 | h0 <;> rw [h0] <;> decide
  have hPne : P ≠ [] := by
    rw [hP]
    by_cases h0 : q.path = []
    · rw [if_pos h0]
      exact List.cons_ne_nil _ _
    · rw [if_neg h0]
      exact h0
  have hsplitOut : pyUrlsplitD out [] =
      .ok ⟨q.scheme, N, (if q.params ≠ [] then P ++ ';' :: q.params else P), q.query, []⟩ := by
    rw [houteqN]
    exact urlsplit_unsplit_roundtrip
      ⟨q.scheme, N, (if q.params ≠ [] then P ++ ';' :: q.params else P), q.query, []⟩
      hinv3 hN_ne
  have hparseOut : pyUrlparseD out [] =
      .ok ⟨q.scheme, N, P, q.params, q.query, []⟩ := by
    unfold pyUrlparseD
    rw [hsplitOut]
    simp only [Bind.bind, Except.bind]
    by_cases hpr : q.params ≠ []
    · rw [if_pos ⟨hUP, by rw [if_pos hpr]; exact List.mem_append_right _ (List.mem_cons_self _ _)⟩]
      rw [if_pos hpr, hPP1 hpr]
    · have hpe : q.params = [] := not_ne_iff.mp hpr
      by_cases hsemi : ';' ∈ P
      · rw [if_pos ⟨hUP, by rw [if_neg hpr]; exact hsemi⟩]
        rw [if_neg hpr, hPP2 hpe hsemi]
        dsimp only
        rw [hpe]
      · rw [if_neg (fun hx => by
          rw [if_neg hpr] at hx
          exact hsemi hx.2)]
        dsimp only
        rw [if_neg hpr, hpe]
  have hout_ne : out ≠ [] := by
    intro he
    rw [he] at hsplitOut
    have h0 := show Except.ok (⟨[], [], [], [], []⟩ : SplitResult) =
        .ok (⟨q.scheme, N, (if q.params ≠ [] then P ++ ';' :: q.params else P),
          q.query, []⟩ : SplitResult) from hsplitOut
    injection h0 with h0
    injection h0 with h1 h2 h3 h4 h5
    exact hs h1.symm
  rw [normalize_url_stage out u ⟨q.scheme, N, P, q.params, q.query, []⟩
    hout_ne hparseOut hs hN_ne, hq]
  show normalizeCore ⟨q.scheme, N, P, q.params, q.query, []⟩ = .ok (some out)
  unfold normalizeCore
  dsimp only
  rw [if_neg (fun hx => by
    rcases hsch with h0 | h0
    · exact hx.1 h0
    · exact hx.2 h0)]
  rw [if_neg (by rw [hskip]; simp)]
  rw [hportN]
  simp only [Bind.bind, Except.bind]
  rw [hrebuild]
  rw [if_neg hPne]
  rw [show pyLower q.scheme = q.scheme from by
    rcases hsch with h0 | h0 <;> rw [h0] <;> decide]
  show Except.ok (some (pyUrlunsplit q.scheme N
    (if q.params ≠ [] then P ++ ';' :: q.params else P) q.query [])) =
    Except.ok (some out)
  rw [← houteqN]


/-- C3 (corrected): canonicalization is idempotent on every input whose
parse succeeds with a nonempty scheme and netloc, a bracket-free netloc
and a nonempty hostname: re-canonicalizing the output (against the same
base) returns the output unchanged. -/
theorem c3_idempotent_on_success
    (u out : PyStr) (q : ParseResult)
    (hu : u ≠ [])
    (hq : pyUrlparseD u [] = .ok q)
    (hs : q.scheme ≠ []) (hn : q.netloc ≠ [])
    (hbr1 : '[' ∉ q.netloc) (hbr2 : ']' ∉ q.netloc)
    (hhne : pyLower ((pyHostname q.netloc).getD []) ≠ [])
    (hout : normalize_url u u = .ok (some out)) :
    normalize_url out u = .ok (some out) := by
  rw [normalize_url_stage u u q hu hq hs hn, hq] at hout
  have hcore : normalizeCore { q with fragment := [] } = .ok (some out) := hout
  obtain ⟨v, hsch0, hport0, houteq0⟩ := normalizeCore_ok_elim _ out hcore
  have hsch : q.scheme = "http".data ∨ q.scheme = "https".data := hsch0
  have hport : pyPort q.netloc = .ok v := hport0
  have hlowA : pyLower q.scheme = q.scheme := by
    rcases hsch with h0 | h0 <;> rw [h0] <;> decide
  have hUP : q.scheme ∈ usesParams := by
    rcases hsch with h0 | h0 <;> rw [h0] <;> decide
  obtain ⟨s, hs5, e1, e2, e3, e4, h5⟩ := pyUrlparseD_ok_elim u [] q hq
  have hinv1 := parse_raw_inv u [] q rfl rfl (Or.inl rfl) hq
  have hnl_slash : '/' ∉ q.netloc := fun hm =>
    absurd (hinv1.netloc_clean _ hm) (by decide)
  have hnl_q : '?' ∉ q.netloc := fun hm =>
    absurd (hinv1.netloc_clean _ hm) (by decide)
  have hnl_hash : '#' ∉ q.netloc := fun hm =>
    absurd (hinv1.netloc_clean _ hm) (by decide)
  have hnl_t : '\t' ∉ q.netloc := fun hm =>
    absurd (hinv1.netloc_unsafe _ hm) (by decide)
  have hnl_r : '\r' ∉ q.netloc := fun hm =>
    absurd (hinv1.netloc_unsafe _ hm) (by decide)
  have hnl_n : '\n' ∉ q.netloc := fun hm =>
    absurd (hinv1.netloc_unsafe _ hm) (by decide)
  rcases hpi : pyHostinfo q.netloc with ⟨hst, prt⟩
  have hbrA : '[' ∉ afterLast '@' q.netloc := fun hm =>
    hbr1 (afterLast_subset '@' q.netloc _ hm)
  obtain ⟨hst_at, hst_col⟩ := pyHostinfo_fst_props q.netloc hst prt hpi hbrA
  have hst_sub := pyHostinfo_fst_subset q.netloc hst prt hpi
  have hostNM : ∀ x : Char, ¬ (97 ≤ x.toNat ∧ x.toNat ≤ 122) → x ∉ hst →
      x ∉ pyLower ((pyHostname q.netloc).getD []) := by
    intro x hx hxm
    exact not_mem_pyLower x hx _ (pyHostname_getD_not_mem2 q.netloc hst prt hpi x hx hxm)
  have h_at : '@' ∉ pyLower ((pyHostname q.netloc).getD []) :=
    hostNM '@' (by decide) hst_at
  have h_col : ':' ∉ pyLower ((pyHostname q.netloc).getD []) :=
    hostNM ':' (by decide) hst_col
  have h_lb : '[' ∉ pyLower ((pyHostname q.netloc).getD []) :=
    hostNM '[' (by decide) (fun hm => hbr1 (hst_sub _ hm))
  have h_rb : ']' ∉ pyLower ((pyHostname q.netloc).getD []) :=
    hostNM ']' (by decide) (fun hm => hbr2 (hst_sub _ hm))
  have h_sl : '/' ∉ pyLower ((pyHostname q.netloc).getD []) :=
    hostNM '/' (by decide) (fun hm => hnl_slash (hst_sub _ hm))
  have h_qm : '?' ∉ pyLower ((pyHostname q.netloc).getD []) :=
    hostNM '?' (by decide) (fun hm => hnl_q (hst_sub _ hm))
  have h_hash : '#' ∉ pyLower ((pyHostname q.netloc).getD []) :=
    hostNM '#' (by decide) (fun hm => hnl_hash (hst_sub _ hm))
  have h_t : '\t' ∉ pyLower ((pyHostname q.netloc).getD []) :=
    hostNM '\t' (by decide) (fun hm => hnl_t (hst_sub _ hm))
  have h_r : '\r' ∉ pyLower ((pyHostname q.netloc).getD []) :=
    hostNM '\r' (by decide) (fun hm => hnl_r (hst_sub _ hm))
  have h_n : '\n' ∉ pyLower ((pyHostname q.netloc).getD []) :=
    hostNM '\n' (by decide) (fun hm => hnl_n (hst_sub _ hm))
  have h_low : pyLower (pyLower ((pyHostname q.netloc).getD [])) =
      pyLower ((pyHostname q.netloc).getD []) := pyLower_idem _
  have hpp := raw_path_parts q
  have hpath_hash : '#' ∉ q.path := fun hm => hinv1.path_hash (hpp.1 _ hm)
  have hparams_hash : '#' ∉ q.params := fun hm => hinv1.path_hash (hpp.2 _ hm)
  have hpath_q : '?' ∉ q.path := fun hm => hinv1.path_q (hpp.1 _ hm)
  have hparams_q : '?' ∉ q.params := fun hm => hinv1.path_q (hpp.2 _ hm)
  have hpath_t : '\t' ∉ q.path := fun hm =>
    absurd (hinv1.path_unsafe _ (hpp.1 _ hm)) (by decide)
  have hpath_r : '\r' ∉ q.path := fun hm =>
    absurd (hinv1.path_unsafe _ (hpp.1 _ hm)) (by decide)
  have hpath_n : '\n' ∉ q.path := fun hm =>
    absurd (hinv1.path_unsafe _ (hpp.1 _ hm)) (by decide)
  have hparams_t : '\t' ∉ q.params := fun hm =>
    absurd (hinv1.path_unsafe _ (hpp.2 _ hm)) (by decide)
  have hparams_r : '\r' ∉ q.params := fun hm =>
    absurd (hinv1.path_unsafe _ (hpp.2 _ hm)) (by decide)
  have hparams_n : '\n' ∉ q.params := fun hm =>
    absurd (hinv1.path_unsafe _ (hpp.2 _ hm)) (by decide)
  have hPne : (if q.path = [] then ['/'] else q.path) ≠ [] := by
    by_cases h0 : q.path = []
    · rw [if_pos h0]
      exact List.cons_ne_nil _ _
    · rw [if_neg h0]
      exact h0
  have hPhead : (if q.path = [] then ['/'] else q.path).head? = some '/' := by
    by_cases h0 : q.path = []
    · rw [if_pos h0]
      rfl
    · rw [if_neg h0]
      have hrp := hinv1.path_slash hn
      by_cases hpr : q.params ≠ []
      · rw [if_pos hpr] at hrp
        rcases hrp with h9 | h9
        · rcases List.append_eq_nil.mp h9 with ⟨-, h2⟩
          cases h2
        · rw [head_append_of_ne_nil _ h0] at h9
          exact h9
      · rw [if_neg hpr] at hrp
        rcases hrp with h9 | h9
        · exact absurd h9 h0
        · exact h9
  have hPP1 : q.params ≠ [] →
      splitParams ((if q.path = [] then ['/'] else q.path) ++ ';' :: q.params) =
        ((if q.path = [] then ['/'] else q.path), q.params) := by
    intro hpr
    rcases h5 with ⟨-, -, hpe⟩ | ⟨-, hsp⟩
    · exact absurd hpe hpr
    · by_cases h0 : q.path = []
      · rw [if_pos h0]
        exact splitParams_slash_semi q.params (splitParams_snd_no_slash _ _ _ hsp)
      · rw [if_neg h0]
        exact splitParams_reglue _ _ _ hsp hpr
  have hPP2 : q.params = [] → ';' ∈ (if q.path = [] then ['/'] else q.path) →
      splitParams (if q.path = [] then ['/'] else q.path) =
        ((if q.path = [] then ['/'] else q.path), []) := by
    intro hpe hsemi
    by_cases h0 : q.path = []
    · rw [if_pos h0] at hsemi
      rcases List.mem_cons.mp hsemi with h | h
      · exact absurd h (by decide)
      · cases h
    · rw [if_neg h0] at hsemi ⊢
      rcases h5 with ⟨hnc, hp, -⟩ | ⟨-, hsp⟩
      · exact absurd ⟨by rw [← e1]; exact hUP, by rw [← hp]; exact hsemi⟩ hnc
      · exact splitParams_self _ _ _ hsp hpe
  have hskipP : (SKIP_EXTENSIONS.any fun ext =>
      List.isSuffixOf ext (pyLower (if q.path = [] then ['/'] else q.path))) = false := by
    by_cases h0 : q.path = []
    · rw [if_pos h0]
      decide
    · rw [if_neg h0]
      exact normalizeCore_skip_false _ out hcore
  have hinv3gen : ∀ N : PyStr, (∀ c ∈ N, isNetlocEnd c = false) →
      ('[' ∉ N) → (']' ∉ N) → (∀ c ∈ N, isUnsafeUrlByte c = false) →
      SplitInv ⟨q.scheme, N,
        (if q.params ≠ [] then (if q.path = [] then ['/'] else q.path) ++ ';' :: q.params
         else (if q.path = [] then ['/'] else q.path)), q.query, []⟩ := by
    intro N hN2 hN3 hN4 hN5
    refine
      { scheme_lower := hlowA
        scheme_chars := by
          show q.scheme.all isSchemeChar = true
          rcases hsch with h0 | h0 <;> rw [h0] <;> decide
        scheme_head := Or.inr (by
          show schemeHeadOk q.scheme = true
          rcases hsch with h0 | h0 <;> rw [h0] <;> decide)
        netloc_clean := hN2
        netloc_br := ⟨fun hb => by
            rcases hb with ⟨h, -⟩ | ⟨h, -⟩
            exacts [hN3 h, hN4 h],
          fun hb => absurd hb.1 hN3⟩
        path_hash := outPath_not_mem '#' q.path q.params hpath_hash hparams_hash
          (by decide) (by decide)
        path_q := outPath_not_mem '?' q.path q.params hpath_q hparams_q
          (by decide) (by decide)
        query_hash := hinv1.query_hash
        netloc_unsafe := hN5
        path_unsafe := unsafe_free_of_not_mem _
          (outPath_not_mem '\t' q.path q.params hpath_t hparams_t (by decide) (by decide))
          (outPath_not_mem '\r' q.path q.params hpath_r hparams_r (by decide) (by decide))
          (outPath_not_mem '\n' q.path q.params hpath_n hparams_n (by decide) (by decide))
        query_unsafe := hinv1.query_unsafe
        path_slash := fun _ => Or.inr ?_ }
    show (if q.params ≠ [] then (if q.path = [] then ['/'] else q.path) ++ ';' :: q.params
         else (if q.path = [] then ['/'] else q.path)).head? = some '/'
    by_cases hpr : q.params ≠ []
    · rw [if_pos hpr, head_append_of_ne_nil _ hPne]
      exact hPhead
    · rw [if_neg hpr]
      exact hPhead
  have hostLeaf : out = pyUrlunparse
      ⟨q.scheme, pyLower ((pyHostname q.netloc).getD []),
       (if q.path = [] then ['/'] else q.path), q.params, q.query, []⟩ →
      normalize_url out u = .ok (some out) := by
    intro houteqH
    have hinfoN := pyHostinfo_plain (pyLower ((pyHostname q.netloc).getD []))
      h_at h_lb h_col
    refine c3_finish q (pyLower ((pyHostname q.netloc).getD []))
      (if q.path = [] then ['/'] else q.path) none u out hq hs hsch rfl
      (hinv3gen _ (netlocEnd_free_of_not_mem _ h_sl h_qm h_hash) h_lb h_rb
        (unsafe_free_of_not_mem _ h_t h_r h_n))
      hhne hPP1 hPP2 houteqH hskipP ?_ ?_
    · rw [if_neg (by rintro (⟨-, hx⟩ | ⟨-, hx⟩) <;> cases hx)]
      show pyLower ((pyHostname (pyLower ((pyHostname q.netloc).getD []))).getD []) =
        pyLower ((pyHostname q.netloc).getD [])
      exact hostname_of_hostinfo _ _ none hinfoN hhne h_low
    · show pyPort (pyLower ((pyHostname q.netloc).getD [])) = .ok none
      unfold pyPort
      rw [hinfoN]
  have portLeaf : ∀ p : Nat, p ≠ 0 →
      ¬ ((q.scheme = "http".data ∧ p = 80) ∨ (q.scheme = "https".data ∧ p = 443)) →
      p ≤ 65535 →
      out = pyUrlunparse
        ⟨q.scheme, pyLower ((pyHostname q.netloc).getD []) ++ ':' :: natDigits p,
         (if q.path = [] then ['/'] else q.path), q.params, q.query, []⟩ →
      normalize_url out u = .ok (some out) := by
    intro p hp0 hdef hple houteqH
    have hds_ne : natDigits p ≠ [] := natDigits_ne_nil p
    have h_at2 : '@' ∉ pyLower ((pyHostname q.netloc).getD []) ++ ':' :: natDigits p :=
      hostport_not_mem _ _ '@' h_at (natDigits_not_mem p '@' (by decide)) (by decide)
    have h_lb2 : '[' ∉ pyLower ((pyHostname q.netloc).getD []) ++ ':' :: natDigits p :=
      hostport_not_mem _ _ '[' h_lb (natDigits_not_mem p '[' (by decide)) (by decide)
    have h_rb2 : ']' ∉ pyLower ((pyHostname q.netloc).getD []) ++ ':' :: natDigits p :=
      hostport_not_mem _ _ ']' h_rb (natDigits_not_mem p ']' (by decide)) (by decide)
    have hinfoN := pyHostinfo_with_port (pyLower ((pyHostname q.netloc).getD []))
      (natDigits p) h_at2 h_lb2 h_col hds_ne
    have hall : (natDigits p).all Char.isDigit = true :=
      List.all_eq_true.mpr (fun c hc => natDigits_digit p c hc)
    refine c3_finish q (pyLower ((pyHostname q.netloc).getD []) ++ ':' :: natDigits p)
      (if q.path = [] then ['/'] else q.path) (some p) u out hq hs hsch rfl
      (hinv3gen _
        (netlocEnd_free_of_not_mem _
          (hostport_not_mem _ _ '/' h_sl (natDigits_not_mem p '/' (by decide)) (by decide))
          (hostport_not_mem _ _ '?' h_qm (natDigits_not_mem p '?' (by decide)) (by decide))
          (hostport_not_mem _ _ '#' h_hash (natDigits_not_mem p '#' (by decide)) (by decide)))
        h_lb2 h_rb2
        (unsafe_free_of_not_mem _
          (hostport_not_mem _ _ '\t' h_t (natDigits_not_mem p '\t' (by decide)) (by decide))
          (hostport_not_mem _ _ '\r' h_r (natDigits_not_mem p '\r' (by decide)) (by decide))
          (hostport_not_mem _ _ '\n' h_n (natDigits_not_mem p '\n' (by decide)) (by decide))))
      (by
        intro he
        rcases List.append_eq_nil.mp he with ⟨-, h2⟩
        cases h2)
      hPP1 hPP2 houteqH hskipP ?_ ?_
    · rw [if_neg (by
        rintro (⟨ha, hx⟩ | ⟨ha, hx⟩)
        · exact hdef (Or.inl ⟨ha, by injection hx⟩)
        · exact hdef (Or.inr ⟨ha, by injection hx⟩))]
      dsimp only
      rw [if_pos hp0]
      rw [hostname_of_hostinfo _ _ (some (natDigits p)) hinfoN hhne h_low]
    · show pyPort (pyLower ((pyHostname q.netloc).getD []) ++ ':' :: natDigits p) =
        .ok (some p)
      unfold pyPort
      rw [hinfoN]
      dsimp only
      rw [if_pos ⟨hall, hds_ne⟩, decimalValue_natDigits p, if_pos hple]
  cases v with
  | none =>
    have hM : out = pyUrlunparse
        ⟨pyLower q.scheme, pyLower ((pyHostname q.netloc).getD []),
         (if q.path = [] then ['/'] else q.path), q.params, q.query, []⟩ :=
      houteq0.trans (by
        rw [if_neg (by rintro (⟨-, hx⟩ | ⟨-, hx⟩) <;> cases hx)])
    rw [hlowA] at hM
    exact hostLeaf hM
  | some p =>
    by_cases hdef : (q.scheme = "http".data ∧ p = 80) ∨ (q.scheme = "https".data ∧ p = 443)
    · have hM : out = pyUrlunparse
          ⟨pyLower q.scheme, pyLower ((pyHostname q.netloc).getD []),
           (if q.path = [] then ['/'] else q.path), q.params, q.query, []⟩ :=
        houteq0.trans (by
          rw [if_pos (by
            rcases hdef with ⟨ha, hb⟩ | ⟨ha, hb⟩
            · exact Or.inl ⟨ha, by rw [hb]⟩
            · exact Or.inr ⟨ha, by rw [hb]⟩)])
      rw [hlowA] at hM
      exact hostLeaf hM
    · by_cases hp0 : p = 0
      · subst hp0
        have hM : out = pyUrlunparse
            ⟨pyLower q.scheme, pyLower ((pyHostname q.netloc).getD []),
             (if q.path = [] then ['/'] else q.path), q.params, q.query, []⟩ :=
          houteq0.trans (by
            rw [if_neg (by
              rintro (⟨ha, hx⟩ | ⟨ha, hx⟩)
              · exact hdef (Or.inl ⟨ha, by injection hx⟩)
              · exact hdef (Or.inr ⟨ha, by injection hx⟩))]
            rfl)
        rw [hlowA] at hM
        exact hostLeaf hM
      · have hM : out = pyUrlunparse
            ⟨pyLower q.scheme,
             (if p ≠ 0 then pyLower ((pyHostname q.netloc).getD []) ++ ':' :: natDigits p
              else pyLower ((pyHostname q.netloc).getD [])),
             (if q.path = [] then ['/'] else q.path), q.params, q.query, []⟩ :=
          houteq0.trans (by
            rw [if_neg (by
              rintro (⟨ha, hx⟩ | ⟨ha, hx⟩)
              · exact hdef (Or.inl ⟨ha, by injection hx⟩)
              · exact hdef (Or.inr ⟨ha, by injection hx⟩))])
        rw [if_pos hp0, hlowA] at hM
        exact portLeaf p hp0 hdef (pyPort_le q.netloc p hport) hM

/-- Witness for C3: the canonicalization of `http://E.com:8080/a?b#c` is
a fixed point. -/
theorem c3_witness :
    normalize_url ("http://e.com:8080/a?b").data ("http://E.com:8080/a?b#c").data =
      .ok (some ("http://e.com:8080/a?b").data) :=
  c3_idempotent_on_success ("http://E.com:8080/a?b#c").data
    ("http://e.com:8080/a?b").data
    ⟨"http".data, "E.com:8080".data, "/a".data, [], "b".data, "c".data⟩
    (by decide) (by decide) (by decide) (by decide) (by decide) (by decide)
    (by decide) (by decide)

end Crawler
